import Mathlib

/-!
# M8M mining coordination engine: work-unit header assembly and miner mailboxes

A shallow embedding of `stratum::AbstractWorkUnit::MakeNoncedHeader`
(Common/Stratum/AbstractWorkUnit.h), of the owner-thread calls and the destructor of
`AbstractMiner` (M8M/AbstractMiner.h), of the versioning hash of
`AbstractAlgoImplementation` (M8M/AbstractAlgoImplementation.h) and of the command-line
parser `StartParams` (M8M/StartParams.h), followed by the properties proved of them.

Conventions of the embedding.

* `std::array<aubyte, N>` is `Buf N`, a total map from the `N` indices to bytes.
* `asizei` is `size_t`; values are naturals below `2 ^ 64` and subtraction wraps
  (`asizeiSub`).
* A call that the C++ standard leaves undefined, or that ends in the runtime's
  constraint handler, yields `none`.
* Every mailbox call runs under the mailbox mutex, so a call is one atomic
  state transition; the mutex itself is not modelled.
* `const char*` arguments are NUL-free strings.
* A loop whose end depends on its inputs takes a `fuel` bound on its passes; running out
  of fuel is told apart from returning.
* The clock, the file system and the digest function are parameters.
* A NUL-terminated `wchar_t` buffer is the list of the character codes before its first
  NUL; reading at the terminator gives 0, and writing 0 at an index cuts the list there.
-/

namespace M8M

/-! ## Bytes and fixed-size buffers -/

/-- One octet (`aubyte`). -/
abbrev aubyte := Fin 256

/-- A fixed-size byte array, `std::array<aubyte, n>`. -/
abbrev Buf (n : Nat) := Fin n → aubyte

/-- The listed contents of a buffer, first byte first. -/
def Buf.toList {n : Nat} (b : Buf n) : List aubyte := List.ofFn b

/-- The width of `asizei` arithmetic. -/
def asizeiMod : Nat := 2 ^ 64

/-- Unsigned wrapping subtraction on `asizei`, as `a - b` and `a -= b` compute it. -/
def asizeiSub (a b : Nat) : Nat := (a % asizeiMod + (asizeiMod - b % asizeiMod)) % asizeiMod

/-- The effect of `std::copy(src.cbegin(), src.cend(), dst.begin() + off)` and of a
successful `memcpy`: the `m` bytes of `src` land at `dst[off .. off + m)`, every
other byte of `dst` keeps its value. -/
def copyAt {n m : Nat} (dst : Buf n) (off : Nat) (src : Buf m) : Buf n :=
  fun i => if h : off ≤ i.val ∧ i.val < off + m then src ⟨i.val - off, by omega⟩ else dst i

/-- The call `memcpy_s(dst.data() + off, destsz, src.data(), sizeof(src))`. The copy
happens when the `m` source bytes fit in `destsz` and the destination window
`[off, off + destsz)` lies inside the array; otherwise the call either reaches
the constraint handler (`m > destsz`) or addresses memory outside the array, and
there is no resulting buffer. -/
def memcpy_s {n m : Nat} (dst : Buf n) (off destsz : Nat) (src : Buf m) : Option (Buf n) :=
  if m ≤ destsz ∧ off + destsz ≤ n then some (copyAt dst off src) else none

/-- The bytes `b[off .. off + len)` of a buffer. -/
def slice {n : Nat} (b : Buf n) (off len : Nat) (h : off + len ≤ n) : Buf len :=
  fun i => b ⟨off + i.val, by omega⟩

/-- Modelled from the spec: `btc::FlipIntegerBytes<count>(dst, src)` lives in
Common/BTC/Funcs.h, which is not among the sources. The spec describes it as the
byte flip "in 4-byte groups": each of the `count` 32-bit words of `src` is written
to the same word of the result with its four bytes in reverse order. -/
def FlipIntegerBytes (count : Nat) {m : Nat} (src : Buf m) (h : 4 * count ≤ m) :
    Buf (4 * count) :=
  fun i => src ⟨4 * (i.val / 4) + (3 - i.val % 4), by omega⟩

/-! ## Work units -/

/-- Coinbase description of a work unit (`WUCoinbaseDesc`); `merkles` holds the
32-byte `hash` of every `btc::MerkleRoot` of the branch. -/
structure WUCoinbaseDesc where
  binary : List aubyte
  nonceTwoOff : Nat
  merkles : List (Buf 32)
  merkleOff : Nat

/-- The fields of `AbstractWorkUnit` (with those of its base `WUJobInfo`). -/
structure AbstractWorkUnit where
  nonceOne : List aubyte
  job : String
  coinbase : WUCoinbaseDesc
  ntime : Int
  nonce2 : Nat
  restart : Bool
  header : Buf 128
  blankHeader : Buf 128

/-- One pass of the loop body of `MakeNoncedHeader` over the pair
`(merkleRoot, merkleSHA)`: the sibling goes to `merkleSHA[32 .. 64)`, the hash of the
64 bytes becomes `merkleRoot`, which is copied back to `merkleSHA[0 .. 32)`. -/
def merkleStep (SHA256Based : Buf 64 → Buf 32) (st : Buf 32 × Buf 64) (sign : Buf 32) :
    Buf 32 × Buf 64 :=
  let merkleSHA := copyAt st.2 32 sign
  let merkleRoot := SHA256Based merkleSHA
  (merkleRoot, copyAt merkleSHA 0 merkleRoot)

/-- The method `AbstractWorkUnit::MakeNoncedHeader`. `SHA256Based` is the 64-to-32 byte
hash `btc::SHA256Based`, `MakeCBMerkle` the pure virtual leaf hash, and `scratch` the
indeterminate initial contents of the local `merkleSHA`. The method has no
parameter and reads no endianness flag. -/
def MakeNoncedHeader (SHA256Based : Buf 64 → Buf 32) (MakeCBMerkle : AbstractWorkUnit → Buf 32)
    (scratch : Buf 64) (wu : AbstractWorkUnit) : Option AbstractWorkUnit :=
  let merkleRoot := MakeCBMerkle wu
  let merkleSHA := copyAt scratch 0 merkleRoot
  let st := wu.coinbase.merkles.foldl (merkleStep SHA256Based) (merkleRoot, merkleSHA)
  let merkleRoot : Buf 32 := FlipIntegerBytes 8 st.2 (by decide)
  match memcpy_s wu.header 0 128 wu.blankHeader with
  | none => none
  | some raw =>
    match memcpy_s raw wu.coinbase.merkleOff (asizeiSub 128 wu.coinbase.merkleOff) merkleRoot with
    | none => none
    | some hdr => some { wu with header := hdr }

/-! ### Reference definitions for the merkle law -/

/-- The 64-byte concatenation `a ‖ b` of two 32-byte values: `a` left, `b` right. -/
def concat32 (a b : Buf 32) : Buf 64 :=
  fun i => if h : i.val < 32 then a ⟨i.val, h⟩ else b ⟨i.val - 32, by omega⟩

/-- The merkle root as the spec writes it: `fold(L, [s1..sk], fun a b => H(a ‖ b))`. -/
def merkleFold (H : Buf 64 → Buf 32) (L : Buf 32) (branch : List (Buf 32)) : Buf 32 :=
  branch.foldl (fun a b => H (concat32 a b)) L

/-- The 4-byte-group flip of a 32-byte value. -/
def flip32 (x : Buf 32) : Buf 32 := FlipIntegerBytes 8 x (by decide)

/-- A buffer with every byte equal to `v`. -/
def Buf.fill (n : Nat) (v : aubyte) : Buf n := fun _ => v

/-- A small stand-in for the 64-to-32 byte hash, used to run the model on concrete
inputs: byte `i` of the result is `3 * left[i] + right[i] + i` modulo 256. -/
def sampleHash : Buf 64 → Buf 32 :=
  fun b i => 3 * b ⟨i.val, by omega⟩ + b ⟨i.val + 32, by omega⟩ + ⟨i.val, by omega⟩

/-- A work unit with an all-zero blank header, a stale header of `0xee` bytes and
the given branch and merkle offset. -/
def sampleWU (merkles : List (Buf 32)) (merkleOff : Nat) : AbstractWorkUnit :=
  { nonceOne := [], job := "job", ntime := 0, nonce2 := 0, restart := false,
    coinbase := { binary := [1, 0, 0, 0], nonceTwoOff := 0, merkles := merkles,
                  merkleOff := merkleOff },
    header := Buf.fill 128 0xee, blankHeader := Buf.fill 128 0 }

/-- The loop invariant of `MakeNoncedHeader`: the left half of `merkleSHA` holds a copy
of `merkleRoot`. -/
def leftHalfIs (st : Buf 32 × Buf 64) : Prop :=
  ∀ i : Fin 32, st.2 ⟨i.val, by omega⟩ = st.1 i

/-- The double SHA-256 of the four bytes `01 00 00 00`, the leaf hash of the spec's first
end-to-end scenario. -/
def dsha256_01000000 : Buf 32 := fun i =>
  ([0x41, 0xf7, 0x58, 0xf2, 0xe5, 0xcc, 0x07, 0x8d, 0x37, 0x95, 0xb4, 0xfc, 0x0c, 0xb6, 0x0c, 0x2d,
    0x73, 0x5f, 0xa9, 0x2c, 0xc0, 0x20, 0x57, 0x2b, 0xdc, 0x98, 0x2d, 0xd2, 0xd5, 0x64, 0xd1, 0x1b]
    : List aubyte).getD i.val 0

/-- The merkle slot as the comment on `AbstractAlgoImplementation::littleEndianAlgo` documents
it: flipped when the flag is false, as built when it is true. -/
def documentedMerkleSlot (littleEndianAlgo : Bool) (root : Buf 32) : Buf 32 :=
  if littleEndianAlgo then root else flip32 root

/-! ## The miner: families, provider, mailboxes -/

/-- Case-insensitive string equality, `!_stricmp(a, b)`: the two strings agree after
mapping `A`..`Z` to lower case. -/
def stricmpEq (a b : String) : Bool :=
  a.data.map Char.toLower == b.data.map Char.toLower

/-- A compute device of the provider (`MiningProcessorsProvider::Device`), identified by
its handle. -/
structure Device where
  handle : Nat
deriving DecidableEq, Repr

/-- A platform of the provider with its devices. -/
structure Platform where
  devices : List Device
deriving DecidableEq, Repr

/-- The provider (`MiningProcessorsProvider`): a tree of platforms and devices. -/
structure MiningProcessorsProvider where
  platforms : List Platform
deriving DecidableEq, Repr

/-- A JSON value as `rapidjson::Value` presents it. -/
inductive Value where
  | null
  | bool (b : Bool)
  | number (n : Int)
  | string (s : String)
  | array (els : List Value)
  | object (members : List (String × Value))

/-- An algorithm implementation (`AbstractAlgoImplementation`). `GetDeviceUsedConfig`,
`GetNumSettings`, `GetSourceFileAndKernel` and `GetBadConfigReasons` are its virtual methods of
those names (`GetSourceFileAndKernel settingIndex stepIndex` is the pair of file name and
kernel entry name); `settings` lists, in call order, the argument of every `AddSettings`
call it has received. -/
structure AbstractAlgoImplementation where
  name : String
  version : String
  littleEndianAlgo : Bool
  GetDeviceUsedConfig : Device → Nat
  settings : List Value
  GetNumSettings : Nat
  GetSourceFileAndKernel : Nat → Nat → String × String
  GetBadConfigReasons : Platform → Device → List String

/-- The method `AbstractAlgoImplementation::AreYou`. -/
def AbstractAlgoImplementation.AreYou (imp : AbstractAlgoImplementation) (name : String) : Bool :=
  stricmpEq name imp.name

/-- The method `AbstractAlgoImplementation::GetName`. -/
def AbstractAlgoImplementation.GetName (imp : AbstractAlgoImplementation) : String := imp.name

/-- Modelled from the spec: `AlgoImplementationInterface::AddSettings` is virtual and has no
body in the sources; the spec says it "appends a candidate configuration". -/
def AbstractAlgoImplementation.AddSettings (imp : AbstractAlgoImplementation) (v : Value) :
    AbstractAlgoImplementation :=
  { imp with settings := imp.settings ++ [v] }

/-- An algorithm family (`AlgoFamily`): a name and its implementations. -/
structure AlgoFamily where
  name : String
  implementations : List AbstractAlgoImplementation

/-- Modelled from the spec: `AlgoFamily::AreYou` lives in M8M/AlgoFamily.h, which is not
among the sources; the spec says family "name comparisons are case-insensitive". -/
def AlgoFamily.AreYou (fam : AlgoFamily) (name : String) : Bool :=
  stricmpEq name fam.name

/-- Modelled from the spec: the `Nonces` record of M8M/MinerInterface.h (not among the
sources), `{job_id, nonce2, header_snapshot (128 bytes), candidate_nonces}`. -/
structure Nonces where
  job : String
  nonce2 : Nat
  header : Buf 128
  nonces : List Nat

/-- The inbox `AbstractMiner::AsyncInput`. `owner` is the address of the pool, `none` for a
null pointer; `run` and `wu` are owning pointers, `none` when empty. -/
structure AsyncInput where
  terminate : Bool
  checkNonces : Bool
  run : Option AbstractAlgoImplementation
  owner : Option Nat
  wu : Option AbstractWorkUnit

/-- The outbox `AbstractMiner::AsyncOutput`. -/
structure AsyncOutput where
  found : List Nonces
  terminated : Bool
  initialized : Bool
  error : Bool × String

/-- The state of an `AbstractMiner`. -/
structure AbstractMiner where
  algoFamilies : List AlgoFamily
  hwProcessors : MiningProcessorsProvider
  currAlgo : String
  currImpl : String
  toMiner : AsyncInput
  fromMiner : AsyncOutput

/-- The private method `AbstractMiner::GetMiningAlgoImp`. The result of `std::find_if` is
dereferenced without a check: when no family answers to `currAlgo` there is no
defined result (`none`). Otherwise the result is the first implementation that
answers to `currImpl`, or the null pointer (`some none`). -/
def GetMiningAlgoImp (m : AbstractMiner) : Option (Option AbstractAlgoImplementation) :=
  if m.currAlgo.length = 0 then some none
  else
    match m.algoFamilies.find? (fun test => test.AreYou m.currAlgo) with
    | none => none
    | some fam => some (fam.implementations.find? (fun imp => imp.AreYou m.currImpl))

/-- The method `AbstractMiner::SetCurrentAlgo`. The first component is the returned value, or
the thrown string; the second is the miner afterwards. -/
def SetCurrentAlgo (m : AbstractMiner) (algo implementation : String) :
    Except String Bool × AbstractMiner :=
  if m.currAlgo.length ≠ 0 ∨ m.currImpl.length ≠ 0 then
    (.error ("Miner already set up to run \"" ++ m.currAlgo ++ "." ++ m.currImpl ++
      ", algorithm switching not yet supported."), m)
  else
    match m.algoFamilies.find? (fun test => test.AreYou algo) with
    | none => (.ok false, m)
    | some fam =>
      match fam.implementations.find? (fun test => test.AreYou implementation) with
      | none => (.ok false, m)
      | some _ => (.ok true, { m with currAlgo := algo, currImpl := implementation })

/-- The loop `for(loop = 0; loop < found.size(); loop++) results.push_back(found[loop])` of
`SharesFound`, from index `loop` on. -/
def pushFound (found : List Nonces) (loop : Nat) (results : List Nonces) : List Nonces :=
  if h : loop < found.length then pushFound found (loop + 1) (results ++ [found[loop]])
  else results
termination_by found.length - loop

/-- The method `AbstractMiner::SharesFound`: the returned flag, the caller's `results` afterwards
and the miner afterwards. -/
def SharesFound (m : AbstractMiner) (results : List Nonces) :
    Bool × List Nonces × AbstractMiner :=
  if m.fromMiner.found.length = 0 then (false, results, m)
  else
    (true, pushFound m.fromMiner.found 0 results,
      { m with fromMiner := { m.fromMiner with found := [] } })

/-- The method `AbstractMiner::Mangle`: the miner afterwards and the caller's unit handle
afterwards (emptied by the move). -/
def Mangle (m : AbstractMiner) (owner : Nat) (wu : Option AbstractWorkUnit) :
    AbstractMiner × Option AbstractWorkUnit :=
  ({ m with toMiner := { m.toMiner with owner := some owner, wu := wu } }, none)

/-- The method `AbstractMiner::GetCurrentPool`. -/
def GetCurrentPool (m : AbstractMiner) : Option Nat := m.toMiner.owner

/-- The method `AbstractMiner::UnexpectedlyTerminated`: the returned flag, the caller's `desc`
afterwards and the miner afterwards. A moved-from `std::string` is left empty. -/
def UnexpectedlyTerminated (m : AbstractMiner) (desc : String) : Bool × String × AbstractMiner :=
  if m.toMiner.terminate = false ∧ m.fromMiner.terminated = true then
    if m.fromMiner.error.1 = true then
      (true, m.fromMiner.error.2,
        { m with fromMiner := { m.fromMiner with error := (m.fromMiner.error.1, "") } })
    else (true, desc, m)
  else (false, desc, m)

/-- A bare implementation with the given name: version `"1"`, no settings, every
device unused, no kernel steps, no complaint about any device. -/
def sampleImpl (name : String) : AbstractAlgoImplementation :=
  { name := name, version := "1", littleEndianAlgo := false, GetDeviceUsedConfig := fun _ => 0,
    settings := [], GetNumSettings := 0, GetSourceFileAndKernel := fun _ _ => ("", ""),
    GetBadConfigReasons := fun _ _ => [] }

/-- A freshly constructed miner over the given families and provider: nothing bound,
mailboxes as their constructors leave them. -/
def newMiner (algos : List AlgoFamily) (hw : MiningProcessorsProvider) : AbstractMiner :=
  { algoFamilies := algos, hwProcessors := hw, currAlgo := "", currImpl := "",
    toMiner := { terminate := false, checkNonces := true, run := none, owner := none, wu := none },
    fromMiner := { found := [], terminated := false, initialized := false, error := (false, "") } }

/-- A registry with an unnamed family holding an unnamed implementation, followed by
the family `"sha"` with the implementation `"cl"`. -/
def unnamedFirstMiner : AbstractMiner :=
  newMiner [{ name := "", implementations := [sampleImpl ""] },
            { name := "sha", implementations := [sampleImpl "cl"] }] { platforms := [] }

/-- A registry with the families `"Scrypt"` (implementation `"Multi"`) and `"sha"`
(implementation `"cl"`). -/
def twoFamilyMiner : AbstractMiner :=
  newMiner [{ name := "Scrypt", implementations := [sampleImpl "Multi"] },
            { name := "sha", implementations := [sampleImpl "cl"] }] { platforms := [] }

/-- The platform loop of `GetDeviceConfig` over the platforms still to visit: `device` is the
running `asizei` index, `devptr` the pointer found so far (`none` for null). Each pass
tests `device < devices.size()`, takes the address of `devices[device]` on success, and
then subtracts the platform size from `device` in every case, with wrap-around. -/
def deviceLoop : List Platform → Nat → Option Device → Option Device
  | [], _, devptr => devptr
  | plat :: rest, device, devptr =>
    let devptr := if h : device < plat.devices.length then some (plat.devices[device]) else devptr
    deviceLoop rest (asizeiSub device plat.devices.length) devptr

/-- The method `AbstractMiner::GetDeviceConfig`: the returned flag and the caller's `config`
afterwards; `none` when the call has no defined result (see `GetMiningAlgoImp`). -/
def GetDeviceConfig (m : AbstractMiner) (config device : Nat) : Option (Bool × Nat) :=
  match deviceLoop m.hwProcessors.platforms device none with
  | none => some (false, config)
  | some dev =>
    match GetMiningAlgoImp m with
    | none => none
    | some none => some (true, 0)
    | some (some imp) => some (true, imp.GetDeviceUsedConfig dev)

/-- The devices of the provider in platform-major linear order. -/
def allDevices : List Platform → List Device
  | [] => []
  | plat :: rest => plat.devices ++ allDevices rest

/-- The number of devices of the first `j` platforms, `n_0 + ... + n_(j-1)`. -/
def devicesBefore (platforms : List Platform) (j : Nat) : Nat :=
  ((platforms.take j).map (fun plat => plat.devices.length)).sum

/-- The total number of devices of the provider. -/
def totalDevices (platforms : List Platform) : Nat :=
  (platforms.map (fun plat => plat.devices.length)).sum

/-- A provider with platforms of 2, 0 and 3 devices; the handles are 10, 11 and 30, 31, 32. -/
def sampleProvider : MiningProcessorsProvider :=
  { platforms := [{ devices := [⟨10⟩, ⟨11⟩] }, { devices := [] },
                  { devices := [⟨30⟩, ⟨31⟩, ⟨32⟩] }] }

/-- A miner over `sampleProvider` bound to `sha/cl`, whose implementation maps the device
with handle 31 to its second setting (config 2) and leaves every other device unused. -/
def boundSampleMiner : AbstractMiner :=
  { newMiner [{ name := "sha", implementations :=
        [{ sampleImpl "cl" with
            GetDeviceUsedConfig := fun dev => if dev.handle = 31 then 2 else 0 }] }]
      sampleProvider with
    currAlgo := "sha", currImpl := "cl" }

/-- The value `GetDeviceConfig` stores in `config` once the device is known: the used config of
the bound implementation, or 0 when `GetMiningAlgoImp` returns the null pointer. -/
def configOf (imp : Option AbstractAlgoImplementation) (dev : Device) : Nat :=
  match imp with
  | none => 0
  | some imp => imp.GetDeviceUsedConfig dev

/-! ## Settings forwarding -/

/-- How a call that contains a loop stands after a bounded number of loop passes:
it has returned leaving `a`, it is still inside the loop with state `a`, or it
stopped in a failed assertion. -/
inductive Outcome (α : Type) where
  | returned (a : α)
  | running (a : α)
  | fault

/-- Apply `f` to the state carried by an outcome. -/
def Outcome.map {α β : Type} (f : α → β) : Outcome α → Outcome β
  | .returned a => .returned (f a)
  | .running a => .running (f a)
  | .fault => .fault

/-- The call `v.FindMember(name)` on the members of an object: the first member with that
exact name, `none` for `MemberEnd()`. -/
def FindMember (members : List (String × Value)) (name : String) : Option (String × Value) :=
  members.find? (fun member => member.1 == name)

/-- The loop `while(el != match->value.End()) implementation.AddSettings(*el);` with `el` an index
into the array `els`, run for at most `fuel` passes. The body calls `AddSettings` and
does not touch `el`. -/
def settingsWhile (fuel : Nat) (els : List Value) (el : Nat) (imp : AbstractAlgoImplementation) :
    Outcome AbstractAlgoImplementation :=
  if h : el < els.length then
    match fuel with
    | 0 => .running imp
    | fuel + 1 => settingsWhile fuel els el (imp.AddSettings (els[el]))
  else .returned imp

/-- The body of the implementation loop of `AddSettings` for one implementation, given the
members of the family object. -/
def addImplSettings (fuel : Nat) (famValue : List (String × Value))
    (imp : AbstractAlgoImplementation) : Outcome AbstractAlgoImplementation :=
  match FindMember famValue imp.GetName with
  | none => .returned imp
  | some (_, .object members) => .returned (imp.AddSettings (.object members))
  | some (_, .array els) => settingsWhile fuel els 0 imp
  | some _ => .returned imp

/-- The loop of `AddSettings` over the implementations of one family. -/
def addImplsSettings (fuel : Nat) (famValue : List (String × Value)) :
    List AbstractAlgoImplementation → Outcome (List AbstractAlgoImplementation)
  | [] => .returned []
  | imp :: rest =>
    match addImplSettings fuel famValue imp with
    | .returned imp1 => (addImplsSettings fuel famValue rest).map (fun r => imp1 :: r)
    | .running imp1 => .running (imp1 :: rest)
    | .fault => .fault

/-- The loop of `AddSettings` over the families. `FindMember` on a document that is not an
object fails its assertion. -/
def addFamiliesSettings (fuel : Nat) (params : Value) : List AlgoFamily → Outcome (List AlgoFamily)
  | [] => .returned []
  | fam :: rest =>
    match params with
    | .object members =>
      match FindMember members fam.name with
      | some (_, .object famValue) =>
        match addImplsSettings fuel famValue fam.implementations with
        | .returned imps =>
          (addFamiliesSettings fuel params rest).map
            (fun r => { fam with implementations := imps } :: r)
        | .running imps => .running ({ fam with implementations := imps } :: rest)
        | .fault => .fault
      | _ => (addFamiliesSettings fuel params rest).map (fun r => fam :: r)
    | _ => .fault

/-- The method `AbstractMiner::AddSettings`, every `while` loop run for at most `fuel` passes. -/
def AddSettings (fuel : Nat) (m : AbstractMiner) (params : Value) : Outcome AbstractMiner :=
  (addFamiliesSettings fuel params m.algoFamilies).map
    (fun fams => { m with algoFamilies := fams })

/-- The settings every implementation has received, family by family. -/
def receivedSettings (m : AbstractMiner) : List (List (List Value)) :=
  m.algoFamilies.map (fun fam => fam.implementations.map (fun imp => imp.settings))

/-- One settings record, `\x7b"linearIntensity": 10\x7d`. -/
def sampleSettings : Value := .object [("linearIntensity", .number 10)]

/-- The configuration `scrypt -> multi -> [sampleSettings]`: an array of one record. -/
def arrayConfig : Value :=
  .object [("scrypt", .object [("multi", .array [sampleSettings])])]

/-- A miner whose only family is `scrypt` with the single implementation `multi`. -/
def scryptMiner : AbstractMiner :=
  newMiner [{ name := "scrypt", implementations := [sampleImpl "multi"] }] { platforms := [] }

/-! ## The bounded copy of the merkle root, outcome by outcome -/

/-- What a `memcpy_s` call does with its destination array of `n` bytes: the capacity check
passed and the bytes went into the array; the capacity check failed, so the error
branch ran and no source byte was copied; or the capacity check passed and the bytes
`first .. last` that were written lie outside the array. -/
inductive CopyResult (n : Nat) where
  | copied (b : Buf n)
  | refused
  | outside (first last : Nat)

/-- The call `memcpy_s(dst.data() + off, destsz, src.data(), sizeof(src))` with its outcome told
apart: the only test the call makes is `sizeof(src) <= destsz`; it knows nothing of the
array that `dst.data() + off` points into. -/
def memcpy_s_result {n m : Nat} (dst : Buf n) (off destsz : Nat) (src : Buf m) : CopyResult n :=
  if destsz < m then .refused
  else if off + m ≤ n then .copied (copyAt dst off src)
  else .outside off (off + m - 1)

/-- The last statement of `MakeNoncedHeader`:
`memcpy_s(raw + merkleOff, 128 - merkleOff, merkleRoot.data(), sizeof(merkleRoot))`, the capacity
being computed in `asizei`. -/
def merkleRootCopy (raw : Buf 128) (merkleOff : Nat) (merkleRoot : Buf 32) : CopyResult 128 :=
  memcpy_s_result raw merkleOff (asizeiSub 128 merkleOff) merkleRoot

/-! ## Enumerations and diagnostics of the coordinator -/

/-- The loop body shared by `GetAlgos` and `GetImplementations`:
`if(ret.length()) ret += ", "; ret += name;`. -/
def appendListed (ret name : String) : String :=
  (if ret.length ≠ 0 then ret ++ ", " else ret) ++ name

/-- The method `AbstractMiner::GetAlgos` (`AlgoFamily::GetName` returns the family name). -/
def GetAlgos (m : AbstractMiner) : String :=
  (m.algoFamilies.map (fun el => el.name)).foldl appendListed ""

/-- The method `AbstractMiner::GetImplementations`. -/
def GetImplementations (m : AbstractMiner) (algo : String) : String :=
  match m.algoFamilies.find? (fun test => test.AreYou algo) with
  | none => ""
  | some fam => (fam.implementations.map (fun el => el.GetName)).foldl appendListed ""

/-- Modelled from the spec: `MiningProcessorsProvider::GetDeviceLinear` belongs to the provider
type, which is a template parameter. The spec gives `device_linear(i) -> optional<&Device>`
over "a linear device index across the provider". -/
def MiningProcessorsProvider.GetDeviceLinear (hw : MiningProcessorsProvider) (i : Nat) :
    Option Device :=
  (allDevices hw.platforms)[i]?

/-- Modelled from the spec: `MiningProcessorsProvider::GetPlatform` belongs to the provider
type; the spec gives `platform_of(&Device) -> optional<&Platform>`: the platform that holds
the device. -/
def MiningProcessorsProvider.GetPlatform (hw : MiningProcessorsProvider) (dev : Device) :
    Option Platform :=
  hw.platforms.find? (fun plat => decide (dev ∈ plat.devices))

/-- The method `AbstractMiner::GetBadConfigReasons`; `none` when the call has no defined
result (see `GetMiningAlgoImp`). -/
def GetBadConfigReasons (m : AbstractMiner) (devIndex : Nat) : Option (List String) :=
  match GetMiningAlgoImp m with
  | none => none
  | some none => some ["No algorithm implementation to mine"]
  | some (some imp) =>
    match m.hwProcessors.GetDeviceLinear devIndex with
    | none => some ["Device [" ++ toString devIndex ++ "] does not exist"]
    | some device =>
      match m.hwProcessors.GetPlatform device with
      | none =>
        some ["Device [" ++ toString devIndex ++ "] not found in any platform (impossible)"]
      | some plat => some (imp.GetBadConfigReasons plat device)

/-- A registry whose family `Scrypt` holds the implementations `Multi`, `Single` and `fast`,
followed by the family `sha` with `cl`. -/
def threeImplMiner : AbstractMiner :=
  newMiner [{ name := "Scrypt", implementations :=
              [sampleImpl "Multi", sampleImpl "Single", sampleImpl "fast"] },
            { name := "sha", implementations := [sampleImpl "cl"] }] { platforms := [] }

/-- A miner over `sampleProvider` bound to `sha/cl`, whose implementation rejects the device
with handle 31 for lack of memory. -/
def complainingMiner : AbstractMiner :=
  { newMiner [{ name := "sha", implementations :=
        [{ sampleImpl "cl" with
            GetBadConfigReasons := fun _ dev =>
              if dev.handle = 31 then ["not enough memory"] else [] }] }]
      sampleProvider with
    currAlgo := "sha", currImpl := "cl" }

/-! ## Teardown -/

/-- What the destructor did, as far as the worker is concerned: how many times it read
`fromMiner.terminated`, whether one of these reads saw the flag set, and whether it called
`dispatcher->join()`. -/
structure TeardownLog where
  polls : Nat
  observed : Bool
  joined : Bool
deriving DecidableEq, Repr

/-- The loop `while(startChecking + 10 < time(NULL)) { if(fromMiner.terminated) break; }` of the
destructor. `clock k` is the value of the `k`-th call of `time(NULL)` (call 0 gave
`startChecking`) and `terminated k` the value of the `k`-th read of `fromMiner.terminated`; `calls`
and `polls` count the calls and reads made so far. The result is the two counts at
loop exit and whether the exit was through `break`; `none` when the loop is still
running after `fuel` passes. -/
def teardownLoop (clock : Nat → Nat) (terminated : Nat → Bool) (startChecking : Nat) :
    Nat → Nat → Nat → Option (Nat × Nat × Bool)
  | 0, _, _ => none
  | fuel + 1, calls, polls =>
    if startChecking + 10 < clock calls then
      if terminated polls = true then some (calls + 1, polls + 1, true)
      else teardownLoop clock terminated startChecking fuel (calls + 1) (polls + 1)
    else some (calls + 1, polls, false)

/-- The destructor `AbstractMiner::~AbstractMiner`, with `dispatcher` telling whether a worker
was started: the miner as the destructor leaves it and the log of what it did. -/
def destroy (fuel : Nat) (dispatcher : Bool) (clock : Nat → Nat) (terminated : Nat → Bool)
    (m : AbstractMiner) : Option (AbstractMiner × TeardownLog) :=
  if dispatcher then
    let m1 := { m with toMiner := { m.toMiner with terminate := true } }
    let startChecking := clock 0
    match teardownLoop clock terminated startChecking fuel 1 0 with
    | none => none
    | some (calls, polls, observed) =>
      let waitForQuit := if startChecking + 10 < clock calls then false else true
      some ({ m1 with algoFamilies := [] },
        { polls := polls, observed := observed, joined := waitForQuit })
  else some ({ m with algoFamilies := [] }, { polls := 0, observed := false, joined := false })

/-- The teardown the spec describes, over the same inputs: poll while fewer than 10
seconds have passed since `startChecking` and the flag has not been seen; join exactly
when the flag was seen. `none` when the wait is still on after `fuel` polls. -/
def teardownWaitSpec (clock : Nat → Nat) (terminated : Nat → Bool) (startChecking : Nat) :
    Nat → Nat → Nat → Option TeardownLog
  | 0, _, _ => none
  | fuel + 1, calls, polls =>
    if clock calls < startChecking + 10 then
      if terminated polls = true then some { polls := polls + 1, observed := true, joined := true }
      else teardownWaitSpec clock terminated startChecking fuel (calls + 1) (polls + 1)
    else some { polls := polls, observed := false, joined := false }

/-! ## The versioning hash -/

/-- The constant `maxSize` of `GetSourceFromFile`. -/
def maxSize : Nat := 1024 * 1024 * 8

/-- The static method `AbstractAlgoImplementation::GetSourceFromFile`, with `fs path` the contents of
the file at `path` (`none` when it cannot be opened). The value is the returned
`const char*` read as a C string, so it ends before the first NUL of the contents;
a thrown `std::string` is an `error`. -/
def GetSourceFromFile (fs : String → Option String) (name : String) : Except String String :=
  match fs name with
  | none => .error ("File \"" ++ name ++ "\" cannot be opened for read.")
  | some content =>
    if content.length > maxSize then
      .error ("File \"" ++ name ++ "\" is way too big: " ++ toString content.length ++
        "B, max is " ++ toString maxSize ++ "B.")
    else .ok (String.mk (content.data.takeWhile (fun c => c ≠ Char.ofNat 0)))

/-- The first loop of `CustomVersioningStrings`:
`while((load = GetSourceFileAndKernel(GetNumSettings(), index)).first.length())` with body
`steps.push_back(load); index++`, `index` being a 32-bit `auint`; `get` is
`GetSourceFileAndKernel(GetNumSettings(), ·)`. `none` when the loop is still running after `fuel`
evaluations of its condition. -/
def enumerateSteps (get : Nat → String × String) :
    Nat → Nat → List (String × String) → Option (List (String × String))
  | 0, _, _ => none
  | fuel + 1, index, steps =>
    if (get index).1.length ≠ 0 then
      enumerateSteps get fuel ((index + 1) % 2 ^ 32) (steps ++ [get index])
    else some steps

/-- The second loop of `CustomVersioningStrings`, from the blob built so far:
`blob += GetSourceFromFile(src, "kernels/" + el.first); blob += el.second;`. -/
def blobLoop (fs : String → Option String) : List (String × String) → String → Except String String
  | [], blob => .ok blob
  | el :: rest, blob =>
    match GetSourceFromFile fs ("kernels/" ++ el.1) with
    | .error e => .error e
    | .ok src => blobLoop fs rest (blob ++ src ++ el.2)

/-- The method `AbstractAlgoImplementation::CustomVersioningStrings`: `none` when the step
enumeration has not ended within `fuel`, else the blob or the thrown string. -/
def CustomVersioningStrings (fs : String → Option String) (fuel : Nat)
    (imp : AbstractAlgoImplementation) : Option (Except String String) :=
  (enumerateSteps (imp.GetSourceFileAndKernel imp.GetNumSettings) fuel 0 []).map
    (fun steps => blobLoop fs steps "")

/-- The 8-byte word that `memcpy_s(&temp, sizeof(temp), blobby.data() + loop, sizeof(temp))` puts in
`temp` for `loop = 8 * w`, in the byte order of the host. -/
def wordAt (hostLittleEndian : Bool) (blobby : Buf 32) (w : Fin 4) : Nat :=
  (List.finRange 8).foldl
    (fun acc k => acc + (blobby ⟨8 * w.val + k.val, by omega⟩).val *
      256 ^ (if hostLittleEndian then k.val else 7 - k.val)) 0

/-- The loop `for(loop = 0; loop < blobby.size(); loop += 8) ret ^= temp` of `GetVersioningHash`, from
`ret = 0`. -/
def xorWords (hostLittleEndian : Bool) (blobby : Buf 32) : Nat :=
  (List.finRange 4).foldl (fun ret w => ret ^^^ wordAt hostLittleEndian blobby w) 0

/-- The method `AbstractAlgoImplementation::GetVersioningHash`, with `SHA256` the digest function of
`hashing::SHA256` taken as a parameter. -/
def GetVersioningHash (SHA256 : String → Buf 32) (hostLittleEndian : Bool)
    (fs : String → Option String) (fuel : Nat) (imp : AbstractAlgoImplementation) :
    Option (Except String Nat) :=
  (CustomVersioningStrings fs fuel imp).map
    (fun custom => custom.map
      (fun blob => xorWords hostLittleEndian (SHA256 (imp.version ++ blob))))

/-! ### Reference definitions for the versioning hash -/

/-- The pairs (kernel source text, kernel entry name) of a list of steps (file name,
kernel entry name), or the error of the first file that cannot be loaded. -/
def sourceEnumeration (fs : String → Option String) :
    List (String × String) → Except String (List (String × String))
  | [] => .ok []
  | el :: rest =>
    match GetSourceFromFile fs ("kernels/" ++ el.1) with
    | .error e => .error e
    | .ok src =>
      match sourceEnumeration fs rest with
      | .error e => .error e
      | .ok tail => .ok ((src, el.2) :: tail)

/-- The `source_for` enumeration of an implementation: the pairs (kernel source text,
kernel entry name) of the steps `0, 1, ...` up to the first empty file name. -/
def sourceForEnumeration (fs : String → Option String) (fuel : Nat)
    (imp : AbstractAlgoImplementation) : Option (Except String (List (String × String))) :=
  (enumerateSteps (imp.GetSourceFileAndKernel imp.GetNumSettings) fuel 0 []).map
    (sourceEnumeration fs)

/-- The concatenation `src_1 ++ entry_1 ++ ... ++ src_n ++ entry_n` of an enumeration. -/
def concatEnumeration : List (String × String) → String
  | [] => ""
  | el :: rest => el.1 ++ el.2 ++ concatEnumeration rest

/-- The hash as the spec writes it: `w0 xor w1 xor w2 xor w3` over the digest of
`version ++ src_1 ++ entry_1 ++ ...`. -/
def versioningHashSpec (SHA256 : String → Buf 32) (hostLittleEndian : Bool) (version : String)
    (enumeration : List (String × String)) : Nat :=
  wordAt hostLittleEndian (SHA256 (version ++ concatEnumeration enumeration)) 0 ^^^
  wordAt hostLittleEndian (SHA256 (version ++ concatEnumeration enumeration)) 1 ^^^
  wordAt hostLittleEndian (SHA256 (version ++ concatEnumeration enumeration)) 2 ^^^
  wordAt hostLittleEndian (SHA256 (version ++ concatEnumeration enumeration)) 3

/-- A small stand-in for the digest function, used to run the model on concrete
inputs: byte `i` is `7 * length + 13 * i + (sum of the character codes)` modulo 256. -/
def sampleSHA256 : String → Buf 32 :=
  fun s i => ⟨(7 * s.length + 13 * i.val + (s.data.map Char.toNat).sum) % 256,
    Nat.mod_lt _ (by decide)⟩

/-- A kernel directory with `a.cl` holding `kernel`, `b.cl` holding `kernelx` and `c.cl` holding
`void`. -/
def sampleFiles : String → Option String := fun path =>
  if path = "kernels/a.cl" then some "kernel"
  else if path = "kernels/b.cl" then some "kernelx"
  else if path = "kernels/c.cl" then some "void"
  else none

/-- An implementation of version `"1"` with the given steps (file name, kernel entry
name) for every setting index, and an empty file name after the last step. -/
def kernelImpl (steps : List (String × String)) : AbstractAlgoImplementation :=
  { sampleImpl "multi" with
    GetSourceFileAndKernel := fun _ stepIndex => steps.getD stepIndex ("", "") }

/-! ## Introspection of the bound implementation -/

/-- The method `AbstractMiner::GetMiningAlgo`: the name of the first family that answers to
`currAlgo`, `none` for the null pointer. -/
def GetMiningAlgo (m : AbstractMiner) : Option String :=
  if m.currAlgo.length = 0 then none
  else
    match m.algoFamilies.find? (fun test => test.AreYou m.currAlgo) with
    | none => none
    | some fam => some fam.name

/-- The method `AbstractMiner::GetMiningAlgoImpInfo`: the returned value or the thrown string,
then the caller's `name` and `verSignature` afterwards. `name` is assigned before
`GetVersioningHash` is called, so it is set even when that call throws. The outer `none`
stands for no defined result (see `GetMiningAlgoImp`) or a step enumeration that has not
ended within `fuel`. -/
def GetMiningAlgoImpInfo (SHA256 : String → Buf 32) (hostLittleEndian : Bool)
    (fs : String → Option String) (fuel : Nat) (m : AbstractMiner) (name : String)
    (verSignature : Nat) : Option (Except String Bool × String × Nat) :=
  match GetMiningAlgoImp m with
  | none => none
  | some none => some (.ok false, name, verSignature)
  | some (some imp) =>
    match GetVersioningHash SHA256 hostLittleEndian fs fuel imp with
    | none => none
    | some (.error e) => some (.error e, imp.GetName, verSignature)
    | some (.ok v) => some (.ok true, imp.GetName, v)

/-- The coordinator states reachable from construction over the families `algos` and the
provider `hw` through `SetCurrentAlgo` calls, whatever each call returns or throws. -/
inductive Reachable (algos : List AlgoFamily) (hw : MiningProcessorsProvider) :
    AbstractMiner → Prop where
  | construct : Reachable algos hw (newMiner algos hw)
  | setCurrentAlgo (m : AbstractMiner) (algo implementation : String) :
      Reachable algos hw m → Reachable algos hw (SetCurrentAlgo m algo implementation).2

/-- The invariant of the reachable states: the families are those of construction, and
a non-empty `currAlgo` finds a family in which `currImpl` finds an implementation. -/
def boundWell (algos : List AlgoFamily) (m : AbstractMiner) : Prop :=
  m.algoFamilies = algos ∧
  (m.currAlgo ≠ "" →
    ∃ fam imp, m.algoFamilies.find? (fun test => test.AreYou m.currAlgo) = some fam ∧
      fam.implementations.find? (fun test => test.AreYou m.currImpl) = some imp)

/-- A registry whose family `sha` holds the implementation `cl`, whose only kernel step
names the file `missing.cl`, absent from `sampleFiles`. -/
def missingKernelMiner : AbstractMiner :=
  newMiner [{ name := "sha", implementations :=
      [{ kernelImpl [("missing.cl", "search")] with name := "cl" }] }] { platforms := [] }

/-! ## Mutex events of the coordinator operations -/

/-- What a coordinator operation does to the two mailbox mutexes, and its calls into an
algorithm implementation (by method name), in program order. A `std::unique_lock` local
gives a lock event at its declaration and an unlock event at the end of its scope. -/
inductive MutexEvent where
  | lockToMiner
  | unlockToMiner
  | lockFromMiner
  | unlockFromMiner
  | callImplementation (method : String)
deriving DecidableEq, Repr

/-- One execution of a public operation of `AbstractMiner` (or of its destructor), with the
facts about the run that decide which statements execute: for the destructor whether
a worker was started, the number of passes of its polling loop and the number of
families; for `AddSettings` the number of forwarded records; for `Start`,
`GetMiningAlgoImpInfo`, `GetDeviceConfig` and `GetBadConfigReasons` whether the run reaches the
call into the bound implementation. -/
inductive CoordinatorCall where
  | destructor (started : Bool) (polls families : Nat)
  | GetAlgos
  | GetImplementations (names : Nat)
  | SetCurrentAlgo (tests : Nat)
  | GetMiningAlgo
  | GetMiningAlgoImpInfo (bound : Bool)
  | AddSettings (records : Nat)
  | Start (bound : Bool)
  | Mangle
  | GetCurrentPool
  | SharesFound
  | CheckNonces
  | GetDeviceConfig (reached : Bool)
  | GetBadConfigReasons (reached : Bool)
  | GetAI (tests : Nat)
  | UnexpectedlyTerminated
  | Working

/-- The events of `n` passes of a loop whose body has the events `block`. -/
def repeatEvents : Nat → List MutexEvent → List MutexEvent
  | 0, _ => []
  | n + 1, block => block ++ repeatEvents n block

/-- The mutex events of each operation, read off AbstractMiner.h.
* Destructor (lines 74-94): with a worker, a scope locking `toMiner` around
  `terminate = true`; then per pass of the polling loop a scope locking `fromMiner`; after
  that, with no lock held, `Clear` once per family.
* `Mangle`, `GetCurrentPool`, `CheckNonces` (lines 175-184, 196-199): one lock of `toMiner` for the
  whole body. `SharesFound`, `Working` (lines 186-193, 258-261): one lock of `fromMiner`.
* `UnexpectedlyTerminated` (lines 249-257): `lockto` then `lockfrom`, released in reverse order.
* `Start` (lines 165-173), `GetDeviceConfig` (200-217), `GetBadConfigReasons` (218-236), `AddSettings`
  (148-163), the enumerations and `SetCurrentAlgo` take no lock; their calls into
  implementations are listed by name. -/
def mutexTrace : CoordinatorCall → List MutexEvent
  | .destructor started polls families =>
    (if started then
      [.lockToMiner, .unlockToMiner] ++ repeatEvents polls [.lockFromMiner, .unlockFromMiner]
    else []) ++ repeatEvents families [.callImplementation "Clear"]
  | .GetAlgos => []
  | .GetImplementations names => repeatEvents names [.callImplementation "GetName"]
  | .SetCurrentAlgo tests => repeatEvents tests [.callImplementation "AreYou"]
  | .GetMiningAlgo => []
  | .GetMiningAlgoImpInfo bound =>
    if bound then [.callImplementation "GetName", .callImplementation "GetVersioningHash"] else []
  | .AddSettings records => repeatEvents records [.callImplementation "AddSettings"]
  | .Start bound =>
    if bound then [.callImplementation "SelectSettings", .callImplementation "MakeResourcelessCopy"]
    else []
  | .Mangle => [.lockToMiner, .unlockToMiner]
  | .GetCurrentPool => [.lockToMiner, .unlockToMiner]
  | .SharesFound => [.lockFromMiner, .unlockFromMiner]
  | .CheckNonces => [.lockToMiner, .unlockToMiner]
  | .GetDeviceConfig reached => if reached then [.callImplementation "GetDeviceUsedConfig"] else []
  | .GetBadConfigReasons reached =>
    if reached then [.callImplementation "GetBadConfigReasons"] else []
  | .GetAI tests => repeatEvents tests [.callImplementation "AreYou"]
  | .UnexpectedlyTerminated => [.lockToMiner, .lockFromMiner, .unlockFromMiner, .unlockToMiner]
  | .Working => [.lockFromMiner, .unlockFromMiner]

/-- The lock discipline checked along a trace, from the state (`toMiner` held, `fromMiner`
held): `toMiner` is never acquired while `fromMiner` is held, so whenever both are held
`toMiner` was acquired first; and no call into an implementation happens while either
is held. -/
def disciplinedFrom : Bool → Bool → List MutexEvent → Bool
  | _, _, [] => true
  | _, fromHeld, .lockToMiner :: rest => !fromHeld && disciplinedFrom true fromHeld rest
  | _, fromHeld, .unlockToMiner :: rest => disciplinedFrom false fromHeld rest
  | toHeld, _, .lockFromMiner :: rest => disciplinedFrom toHeld true rest
  | toHeld, _, .unlockFromMiner :: rest => disciplinedFrom toHeld false rest
  | toHeld, fromHeld, .callImplementation _ :: rest =>
    !toHeld && !fromHeld && disciplinedFrom toHeld fromHeld rest

/-- Whether some prefix of the trace leaves both mutexes held. -/
def holdsBothFrom : Bool → Bool → List MutexEvent → Bool
  | toHeld, fromHeld, [] => toHeld && fromHeld
  | toHeld, fromHeld, .lockToMiner :: rest => (toHeld && fromHeld) || holdsBothFrom true fromHeld rest
  | toHeld, fromHeld, .unlockToMiner :: rest =>
    (toHeld && fromHeld) || holdsBothFrom false fromHeld rest
  | toHeld, fromHeld, .lockFromMiner :: rest => (toHeld && fromHeld) || holdsBothFrom toHeld true rest
  | toHeld, fromHeld, .unlockFromMiner :: rest =>
    (toHeld && fromHeld) || holdsBothFrom toHeld false rest
  | toHeld, fromHeld, .callImplementation _ :: rest =>
    (toHeld && fromHeld) || holdsBothFrom toHeld fromHeld rest

/-! ## Command-line parameters (`StartParams`) -/

/-- The characters of a wide string literal, as `wchar_t` codes. -/
def wstr (s : String) : List Nat := s.data.map Char.toNat

/-- The character `cmdLine[i]` of a NUL-terminated string held as the list of its
characters before the terminator: 0 at the terminator. -/
def charAt (cmdLine : List Nat) (i : Nat) : Nat := cmdLine.getD i 0

/-- The test `wcsncmp(cmdLine + index, L"--", 2) == 0`. -/
def dashesAt (cmdLine : List Nat) (index : Nat) : Bool :=
  charAt cmdLine index == 45 && charAt cmdLine (index + 1) == 45

/-- Lower-casing of one character as `_wcsnicmp` applies it in the C locale. -/
def towlower (c : Nat) : Nat := if 65 ≤ c ∧ c ≤ 90 then c + 32 else c

/-- The test `_wcsnicmp(cmdLine + index, name, wcslen(name)) == 0`. -/
def nameAt (cmdLine : List Nat) : Nat → List Nat → Bool
  | _, [] => true
  | index, c :: rest =>
    towlower (charAt cmdLine index) == towlower c && nameAt cmdLine (index + 1) rest

/-- The loop shared by `MatchParam` (lines 80-90) and `ConsumeParam` (lines 41-48):
`while(cmdLine[index]) { if(cmdLine[index] <= 32) blank = true; else if(blank) { blank = false;
if(wcsncmp(cmdLine + index, L"--", 2) == 0) break; } index++; }`. The result is the index at
loop exit and whether the exit was through `break`. -/
def scanToDashes (cmdLine : List Nat) : Nat → Nat → Bool → Nat × Bool
  | 0, index, _ => (index, false)
  | fuel + 1, index, blank =>
    if charAt cmdLine index = 0 then (index, false)
    else if charAt cmdLine index ≤ 32 then scanToDashes cmdLine fuel (index + 1) true
    else if blank = true then
      if dashesAt cmdLine index = true then (index, true)
      else scanToDashes cmdLine fuel (index + 1) false
    else scanToDashes cmdLine fuel (index + 1) blank

/-- The method `StartParams::MatchParam`: the returned flag and `index` afterwards (`index` is
passed by reference). After the shared loop, `index--` applies when it left through
`break`. -/
def MatchParam (cmdLine : List Nat) (index : Nat) (name : List Nat) : Bool × Nat :=
  if dashesAt cmdLine index = false then (false, index)
  else
    let hit := nameAt cmdLine (index + 2) name
    let index := if hit = true then index + 2 + name.length else index + 2
    if hit = true ∧ (charAt cmdLine index ≤ 32 ∨ charAt cmdLine index = 61) then (true, index)
    else
      let r := scanToDashes cmdLine cmdLine.length index false
      (false, if r.2 = true then r.1 - 1 else r.1)

/-- The loop `while(cmdLine[loop] && cmdLine[loop] > 32) loop++;` of `ConsumeParam`. -/
def skipWord (cmdLine : List Nat) : Nat → Nat → Nat
  | 0, loop => loop
  | fuel + 1, loop =>
    if charAt cmdLine loop ≠ 0 ∧ charAt cmdLine loop > 32 then skipWord cmdLine fuel (loop + 1)
    else loop

/-- The loop `while(cmdLine[loop] && cmdLine[loop] <= 32) { loop++; blank = true; }` of
`ConsumeParam`. -/
def skipBlanks (cmdLine : List Nat) : Nat → Nat → Nat
  | 0, loop => loop
  | fuel + 1, loop =>
    if charAt cmdLine loop ≠ 0 ∧ charAt cmdLine loop ≤ 32 then skipBlanks cmdLine fuel (loop + 1)
    else loop

/-- The first loop of `ConsumeParam` (lines 23-34) from `loop` on: `some (begin, loop)` when it
leaves through `break` with `found = true`, `none` when it runs to the terminator. The
`loop--` of the last branch and the `loop++` of the `for` cancel (`loop` is at least 1
there). -/
def findParam (cmdLine name : List Nat) : Nat → Nat → Option (Nat × Nat)
  | 0, _ => none
  | fuel + 1, loop =>
    if charAt cmdLine loop = 0 then none
    else if charAt cmdLine loop ≤ 32 then findParam cmdLine name fuel (loop + 1)
    else
      let r := MatchParam cmdLine loop name
      if r.1 = true then some (loop, r.2)
      else findParam cmdLine name fuel (skipWord cmdLine cmdLine.length r.2 - 1 + 1)

/-- The loop `for(clear = loop - start; clear; clear--) { if(value[clear] <= 32) value[clear] = 0;
else break; }` of `ConsumeParam`, from `clear` on. -/
def clearFrom (value : List Nat) : Nat → List Nat
  | 0 => value
  | clear + 1 =>
    if value.getD (clear + 1) 0 ≤ 32 then clearFrom (value.set (clear + 1) 0) clear else value

/-- The loop `while(dst && cmdLine[dst] <= 32) cmdLine[dst--] = 0;` of `ConsumeParam`, from `dst` on,
on the string the buffer holds: writing 0 at `dst` cuts the string to its first `dst`
characters. -/
def trimFrom (cmdLine : List Nat) : Nat → List Nat
  | 0 => cmdLine
  | dst + 1 =>
    if charAt cmdLine (dst + 1) ≤ 32 then trimFrom (cmdLine.take (dst + 1)) dst else cmdLine

/-- The state of a `StartParams`: the string held by the buffer `parameters`, without its
terminator. -/
structure StartParams where
  parameters : List Nat
deriving DecidableEq, Repr

/-- The method `StartParams::ConsumeParam`: the returned flag, the caller's vector `value`
afterwards and the object afterwards. The characters from `loop` on are moved down to
`begin`, the terminator is written after them, and the trailing loop runs. -/
def ConsumeParam (sp : StartParams) (value name : List Nat) : Bool × List Nat × StartParams :=
  let cmdLine := sp.parameters
  match findParam cmdLine name (cmdLine.length + 1) 0 with
  | none => (false, value, sp)
  | some (begin, loop) =>
    let blank := if charAt cmdLine loop = 61 then false
      else if charAt cmdLine loop ≤ 32 ∧ charAt cmdLine loop ≠ 0 then true else false
    let start := if charAt cmdLine loop = 61 then loop + 1
      else if charAt cmdLine loop ≤ 32 ∧ charAt cmdLine loop ≠ 0 then
        skipBlanks cmdLine cmdLine.length loop
      else loop
    let loop := (scanToDashes cmdLine cmdLine.length start blank).1
    let value := if loop ≠ start then
        clearFrom ((cmdLine.drop start).take (loop - start) ++ [0]) (loop - start)
      else value
    let moved := cmdLine.take begin ++ cmdLine.drop loop
    (true, value, { parameters := trimFrom moved moved.length })

/-- The method `StartParams::FullyConsumed`. -/
def FullyConsumed (sp : StartParams) : Bool := sp.parameters.length == 0

/-- The method `StartParams::GetRemLine`. -/
def GetRemLine (sp : StartParams) : List Nat := sp.parameters

/-! ### Reference definitions for the command line -/

/-- An occurrence of the parameter `name` at position `p` of the line, in the words of the
spec: `p` is index 0 or comes right after a blank (code at most 32); the text `--` is at
`p`, followed by `name` compared case-insensitively, followed by a blank, `=` or the end
of the line. -/
def occursAt (line name : List Nat) (p : Nat) : Prop :=
  (p = 0 ∨ (0 < p ∧ charAt line (p - 1) ≤ 32)) ∧
  charAt line p = 45 ∧ charAt line (p + 1) = 45 ∧
  (∀ k, k < name.length → towlower (charAt line (p + 2 + k)) = towlower (name.getD k 0)) ∧
  (charAt line (p + 2 + name.length) ≤ 32 ∨ charAt line (p + 2 + name.length) = 61)

/-- The string a vector of `wchar_t` holds when read as a C string: its characters
before the first NUL. -/
def cstr (value : List Nat) : List Nat := value.takeWhile (fun c => c != 0)

instance occursAt.instDecidable (line name : List Nat) (p : Nat) :
    Decidable (occursAt line name p) :=
  inferInstanceAs (Decidable
    ((p = 0 ∨ (0 < p ∧ charAt line (p - 1) ≤ 32)) ∧
      charAt line p = 45 ∧ charAt line (p + 1) = 45 ∧
      (∀ k, k < name.length →
        towlower (charAt line (p + 2 + k)) = towlower (name.getD k 0)) ∧
      (charAt line (p + 2 + name.length) ≤ 32 ∨ charAt line (p + 2 + name.length) = 61)))

/-! ## Shared lemmas on buffers -/

theorem asizeiSub_of_le (a b : Nat) (hb : b ≤ a) (ha : a < 2 ^ 64) : asizeiSub a b = a - b := by
  unfold asizeiSub asizeiMod
  omega

theorem copyAt_zero_full {n : Nat} (dst src : Buf n) : copyAt dst 0 src = src := by
  funext i
  have := i.isLt
  simp [copyAt]

theorem copyAt_right_eq_concat32 (sha : Buf 64) (root s : Buf 32)
    (hinv : ∀ i : Fin 32, sha ⟨i.val, by omega⟩ = root i) :
    copyAt sha 32 s = concat32 root s := by
  funext i
  by_cases h : i.val < 32
  · have h2 : ¬ (32 ≤ i.val ∧ i.val < 32 + 32) := by omega
    simp only [copyAt, concat32, h, h2, dite_true, dite_false]
    exact hinv ⟨i.val, h⟩
  · have h2 : 32 ≤ i.val ∧ i.val < 32 + 32 := by omega
    simp [copyAt, concat32, h, h2]

theorem leftHalfIs_init (scratch : Buf 64) (root : Buf 32) :
    leftHalfIs (root, copyAt scratch 0 root) := by
  intro i
  have := i.isLt
  simp [copyAt]

theorem merkleStep_spec (H : Buf 64 → Buf 32) (st : Buf 32 × Buf 64) (s : Buf 32)
    (hinv : leftHalfIs st) :
    (merkleStep H st s).1 = H (concat32 st.1 s) ∧ leftHalfIs (merkleStep H st s) := by
  refine ⟨?_, ?_⟩
  · simp only [merkleStep]
    rw [copyAt_right_eq_concat32 st.2 st.1 s hinv]
  · intro i
    have := i.isLt
    simp [merkleStep, copyAt]

theorem foldl_merkleStep_spec (H : Buf 64 → Buf 32) (branch : List (Buf 32)) :
    ∀ st : Buf 32 × Buf 64, leftHalfIs st →
      (branch.foldl (merkleStep H) st).1 = merkleFold H st.1 branch ∧
      leftHalfIs (branch.foldl (merkleStep H) st) := by
  induction branch with
  | nil => intro st hinv; exact ⟨rfl, hinv⟩
  | cons s rest ih =>
    intro st hinv
    obtain ⟨h1, h2⟩ := merkleStep_spec H st s hinv
    obtain ⟨h3, h4⟩ := ih (merkleStep H st s) h2
    refine ⟨?_, h4⟩
    simp only [List.foldl_cons, merkleFold] at h3 ⊢
    rw [h3, h1]

/-- The flip reads only the left half of `merkleSHA`, which holds the folded root. -/
theorem flip_of_leftHalfIs (st : Buf 32 × Buf 64) (hinv : leftHalfIs st) :
    (FlipIntegerBytes 8 st.2 (by decide) : Buf 32) = flip32 st.1 := by
  funext i
  have := i.isLt
  simp only [FlipIntegerBytes, flip32]
  exact hinv ⟨4 * (i.val / 4) + (3 - i.val % 4), by omega⟩

/-- The header that `MakeNoncedHeader` leaves behind, in closed form. -/
theorem MakeNoncedHeader_eq (H : Buf 64 → Buf 32) (cb : AbstractWorkUnit → Buf 32)
    (scratch : Buf 64) (wu : AbstractWorkUnit) (hoff : wu.coinbase.merkleOff + 32 ≤ 128) :
    MakeNoncedHeader H cb scratch wu =
      some { wu with header := (copyAt wu.blankHeader wu.coinbase.merkleOff
                (flip32 (merkleFold H (cb wu) wu.coinbase.merkles))) } := by
  obtain ⟨h1, h2⟩ := foldl_merkleStep_spec H wu.coinbase.merkles
    (cb wu, copyAt scratch 0 (cb wu)) (leftHalfIs_init scratch (cb wu))
  have hsub : asizeiSub 128 wu.coinbase.merkleOff = 128 - wu.coinbase.merkleOff :=
    asizeiSub_of_le 128 _ (by omega) (by norm_num)
  have hfit : 32 ≤ 128 - wu.coinbase.merkleOff ∧
      wu.coinbase.merkleOff + (128 - wu.coinbase.merkleOff) ≤ 128 := by omega
  simp only [MakeNoncedHeader, memcpy_s, hsub, hfit, le_refl, Nat.zero_add, and_self, if_true,
    copyAt_zero_full]
  rw [flip_of_leftHalfIs _ h2, h1]

theorem copyAt_slice {n m : Nat} (dst : Buf n) (off : Nat) (src : Buf m) (h : off + m ≤ n) :
    slice (copyAt dst off src) off m h = src := by
  funext i
  have := i.isLt
  simp [slice, copyAt]

theorem copyAt_outside {n m : Nat} (dst : Buf n) (off : Nat) (src : Buf m) (i : Fin n)
    (h : i.val < off ∨ off + m ≤ i.val) : copyAt dst off src i = dst i := by
  have h2 : ¬ (off ≤ i.val ∧ i.val < off + m) := by omega
  simp [copyAt, h2]

/-! ## Work-unit theorems -/

/-- C1. Merkle law: when `merkleOff + 32 ≤ 128`, `MakeNoncedHeader` returns, and the 32
header bytes at `merkleOff` are the 4-byte-group flip of the left fold of the
branch over the leaf hash with `fun a b => H (a ‖ b)` (running value left, sibling
right, siblings in branch order), for every hash `H`, leaf and branch. -/
theorem MakeNoncedHeader_merkle_law (H : Buf 64 → Buf 32) (MakeCBMerkle : AbstractWorkUnit → Buf 32)
    (scratch : Buf 64) (wu : AbstractWorkUnit) (hoff : wu.coinbase.merkleOff + 32 ≤ 128) :
    ∃ wu1, MakeNoncedHeader H MakeCBMerkle scratch wu = some wu1 ∧
      slice wu1.header wu.coinbase.merkleOff 32 hoff =
        flip32 (wu.coinbase.merkles.foldl (fun a b => H (concat32 a b)) (MakeCBMerkle wu)) := by
  refine ⟨_, MakeNoncedHeader_eq H MakeCBMerkle scratch wu hoff, ?_⟩
  exact copyAt_slice _ _ _ hoff

/-- C1, at the spec's scenario: leaf `0x11` 32 times and the single sibling `0x22` 32
times give the flip of `H (L ‖ sibling)` at `header[36 .. 68)`. -/
theorem MakeNoncedHeader_merkle_law_witness :
    ∃ wu1, MakeNoncedHeader sampleHash (fun _ => Buf.fill 32 0x11) (Buf.fill 64 0xcc)
        (sampleWU [Buf.fill 32 0x22] 36) = some wu1 ∧
      slice wu1.header 36 32 (by decide) =
        flip32 (sampleHash (concat32 (Buf.fill 32 0x11) (Buf.fill 32 0x22))) :=
  MakeNoncedHeader_merkle_law sampleHash (fun _ => Buf.fill 32 0x11) (Buf.fill 64 0xcc)
    (sampleWU [Buf.fill 32 0x22] 36) (by decide)

/-- C2. Header frame: when `merkleOff + 32 ≤ 128`, `MakeNoncedHeader` returns a work unit
whose header equals `blankHeader` at every index outside `[merkleOff, merkleOff + 32)`,
whatever the old header, the leaf hash, the hash function and the branch; the
blank header, the coinbase, `nonce2` and the other fields are those of the input. -/
theorem MakeNoncedHeader_frame (H : Buf 64 → Buf 32) (MakeCBMerkle : AbstractWorkUnit → Buf 32)
    (scratch : Buf 64) (wu : AbstractWorkUnit) (hoff : wu.coinbase.merkleOff + 32 ≤ 128) :
    ∃ wu1, MakeNoncedHeader H MakeCBMerkle scratch wu = some wu1 ∧
      (∀ i : Fin 128, i.val < wu.coinbase.merkleOff ∨ wu.coinbase.merkleOff + 32 ≤ i.val →
        wu1.header i = wu.blankHeader i) ∧
      wu1.blankHeader = wu.blankHeader ∧ wu1.coinbase = wu.coinbase ∧ wu1.nonce2 = wu.nonce2 ∧
      wu1 = { wu with header := wu1.header } := by
  refine ⟨_, MakeNoncedHeader_eq H MakeCBMerkle scratch wu hoff, ?_, rfl, rfl, rfl, rfl⟩
  intro i hi
  exact copyAt_outside _ _ _ i hi

/-- C2, run on a work unit with a stale `0xee` header, merkle offset 36 and one sibling. -/
theorem MakeNoncedHeader_frame_witness :
    ∃ wu1, MakeNoncedHeader sampleHash (fun _ => Buf.fill 32 0x11) (Buf.fill 64 0xcc)
        (sampleWU [Buf.fill 32 0x22] 36) = some wu1 ∧
      (∀ i : Fin 128, i.val < 36 ∨ 36 + 32 ≤ i.val → wu1.header i = 0) ∧
      wu1.blankHeader = Buf.fill 128 0 ∧
      wu1.coinbase = (sampleWU [Buf.fill 32 0x22] 36).coinbase ∧ wu1.nonce2 = 0 ∧
      wu1 = { sampleWU [Buf.fill 32 0x22] 36 with header := wu1.header } :=
  MakeNoncedHeader_frame sampleHash (fun _ => Buf.fill 32 0x11) (Buf.fill 64 0xcc)
    (sampleWU [Buf.fill 32 0x22] 36) (by decide)

/-- C3. At the spec's first scenario (empty branch, merkle offset 36, all-zero blank header,
leaf `D = DSHA256(01 00 00 00)`) `MakeNoncedHeader` leaves the 4-byte-group flip of `D` at
`header[36 .. 68)`, not `D`: the flip is unconditional, so the slot differs from what
the comment on `littleEndianAlgo` documents for a little-endian algorithm. -/
theorem MakeNoncedHeader_flips_for_little_endian (H : Buf 64 → Buf 32) (scratch : Buf 64) :
    ∃ wu1, MakeNoncedHeader H (fun _ => dsha256_01000000) scratch (sampleWU [] 36) = some wu1 ∧
      slice wu1.header 36 32 (by decide) = flip32 dsha256_01000000 ∧
      slice wu1.header 36 32 (by decide) ≠ documentedMerkleSlot true dsha256_01000000 := by
  have hoff : (sampleWU [] 36).coinbase.merkleOff + 32 ≤ 128 := by decide
  refine ⟨_, MakeNoncedHeader_eq H (fun _ => dsha256_01000000) scratch (sampleWU [] 36) hoff, ?_, ?_⟩
  · exact copyAt_slice _ _ _ hoff
  · intro h
    have hne : flip32 dsha256_01000000 0 ≠ dsha256_01000000 0 := by decide
    have h2 : flip32 dsha256_01000000 = dsha256_01000000 := (copyAt_slice _ _ _ hoff).symm.trans h
    exact hne (congrFun h2 0)

/-! ## Miner lemmas -/

theorem pushFound_eq (found : List Nonces) :
    ∀ (k loop : Nat) (results : List Nonces), found.length - loop = k →
      pushFound found loop results = results ++ found.drop loop := by
  intro k
  induction k with
  | zero =>
    intro loop results hk
    have hle : found.length ≤ loop := by omega
    rw [pushFound]
    simp [Nat.not_lt.mpr hle, List.drop_eq_nil_of_le hle]
  | succ k ih =>
    intro loop results hk
    have hlt : loop < found.length := by omega
    rw [pushFound]
    simp only [hlt, dite_true]
    rw [ih (loop + 1) _ (by omega), List.append_assoc]
    congr 1
    rw [List.singleton_append]
    exact (List.drop_eq_getElem_cons hlt).symm

theorem String_length_eq_zero (a : String) : a.length = 0 ↔ a = "" := by
  constructor
  · intro h
    have hd : a.data = [] := List.length_eq_zero.mp h
    cases a
    simp_all
  · intro h
    subst h
    rfl

theorem find?_some_index {α : Type} (p : α → Bool) :
    ∀ (l : List α) (x : α), l.find? p = some x →
      ∃ k, ∃ hk : k < l.length, l[k] = x ∧ p x = true ∧
        ∀ j, ∀ hj : j < k, p (l[j]) = false := by
  intro l
  induction l with
  | nil => intro x h; simp at h
  | cons a rest ih =>
    intro x h
    by_cases hp : p a = true
    · rw [List.find?_cons_of_pos _ hp] at h
      cases h
      exact ⟨0, by simp, rfl, hp, fun j hj => absurd hj (Nat.not_lt_zero j)⟩
    · rw [List.find?_cons_of_neg _ hp] at h
      obtain ⟨k, hk, h1, h2, h3⟩ := ih x h
      refine ⟨k + 1, by simp; omega, by simpa using h1, h2, ?_⟩
      intro j hj
      cases j with
      | zero => simpa using hp
      | succ j => simpa using h3 j (by omega)

theorem find?_of_first_index {α : Type} (p : α → Bool) :
    ∀ (l : List α) (k : Nat) (hk : k < l.length), p (l[k]) = true →
      (∀ j, ∀ hj : j < k, p (l[j]) = false) → l.find? p = some (l[k]) := by
  intro l
  induction l with
  | nil => intro k hk; simp at hk
  | cons a rest ih =>
    intro k hk hp hfirst
    cases k with
    | zero =>
      have hpa : p a = true := by simpa using hp
      rw [List.find?_cons_of_pos _ hpa]
      simp
    | succ k =>
      have hpa : ¬ p a = true := by
        have := hfirst 0 (by omega)
        simpa using this
      rw [List.find?_cons_of_neg _ hpa]
      have hk2 : k < rest.length := by simpa using hk
      have := ih k hk2 (by simpa using hp) (fun j hj => by simpa using hfirst (j + 1) (by omega))
      simpa using this

theorem find?_none_all {α : Type} (p : α → Bool) (l : List α) (h : l.find? p = none) :
    ∀ k, ∀ hk : k < l.length, p (l[k]) = false := by
  intro k hk
  have := List.find?_eq_none.mp h (l[k]) (List.getElem_mem hk)
  simpa using this

/-! ## Miner theorems -/

/-- C4. `SharesFound` returns true exactly when the outbox queue `F` is non-empty; the caller
list becomes `R ++ F` (so it is `R` itself when `F` is empty), the queue is empty
afterwards, and `terminated`, `initialized`, `error` and every other part of the
miner are as before. -/
theorem SharesFound_drains (m : AbstractMiner) (R : List Nonces) :
    (SharesFound m R).1 = !m.fromMiner.found.isEmpty ∧
    (SharesFound m R).2.1 = R ++ m.fromMiner.found ∧
    (SharesFound m R).2.2.fromMiner.found = [] ∧
    (SharesFound m R).2.2 = { m with fromMiner := { m.fromMiner with found := [] } } ∧
    (SharesFound m R).2.2.fromMiner.terminated = m.fromMiner.terminated ∧
    (SharesFound m R).2.2.fromMiner.initialized = m.fromMiner.initialized ∧
    (SharesFound m R).2.2.fromMiner.error = m.fromMiner.error := by
  by_cases h : m.fromMiner.found.length = 0
  · have hnil : m.fromMiner.found = [] := List.length_eq_zero.mp h
    simp only [SharesFound, h, if_true]
    rw [hnil]
    simp
    rw [← hnil]
  · have hne : m.fromMiner.found ≠ [] := fun hnil => h (by rw [hnil]; rfl)
    simp only [SharesFound, h, if_false]
    rw [pushFound_eq _ _ 0 R rfl]
    simp [hne]

/-- C5, as stated, fails: with an unnamed family holding an unnamed implementation,
`SetCurrentAlgo("", "")` returns true and leaves both names empty, so the later call
`SetCurrentAlgo("sha", "cl")` returns true as well and replaces the bound pair. -/
theorem SetCurrentAlgo_rebinds_after_empty_names :
    (SetCurrentAlgo unnamedFirstMiner "" "").1 = .ok true ∧
    (SetCurrentAlgo (SetCurrentAlgo unnamedFirstMiner "" "").2 "sha" "cl").1 = .ok true ∧
    (SetCurrentAlgo (SetCurrentAlgo unnamedFirstMiner "" "").2 "sha" "cl").2.currAlgo = "sha" ∧
    (SetCurrentAlgo (SetCurrentAlgo unnamedFirstMiner "" "").2 "sha" "cl").2.currImpl = "cl" := by
  refine ⟨?_, ?_, ?_, ?_⟩ <;> rfl

/-- C5, amended. After a `SetCurrentAlgo(a, i)` that returned true with `a` or `i` non-empty,
every later `SetCurrentAlgo(a2, i2)` throws, and the miner afterwards is the miner
before: `currAlgo = a`, `currImpl = i`, and `GetMiningAlgoImp` resolves as before. -/
theorem SetCurrentAlgo_second_call_throws (m : AbstractMiner) (a i a2 i2 : String)
    (hfirst : (SetCurrentAlgo m a i).1 = .ok true) (hne : a ≠ "" ∨ i ≠ "") :
    (∃ msg, (SetCurrentAlgo (SetCurrentAlgo m a i).2 a2 i2).1 = .error msg) ∧
    (SetCurrentAlgo (SetCurrentAlgo m a i).2 a2 i2).2 = (SetCurrentAlgo m a i).2 ∧
    (SetCurrentAlgo (SetCurrentAlgo m a i).2 a2 i2).2.currAlgo = a ∧
    (SetCurrentAlgo (SetCurrentAlgo m a i).2 a2 i2).2.currImpl = i ∧
    GetMiningAlgoImp (SetCurrentAlgo (SetCurrentAlgo m a i).2 a2 i2).2 =
      GetMiningAlgoImp (SetCurrentAlgo m a i).2 := by
  have hbound : (SetCurrentAlgo m a i).2.currAlgo = a ∧ (SetCurrentAlgo m a i).2.currImpl = i := by
    revert hfirst
    unfold SetCurrentAlgo
    split
    · intro h; simp at h
    · split
      · intro h; simp at h
      · split
        · intro h; simp at h
        · intro _; exact ⟨rfl, rfl⟩
  have hlen : (SetCurrentAlgo m a i).2.currAlgo.length ≠ 0 ∨
      (SetCurrentAlgo m a i).2.currImpl.length ≠ 0 := by
    rw [hbound.1, hbound.2]
    rcases hne with h | h
    · exact Or.inl (fun h0 => h ((String_length_eq_zero a).mp h0))
    · exact Or.inr (fun h0 => h ((String_length_eq_zero i).mp h0))
  have hsame : (SetCurrentAlgo (SetCurrentAlgo m a i).2 a2 i2).2 = (SetCurrentAlgo m a i).2 := by
    generalize (SetCurrentAlgo m a i).2 = m1 at hlen
    simp only [SetCurrentAlgo, hlen, if_true]
  refine ⟨?_, hsame, ?_, ?_, ?_⟩
  · generalize (SetCurrentAlgo m a i).2 = m1 at hlen
    refine ⟨"Miner already set up to run \"" ++ m1.currAlgo ++ "." ++ m1.currImpl ++
      ", algorithm switching not yet supported.", ?_⟩
    simp only [SetCurrentAlgo, hlen, if_true]
  · rw [hsame]; exact hbound.1
  · rw [hsame]; exact hbound.2
  · rw [hsame]

/-- C5, amended, run on the registry `Scrypt/Multi`, `sha/cl`: after binding
`("scrypt", "MULTI")` the call with the valid pair `("sha", "cl")` throws. -/
theorem SetCurrentAlgo_second_call_throws_witness :
    (SetCurrentAlgo twoFamilyMiner "scrypt" "MULTI").1 = .ok true ∧
    (∃ msg, (SetCurrentAlgo (SetCurrentAlgo twoFamilyMiner "scrypt" "MULTI").2 "sha" "cl").1 =
      .error msg) ∧
    (SetCurrentAlgo (SetCurrentAlgo twoFamilyMiner "scrypt" "MULTI").2 "sha" "cl").2.currAlgo =
      "scrypt" :=
  have h := SetCurrentAlgo_second_call_throws twoFamilyMiner "scrypt" "MULTI" "sha" "cl" rfl
    (Or.inl (by decide))
  ⟨rfl, h.1, h.2.2.1⟩

/-- C6. With nothing bound, `SetCurrentAlgo(algo, impl)` never throws; it returns true exactly
when some family name equals `algo` case-insensitively and the first such family, in
declaration order, holds an implementation whose name equals `impl` case-insensitively;
when it returns false the miner is unchanged, so both names are still empty and a
later call behaves as on the original miner. -/
theorem SetCurrentAlgo_unbound (m : AbstractMiner) (algo impl : String)
    (hfree : m.currAlgo = "" ∧ m.currImpl = "") :
    ((SetCurrentAlgo m algo impl).1 = .ok true ↔
      ∃ k, ∃ hk : k < m.algoFamilies.length,
        stricmpEq algo (m.algoFamilies[k]).name = true ∧
        (∀ j, ∀ hj : j < k, stricmpEq algo (m.algoFamilies[j]).name = false) ∧
        ∃ imp ∈ (m.algoFamilies[k]).implementations, stricmpEq impl imp.name = true) ∧
    ((SetCurrentAlgo m algo impl).1 = .ok true ∨ (SetCurrentAlgo m algo impl).1 = .ok false) ∧
    ((SetCurrentAlgo m algo impl).1 = .ok false →
      (SetCurrentAlgo m algo impl).2 = m ∧
      (SetCurrentAlgo m algo impl).2.currAlgo = "" ∧
      (SetCurrentAlgo m algo impl).2.currImpl = "" ∧
      ∀ a2 i2, SetCurrentAlgo (SetCurrentAlgo m algo impl).2 a2 i2 = SetCurrentAlgo m a2 i2) := by
  have hlen : ¬ (m.currAlgo.length ≠ 0 ∨ m.currImpl.length ≠ 0) := by
    rw [hfree.1, hfree.2]
    decide
  cases hfam : m.algoFamilies.find? (fun test => test.AreYou algo) with
  | none =>
    have hall := find?_none_all _ _ hfam
    have hres : SetCurrentAlgo m algo impl = (.ok false, m) := by
      simp only [SetCurrentAlgo, hlen, if_false, hfam]
    rw [hres]
    refine ⟨?_, Or.inr rfl, fun _ => ⟨rfl, hfree.1, hfree.2, fun _ _ => rfl⟩⟩
    constructor
    · intro h; simp at h
    · rintro ⟨k, hk, h1, _, _⟩
      have := hall k hk
      simp only [AlgoFamily.AreYou] at this
      rw [this] at h1
      exact absurd h1 (by decide)
  | some fam =>
    obtain ⟨k, hk, hkfam, hkp, hkfirst⟩ := find?_some_index _ _ _ hfam
    have hfirst_unique : ∀ k2, ∀ hk2 : k2 < m.algoFamilies.length,
        stricmpEq algo (m.algoFamilies[k2]).name = true →
        (∀ j, ∀ hj : j < k2, stricmpEq algo (m.algoFamilies[j]).name = false) →
        m.algoFamilies[k2] = fam := by
      intro k2 hk2 h1 h2
      have := find?_of_first_index (fun test : AlgoFamily => test.AreYou algo) m.algoFamilies k2 hk2
        h1 h2
      rw [hfam] at this
      exact (Option.some.inj this).symm
    cases himp : fam.implementations.find? (fun test => test.AreYou impl) with
    | none =>
      have hres : SetCurrentAlgo m algo impl = (.ok false, m) := by
        simp only [SetCurrentAlgo, hlen, if_false, hfam, himp]
      rw [hres]
      refine ⟨?_, Or.inr rfl, fun _ => ⟨rfl, hfree.1, hfree.2, fun _ _ => rfl⟩⟩
      constructor
      · intro h; simp at h
      · rintro ⟨k2, hk2, h1, h2, imp, himem, himpname⟩
        rw [hfirst_unique k2 hk2 h1 h2] at himem
        have := List.find?_eq_none.mp himp imp himem
        simp only [AbstractAlgoImplementation.AreYou] at this
        exact absurd himpname this
    | some imp =>
      have hres : SetCurrentAlgo m algo impl =
          (.ok true, { m with currAlgo := algo, currImpl := impl }) := by
        simp only [SetCurrentAlgo, hlen, if_false, hfam, himp]
      rw [hres]
      refine ⟨?_, Or.inl rfl, fun h => by simp at h⟩
      constructor
      · intro _
        refine ⟨k, hk, ?_, hkfirst, imp, ?_, ?_⟩
        · rw [hkfam]; exact hkp
        · rw [hkfam]; exact List.mem_of_find?_eq_some himp
        · have := List.find?_some himp
          simpa only [AbstractAlgoImplementation.AreYou] using this
      · intro _; rfl

/-- C6, run on the registry `Scrypt/Multi`, `sha/cl`: with nothing bound the unknown
implementation `("sha", "cuda")` is refused without a trace, and the valid pair
`("SHA", "CL")` is accepted afterwards. -/
theorem SetCurrentAlgo_unbound_witness :
    (SetCurrentAlgo twoFamilyMiner "sha" "cuda").1 = .ok false ∧
    (SetCurrentAlgo twoFamilyMiner "sha" "cuda").2 = twoFamilyMiner ∧
    (SetCurrentAlgo (SetCurrentAlgo twoFamilyMiner "sha" "cuda").2 "SHA" "CL").1 = .ok true :=
  have h := (SetCurrentAlgo_unbound twoFamilyMiner "sha" "cuda" ⟨rfl, rfl⟩).2.2 rfl
  ⟨rfl, h.1, (congrArg Prod.fst (h.2.2.2 "SHA" "CL")).trans rfl⟩

/-! ## Device index resolution -/

theorem asizeiSub_wrap (a b : Nat) (hab : a < b) (hb : b < 2 ^ 64) :
    asizeiSub a b = 2 ^ 64 - (b - a) := by
  unfold asizeiSub asizeiMod
  omega

theorem totalDevices_cons (plat : Platform) (rest : List Platform) :
    totalDevices (plat :: rest) = plat.devices.length + totalDevices rest := by
  simp [totalDevices]

theorem devicesBefore_zero (ps : List Platform) : devicesBefore ps 0 = 0 := by
  simp [devicesBefore]

theorem devicesBefore_cons_succ (plat : Platform) (rest : List Platform) (j : Nat) :
    devicesBefore (plat :: rest) (j + 1) = plat.devices.length + devicesBefore rest j := by
  simp [devicesBefore]

theorem allDevices_length (ps : List Platform) : (allDevices ps).length = totalDevices ps := by
  induction ps with
  | nil => rfl
  | cons plat rest ih => simp [allDevices, totalDevices_cons, ih]

/-- Once the running index is at least the number of devices still ahead, no later
platform matches and the pointer found so far survives the loop. -/
theorem deviceLoop_pass :
    ∀ (ps : List Platform) (device : Nat) (devptr : Option Device),
      totalDevices ps ≤ device → device < 2 ^ 64 → deviceLoop ps device devptr = devptr := by
  intro ps
  induction ps with
  | nil => intro device devptr _ _; rfl
  | cons plat rest ih =>
    intro device devptr hle hlt
    rw [totalDevices_cons] at hle
    have hnot : ¬ device < plat.devices.length := by omega
    have hsub : asizeiSub device plat.devices.length = device - plat.devices.length :=
      asizeiSub_of_le _ _ (by omega) hlt
    simp only [deviceLoop, hnot, dite_false, hsub]
    exact ih _ _ (by omega) (by omega)

/-- For an index below the device total the loop ends on the device of the platform `j`
whose range holds the index, at the local index `device - devicesBefore ps j`. -/
theorem deviceLoop_find :
    ∀ (ps : List Platform) (device : Nat),
      device < totalDevices ps → totalDevices ps < 2 ^ 63 →
      ∃ j plat dev, ps[j]? = some plat ∧ devicesBefore ps j ≤ device ∧
        plat.devices[device - devicesBefore ps j]? = some dev ∧
        deviceLoop ps device none = some dev := by
  intro ps
  induction ps with
  | nil => intro device h _; simp [totalDevices] at h
  | cons plat rest ih =>
    intro device hlt hT
    rw [totalDevices_cons] at hlt hT
    by_cases hin : device < plat.devices.length
    · refine ⟨0, plat, plat.devices[device], by simp, by simp [devicesBefore_zero], ?_, ?_⟩
      · simp [devicesBefore_zero, hin]
      · have hsub := asizeiSub_wrap device plat.devices.length hin (by omega)
        simp only [deviceLoop, hin, dite_true, hsub]
        exact deviceLoop_pass rest _ _ (by omega) (by omega)
    · have hsub : asizeiSub device plat.devices.length = device - plat.devices.length :=
        asizeiSub_of_le _ _ (by omega) (by omega)
      obtain ⟨j, p, dev, h1, h2, h3, h4⟩ := ih (device - plat.devices.length) (by omega) (by omega)
      refine ⟨j + 1, p, dev, by simpa using h1, ?_, ?_, ?_⟩
      · rw [devicesBefore_cons_succ]; omega
      · rw [devicesBefore_cons_succ]
        have : device - (plat.devices.length + devicesBefore rest j) =
            device - plat.devices.length - devicesBefore rest j := by omega
        rw [this]; exact h3
      · simp only [deviceLoop, hin, dite_false, hsub]
        exact h4

/-- Platform `j`, local index `loc` is position `devicesBefore ps j + loc` of the
platform-major order. -/
theorem allDevices_at :
    ∀ (ps : List Platform) (j loc : Nat) (plat : Platform) (dev : Device),
      ps[j]? = some plat → plat.devices[loc]? = some dev →
      (allDevices ps)[devicesBefore ps j + loc]? = some dev := by
  intro ps
  induction ps with
  | nil => intro j loc plat dev h; simp at h
  | cons p rest ih =>
    intro j loc plat dev hj hloc
    cases j with
    | zero =>
      have hp : p = plat := by simpa using hj
      subst hp
      have hlt : loc < p.devices.length := (List.getElem?_eq_some_iff.mp hloc).1
      rw [devicesBefore_zero, Nat.zero_add, allDevices, List.getElem?_append_left hlt]
      exact hloc
    | succ j =>
      have hj2 : rest[j]? = some plat := by simpa using hj
      rw [devicesBefore_cons_succ, allDevices, Nat.add_assoc,
        List.getElem?_append_right (by omega)]
      have : p.devices.length + (devicesBefore rest j + loc) - p.devices.length =
          devicesBefore rest j + loc := by omega
      rw [this]
      exact ih j loc plat dev hj2 hloc

/-- The ranges of two different platforms do not overlap: a later platform starts
at or after the end of an earlier one. -/
theorem devicesBefore_mono_succ :
    ∀ (ps : List Platform) (j j2 : Nat) (plat : Platform),
      ps[j]? = some plat → j < j2 →
      devicesBefore ps j + plat.devices.length ≤ devicesBefore ps j2 := by
  intro ps
  induction ps with
  | nil => intro j j2 plat h; simp at h
  | cons p rest ih =>
    intro j j2 plat hj hlt
    cases j2 with
    | zero => omega
    | succ j2 =>
      cases j with
      | zero =>
        have hp : p = plat := by simpa using hj
        subst hp
        rw [devicesBefore_zero, devicesBefore_cons_succ]
        omega
      | succ j =>
        have hj2 : rest[j]? = some plat := by simpa using hj
        have := ih j j2 plat hj2 (by omega)
        rw [devicesBefore_cons_succ, devicesBefore_cons_succ]
        omega

theorem GetDeviceConfig_of_found (m : AbstractMiner) (config d : Nat) (dev : Device)
    (h : deviceLoop m.hwProcessors.platforms d none = some dev) :
    GetDeviceConfig m config d =
      (GetMiningAlgoImp m).map (fun imp => (true, configOf imp dev)) := by
  simp only [GetDeviceConfig, h]
  cases GetMiningAlgoImp m with
  | none => rfl
  | some r => cases r <;> rfl

/-- C7. With 64-bit wrapping index arithmetic, a device total `T < 2 ^ 63` and any index
`d < 2 ^ 64`: `GetDeviceConfig` returns false exactly when `d ≥ T`, leaving `config` alone.
When `d < T` the device consulted is the one of platform `j` at local index
`d - (n_0 + ... + n_(j-1))`, for the only `j` whose range holds `d`; it is the `d`-th device
of the platform-major order; and wherever the binding lookup `GetMiningAlgoImp` is
defined the call returns true with `config` set to the used config of the bound
implementation for that device, or to 0 when none is bound. -/
theorem GetDeviceConfig_resolves (m : AbstractMiner) (config d : Nat)
    (hT : totalDevices m.hwProcessors.platforms < 2 ^ 63) (hd : d < 2 ^ 64) :
    ((∃ c, GetDeviceConfig m config d = some (false, c)) ↔
      totalDevices m.hwProcessors.platforms ≤ d) ∧
    (totalDevices m.hwProcessors.platforms ≤ d →
      GetDeviceConfig m config d = some (false, config)) ∧
    (d < totalDevices m.hwProcessors.platforms →
      ∃ j plat dev, m.hwProcessors.platforms[j]? = some plat ∧
        devicesBefore m.hwProcessors.platforms j ≤ d ∧
        plat.devices[d - devicesBefore m.hwProcessors.platforms j]? = some dev ∧
        (∀ j2 plat2, m.hwProcessors.platforms[j2]? = some plat2 →
          devicesBefore m.hwProcessors.platforms j2 ≤ d →
          d < devicesBefore m.hwProcessors.platforms j2 + plat2.devices.length → j2 = j) ∧
        (allDevices m.hwProcessors.platforms)[d]? = some dev ∧
        GetDeviceConfig m config d =
          (GetMiningAlgoImp m).map (fun imp => (true, configOf imp dev))) := by
  by_cases hcase : totalDevices m.hwProcessors.platforms ≤ d
  · have hloop : deviceLoop m.hwProcessors.platforms d none = none :=
      deviceLoop_pass _ _ _ hcase hd
    have hres : GetDeviceConfig m config d = some (false, config) := by
      simp only [GetDeviceConfig, hloop]
    exact ⟨⟨fun _ => hcase, fun _ => ⟨config, hres⟩⟩, fun _ => hres, fun h => absurd hcase (by omega)⟩
  · have hlt : d < totalDevices m.hwProcessors.platforms := by omega
    obtain ⟨j, plat, dev, h1, h2, h3, h4⟩ := deviceLoop_find _ d hlt hT
    have hres := GetDeviceConfig_of_found m config d dev h4
    have hloc : d - devicesBefore m.hwProcessors.platforms j < plat.devices.length :=
      (List.getElem?_eq_some_iff.mp h3).1
    refine ⟨⟨?_, fun h => absurd h hcase⟩, fun h => absurd h hcase, fun _ =>
      ⟨j, plat, dev, h1, h2, h3, ?_, ?_, hres⟩⟩
    · rintro ⟨c, hc⟩
      rw [hres] at hc
      cases hg : GetMiningAlgoImp m with
      | none => rw [hg] at hc; simp at hc
      | some r => rw [hg] at hc; simp at hc
    · intro j2 plat2 hj2 hlo hhi
      rcases Nat.lt_trichotomy j2 j with hlt2 | heq | hgt
      · have := devicesBefore_mono_succ _ j2 j plat2 hj2 hlt2
        omega
      · exact heq
      · have := devicesBefore_mono_succ _ j j2 plat h1 hgt
        omega
    · have := allDevices_at _ j _ plat dev h1 h3
      have hidx : devicesBefore m.hwProcessors.platforms j +
          (d - devicesBefore m.hwProcessors.platforms j) = d := by omega
      rw [hidx] at this
      exact this

/-- C7, run on platforms of 2, 0 and 3 devices with `sha/cl` bound: index 3 is the
second device (handle 31) of the third platform and yields `(true, 2)`; index 5 is out of
range and yields false with `config` untouched. -/
theorem GetDeviceConfig_resolves_witness :
    GetDeviceConfig boundSampleMiner 7 3 = some (true, 2) ∧
    GetDeviceConfig boundSampleMiner 7 5 = some (false, 7) ∧
    (allDevices boundSampleMiner.hwProcessors.platforms)[3]? = some ⟨31⟩ := by
  have hT : totalDevices boundSampleMiner.hwProcessors.platforms < 2 ^ 63 := by decide
  have h5 := (GetDeviceConfig_resolves boundSampleMiner 7 5 hT (by decide)).2.1 (by decide)
  obtain ⟨_, _, dev, _, _, _, _, hall, hres⟩ :=
    (GetDeviceConfig_resolves boundSampleMiner 7 3 hT (by decide)).2.2 (by decide)
  have hdev : (allDevices boundSampleMiner.hwProcessors.platforms)[3]? = some ⟨31⟩ := rfl
  have hd : dev = ⟨31⟩ := by
    rw [hdev] at hall
    exact (Option.some.inj hall).symm
  subst hd
  exact ⟨hres.trans rfl, h5, hdev⟩

/-! ## Settings forwarding, mailbox calls -/

/-- On a non-empty array the `while` loop of `AddSettings` is still running after any
number of passes, each pass having handed the first element to the implementation. -/
theorem settingsWhile_running (v : Value) (rest : List Value) :
    ∀ (fuel : Nat) (imp : AbstractAlgoImplementation),
      settingsWhile fuel (v :: rest) 0 imp =
        .running { imp with settings := imp.settings ++ List.replicate fuel v } := by
  intro fuel
  induction fuel with
  | zero => intro imp; simp [settingsWhile]
  | succ fuel ih =>
    intro imp
    rw [settingsWhile]
    simp only [List.length_cons, Nat.zero_lt_succ, dite_true, List.getElem_cons_zero]
    rw [ih]
    simp [AbstractAlgoImplementation.AddSettings, List.replicate_succ]

/-- On an empty array the `while` loop returns at once, without a call. -/
theorem settingsWhile_nil (fuel el : Nat) (imp : AbstractAlgoImplementation) :
    settingsWhile fuel [] el imp = .returned imp := by
  unfold settingsWhile
  simp

/-- An entry that is a single settings object is handed to the implementation once. -/
theorem addImplSettings_object (fuel : Nat) (famValue : List (String × Value))
    (imp : AbstractAlgoImplementation) (key : String) (members : List (String × Value))
    (h : FindMember famValue imp.GetName = some (key, .object members)) :
    addImplSettings fuel famValue imp = .returned (imp.AddSettings (.object members)) := by
  simp only [addImplSettings, h]

/-- C8, at the failing input: for the configuration `scrypt -> multi -> [s]` (an array of
one record) `AddSettings` has not returned after any number of loop passes, and after
`fuel` passes the implementation has received `s` `fuel` times instead of once. -/
theorem AddSettings_array_never_returns (fuel : Nat) :
    ∃ m1, AddSettings fuel scryptMiner arrayConfig = .running m1 ∧
      receivedSettings m1 = [[List.replicate fuel sampleSettings]] := by
  refine ⟨{ scryptMiner with algoFamilies := [{ name := "scrypt", implementations :=
    [{ sampleImpl "multi" with settings := List.replicate fuel sampleSettings }] }] }, ?_, rfl⟩
  have hfind1 : FindMember [("scrypt", Value.object [("multi", .array [sampleSettings])])] "scrypt"
      = some ("scrypt", Value.object [("multi", .array [sampleSettings])]) := by
    simp [FindMember]
  have hfind2 : FindMember [("multi", Value.array [sampleSettings])] "multi"
      = some ("multi", Value.array [sampleSettings]) := by
    simp [FindMember]
  simp only [AddSettings, scryptMiner, newMiner, arrayConfig, addFamiliesSettings, hfind1,
    addImplsSettings, addImplSettings, AbstractAlgoImplementation.GetName, sampleImpl, hfind2,
    settingsWhile_running, Outcome.map, List.nil_append]

/-- C9. Two `Mangle` calls in a row leave the miner, and so the inbox, as the second call
alone does: owner `p2`, pending unit `w2`, the first unit gone; `terminate`,
`checkNonces` and `run` are those from before; the caller's handle is empty after the
call and `GetCurrentPool` returns `p2`. -/
theorem Mangle_coalesces (m : AbstractMiner) (p1 p2 : Nat) (w1 w2 : Option AbstractWorkUnit) :
    (Mangle (Mangle m p1 w1).1 p2 w2).1 = (Mangle m p2 w2).1 ∧
    (Mangle (Mangle m p1 w1).1 p2 w2).1.toMiner.owner = some p2 ∧
    (Mangle (Mangle m p1 w1).1 p2 w2).1.toMiner.wu = w2 ∧
    (Mangle (Mangle m p1 w1).1 p2 w2).1.toMiner.terminate = m.toMiner.terminate ∧
    (Mangle (Mangle m p1 w1).1 p2 w2).1.toMiner.checkNonces = m.toMiner.checkNonces ∧
    (Mangle (Mangle m p1 w1).1 p2 w2).1.toMiner.run = m.toMiner.run ∧
    (Mangle m p1 w1).1.toMiner.terminate = m.toMiner.terminate ∧
    (Mangle m p1 w1).1.toMiner.checkNonces = m.toMiner.checkNonces ∧
    (Mangle m p1 w1).1.toMiner.run = m.toMiner.run ∧
    (Mangle m p1 w1).2 = none ∧
    (Mangle (Mangle m p1 w1).1 p2 w2).2 = none ∧
    GetCurrentPool (Mangle (Mangle m p1 w1).1 p2 w2).1 = some p2 :=
  ⟨rfl, rfl, rfl, rfl, rfl, rfl, rfl, rfl, rfl, rfl, rfl, rfl⟩

/-- C10. `UnexpectedlyTerminated` returns true exactly when `fromMiner.terminated` is set and
`toMiner.terminate` is not; the caller's description becomes the worker's error message
when the result is true and the error flag is set, and keeps its value otherwise;
`terminate`, `terminated`, `initialized` and the error flag are as before. -/
theorem UnexpectedlyTerminated_spec (m : AbstractMiner) (desc : String) :
    ((UnexpectedlyTerminated m desc).1 = true ↔
      m.fromMiner.terminated = true ∧ m.toMiner.terminate = false) ∧
    (UnexpectedlyTerminated m desc).2.1 =
      (if (UnexpectedlyTerminated m desc).1 = true ∧ m.fromMiner.error.1 = true
        then m.fromMiner.error.2 else desc) ∧
    (UnexpectedlyTerminated m desc).2.2.toMiner = m.toMiner ∧
    (UnexpectedlyTerminated m desc).2.2.fromMiner.terminated = m.fromMiner.terminated ∧
    (UnexpectedlyTerminated m desc).2.2.fromMiner.initialized = m.fromMiner.initialized ∧
    (UnexpectedlyTerminated m desc).2.2.fromMiner.error.1 = m.fromMiner.error.1 ∧
    (UnexpectedlyTerminated m desc).2.2.fromMiner.found = m.fromMiner.found := by
  unfold UnexpectedlyTerminated
  by_cases h1 : m.toMiner.terminate = false ∧ m.fromMiner.terminated = true
  · by_cases h2 : m.fromMiner.error.1 = true
    · simp [h1, h2]
    · simp [h1, h2]
  · have h3 : ¬ (m.fromMiner.terminated = true ∧ m.toMiner.terminate = false) :=
      fun h => h1 ⟨h.2, h.1⟩
    simp only [h1, if_false]
    refine ⟨⟨fun h => by simp at h, fun h => absurd h h3⟩, ?_, by simp⟩
    simp

/-! ## Idempotence, determinism and write safety -/

/-- C14. Calling `SharesFound` twice in a row leaves the miner (and so the outbox) and the
caller list as one call does, and the second call returns false. -/
theorem SharesFound_idempotent (m : AbstractMiner) (R : List Nonces) :
    SharesFound (SharesFound m R).2.2 (SharesFound m R).2.1 =
      (false, (SharesFound m R).2.1, (SharesFound m R).2.2) := by
  by_cases h : m.fromMiner.found.length = 0
  · simp [SharesFound, h]
  · simp [SharesFound, h]

/-- C15. For `merkleOff + 32 ≤ 128` the header that `MakeNoncedHeader` produces is determined by the
blank header, the branch, the merkle offset and the leaf hash: two work units that
agree on these get the same header, whatever their old headers, their other
fields and the initial contents of the scratch buffer; and a second call with the
same leaf hash reproduces the header of the first byte for byte. -/
theorem MakeNoncedHeader_deterministic (H : Buf 64 → Buf 32)
    (cb1 cb2 : AbstractWorkUnit → Buf 32) (scratch1 scratch2 : Buf 64)
    (wu1 wu2 : AbstractWorkUnit) (hoff : wu1.coinbase.merkleOff + 32 ≤ 128)
    (hblank : wu1.blankHeader = wu2.blankHeader)
    (hbranch : wu1.coinbase.merkles = wu2.coinbase.merkles)
    (hslot : wu1.coinbase.merkleOff = wu2.coinbase.merkleOff)
    (hleaf : cb1 wu1 = cb2 wu2) :
    (∃ r1 r2, MakeNoncedHeader H cb1 scratch1 wu1 = some r1 ∧
      MakeNoncedHeader H cb2 scratch2 wu2 = some r2 ∧ r1.header = r2.header) ∧
    (∀ r1, MakeNoncedHeader H cb1 scratch1 wu1 = some r1 → cb1 r1 = cb1 wu1 →
      ∃ r2, MakeNoncedHeader H cb1 scratch2 r1 = some r2 ∧ r2.header = r1.header ∧ r2 = r1) := by
  have e1 := MakeNoncedHeader_eq H cb1 scratch1 wu1 hoff
  have e2 := MakeNoncedHeader_eq H cb2 scratch2 wu2 (by rw [← hslot]; exact hoff)
  refine ⟨⟨_, _, e1, e2, ?_⟩, ?_⟩
  · simp only [hblank, hbranch, hslot, hleaf]
  · intro r1 hr1 hcb
    rw [e1] at hr1
    have hr := (Option.some.inj hr1).symm
    have e3 := MakeNoncedHeader_eq H cb1 scratch2 r1 (by rw [hr]; exact hoff)
    refine ⟨_, e3, ?_, ?_⟩
    · rw [hcb]; rw [hr]
    · rw [hcb]; rw [hr]

/-- C15, run twice on a work unit with a stale header, one sibling and merkle offset 36,
with different scratch contents: the second call returns the header of the first. -/
theorem MakeNoncedHeader_deterministic_witness :
    ∃ r1 r2, MakeNoncedHeader sampleHash (fun _ => Buf.fill 32 0x11) (Buf.fill 64 0xcc)
        (sampleWU [Buf.fill 32 0x22] 36) = some r1 ∧
      MakeNoncedHeader sampleHash (fun _ => Buf.fill 32 0x11) (Buf.fill 64 0x55) r1 = some r2 ∧
      r2.header = r1.header ∧ r2 = r1 := by
  have h := MakeNoncedHeader_deterministic sampleHash (fun _ => Buf.fill 32 0x11)
    (fun _ => Buf.fill 32 0x11) (Buf.fill 64 0xcc) (Buf.fill 64 0x55)
    (sampleWU [Buf.fill 32 0x22] 36) (sampleWU [Buf.fill 32 0x22] 36)
    (by decide) rfl rfl rfl rfl
  obtain ⟨r1, _, h1, _, _⟩ := h.1
  obtain ⟨r2, h2, h3, h4⟩ := h.2 r1 h1 rfl
  exact ⟨r1, r2, h1, h2, h3, h4⟩

/-- Inside the invariant the capacity `128 - merkleOff` is at least 32: the bounded copy
passes its check and puts exactly the 32 root bytes at `merkleOff .. merkleOff + 31`. -/
theorem merkleRootCopy_inside (raw : Buf 128) (merkleOff : Nat) (root : Buf 32)
    (hoff : merkleOff + 32 ≤ 128) :
    32 ≤ asizeiSub 128 merkleOff ∧
    merkleRootCopy raw merkleOff root = .copied (copyAt raw merkleOff root) := by
  have hsub : asizeiSub 128 merkleOff = 128 - merkleOff :=
    asizeiSub_of_le 128 _ (by omega) (by norm_num)
  have h1 : ¬ (128 - merkleOff < 32) := by omega
  refine ⟨by rw [hsub]; omega, ?_⟩
  simp only [merkleRootCopy, memcpy_s_result, hsub, h1, if_false, hoff, if_true]

/-- For `96 < merkleOff ≤ 128` the capacity `128 - merkleOff` is below 32 and the bounded copy
takes its error branch. -/
theorem merkleRootCopy_refused (raw : Buf 128) (merkleOff : Nat) (root : Buf 32)
    (hlo : 128 < merkleOff + 32) (hhi : merkleOff ≤ 128) :
    merkleRootCopy raw merkleOff root = .refused := by
  have hsub : asizeiSub 128 merkleOff = 128 - merkleOff :=
    asizeiSub_of_le 128 _ hhi (by norm_num)
  have h1 : 128 - merkleOff < 32 := by omega
  simp only [merkleRootCopy, memcpy_s_result, hsub, h1, if_true]

/-- For `128 < merkleOff < 2 ^ 64` the capacity wraps around to `2 ^ 64 + 128 - merkleOff`, the
check passes and the 32 bytes go to `merkleOff .. merkleOff + 31`, past the array. -/
theorem merkleRootCopy_wraps (raw : Buf 128) (merkleOff : Nat) (root : Buf 32)
    (hlo : 128 < merkleOff) (hhi : merkleOff < 2 ^ 64) :
    asizeiSub 128 merkleOff = 2 ^ 64 - (merkleOff - 128) ∧
    merkleRootCopy raw merkleOff root = .outside merkleOff (merkleOff + 31) := by
  have hsub : asizeiSub 128 merkleOff = 2 ^ 64 - (merkleOff - 128) :=
    asizeiSub_wrap 128 merkleOff hlo hhi
  have h1 : ¬ (2 ^ 64 - (merkleOff - 128) < 32) := by omega
  have h2 : ¬ (merkleOff + 32 ≤ 128) := by omega
  refine ⟨hsub, ?_⟩
  simp only [merkleRootCopy, memcpy_s_result, hsub, h1, if_false, h2]
  rfl

/-- C19, at the failing input `merkleOff = 200`: the capacity `128 - 200` wraps to `2 ^ 64 - 72`, so
the capacity check of the bounded copy passes and the 32 root bytes go to the indices
`200 .. 231`, all outside the 128-byte header; the call has no defined result. -/
theorem MakeNoncedHeader_copy_past_header (H : Buf 64 → Buf 32) (scratch : Buf 64)
    (raw : Buf 128) (root : Buf 32) :
    200 + 32 > 128 ∧
    asizeiSub 128 200 = 2 ^ 64 - 72 ∧
    32 ≤ asizeiSub 128 200 ∧
    merkleRootCopy raw 200 root ≠ .refused ∧
    merkleRootCopy raw 200 root = .outside 200 231 ∧
    MakeNoncedHeader H (fun _ => root) scratch (sampleWU [] 200) = none := by
  have hw := merkleRootCopy_wraps raw 200 root (by norm_num) (by norm_num)
  have hsub : asizeiSub 128 200 = 2 ^ 64 - 72 := hw.1
  refine ⟨by norm_num, hsub, by rw [hsub]; norm_num, ?_, hw.2, ?_⟩
  · rw [hw.2]; intro h; cases h
  · have hno : ¬ (32 ≤ 2 ^ 64 - 72 ∧ 200 + (2 ^ 64 - 72) ≤ 128) := by norm_num
    simp only [MakeNoncedHeader, memcpy_s, sampleWU, hsub, hno, if_false, le_refl, Nat.zero_add,
      and_self, if_true]

/-! ## Enumerations and diagnostics -/

theorem appendListed_of_ne (ret name : String) (h : ret ≠ "") :
    appendListed ret name = ret ++ ", " ++ name ∧ appendListed ret name ≠ "" := by
  have hlen : ret.length ≠ 0 := fun h0 => h ((String_length_eq_zero ret).mp h0)
  have heq : appendListed ret name = ret ++ ", " ++ name := by
    simp only [appendListed, hlen, ne_eq, not_false_eq_true, if_true]
  refine ⟨heq, ?_⟩
  intro hnil
  have : (appendListed ret name).length = 0 := by rw [hnil]; rfl
  rw [heq, String.length_append, String.length_append] at this
  omega

theorem foldl_appendListed_go :
    ∀ (names : List String) (acc : String), acc ≠ "" →
      names.foldl appendListed acc = String.intercalate.go acc ", " names := by
  intro names
  induction names with
  | nil => intro acc _; rfl
  | cons a rest ih =>
    intro acc hacc
    obtain ⟨h1, h2⟩ := appendListed_of_ne acc a hacc
    rw [List.foldl_cons, String.intercalate.go, ih _ h2, h1]

/-- The loop of `GetAlgos` and `GetImplementations` over names that are all non-empty yields the
names joined by `", "`. -/
theorem foldl_appendListed_eq_intercalate (names : List String) (h : ∀ n ∈ names, n ≠ "") :
    names.foldl appendListed "" = ", ".intercalate names := by
  cases names with
  | nil => rfl
  | cons a rest =>
    have ha : a ≠ "" := h a (List.mem_cons_self a rest)
    have hstep : appendListed "" a = a := by
      simp [appendListed]
    rw [List.foldl_cons, hstep, String.intercalate, foldl_appendListed_go rest a ha]

/-- C17. `GetImplementations(algo)` is the empty string when no family name equals `algo`
case-insensitively; otherwise, the names of the first matching family being non-empty,
it is these names in declaration order joined by `", "`. `GetAlgos` is the family names,
when non-empty, joined the same way. -/
theorem GetImplementations_joined (m : AbstractMiner) (algo : String) :
    ((∀ fam ∈ m.algoFamilies, stricmpEq algo fam.name = false) →
      GetImplementations m algo = "") ∧
    (∀ k, ∀ hk : k < m.algoFamilies.length,
      stricmpEq algo (m.algoFamilies[k]).name = true →
      (∀ j, ∀ hj : j < k, stricmpEq algo (m.algoFamilies[j]).name = false) →
      (∀ imp ∈ (m.algoFamilies[k]).implementations, imp.name ≠ "") →
      GetImplementations m algo =
        ", ".intercalate ((m.algoFamilies[k]).implementations.map (fun imp => imp.name))) ∧
    ((∀ fam ∈ m.algoFamilies, fam.name ≠ "") →
      GetAlgos m = ", ".intercalate (m.algoFamilies.map (fun fam => fam.name))) := by
  refine ⟨?_, ?_, ?_⟩
  · intro hnone
    have hfind : m.algoFamilies.find? (fun test => test.AreYou algo) = none := by
      rw [List.find?_eq_none]
      intro fam hfam
      simp [AlgoFamily.AreYou, hnone fam hfam]
    simp only [GetImplementations, hfind]
  · intro k hk hmatch hfirst hnames
    have hfind := find?_of_first_index (fun test : AlgoFamily => test.AreYou algo)
      m.algoFamilies k hk hmatch hfirst
    simp only [GetImplementations, hfind]
    apply foldl_appendListed_eq_intercalate
    intro n hn
    obtain ⟨imp, himp, rfl⟩ := List.mem_map.mp hn
    exact hnames imp himp
  · intro hnames
    simp only [GetAlgos]
    apply foldl_appendListed_eq_intercalate
    intro n hn
    obtain ⟨fam, hfam, rfl⟩ := List.mem_map.mp hn
    exact hnames fam hfam

/-- C17, run on the registry `Scrypt` (`Multi`, `Single`, `fast`), `sha` (`cl`): the query `"SCRYPT"`
lists the three implementations, an unknown name lists nothing, and `GetAlgos` lists
both families. -/
theorem GetImplementations_joined_witness :
    GetImplementations threeImplMiner "SCRYPT" = "Multi, Single, fast" ∧
    GetImplementations threeImplMiner "x11" = "" ∧
    GetAlgos threeImplMiner = "Scrypt, sha" := by
  have h := GetImplementations_joined threeImplMiner "SCRYPT"
  have h2 := GetImplementations_joined threeImplMiner "x11"
  refine ⟨?_, ?_, ?_⟩
  · refine (h.2.1 0 (by decide) (by decide) (fun j hj => absurd hj (Nat.not_lt_zero j)) ?_).trans ?_
    · intro imp himp
      simp [threeImplMiner, newMiner, sampleImpl] at himp
      rcases himp with rfl | rfl | rfl <;> decide
    · decide
  · apply h2.1
    intro fam hfam
    simp [threeImplMiner, newMiner] at hfam
    rcases hfam with rfl | rfl <;> decide
  · refine (h.2.2 ?_).trans ?_
    · intro fam hfam
      simp [threeImplMiner, newMiner] at hfam
      rcases hfam with rfl | rfl <;> decide
    · decide

theorem mem_allDevices (dev : Device) :
    ∀ ps : List Platform, dev ∈ allDevices ps → ∃ plat ∈ ps, dev ∈ plat.devices := by
  intro ps
  induction ps with
  | nil => intro h; simp [allDevices] at h
  | cons p rest ih =>
    intro h
    rw [allDevices, List.mem_append] at h
    rcases h with h | h
    · exact ⟨p, List.mem_cons_self p rest, h⟩
    · obtain ⟨plat, hplat, hdev⟩ := ih h
      exact ⟨plat, List.mem_cons_of_mem p hplat, hdev⟩

/-- C16. `GetBadConfigReasons(i)`: with no implementation bound the result is the single line
`"No algorithm implementation to mine"`, for every `i`; with an implementation bound and `i`
at or past the device total it is the single line `"Device [i] does not exist"`, `i` in
decimal; with an implementation bound and `i` below the total, the device and a platform
holding it exist and the result is that of the bound implementation for them. -/
theorem GetBadConfigReasons_cases (m : AbstractMiner) (i : Nat) :
    (GetMiningAlgoImp m = some none →
      GetBadConfigReasons m i = some ["No algorithm implementation to mine"]) ∧
    (∀ imp, GetMiningAlgoImp m = some (some imp) → totalDevices m.hwProcessors.platforms ≤ i →
      GetBadConfigReasons m i = some ["Device [" ++ toString i ++ "] does not exist"]) ∧
    (∀ imp, GetMiningAlgoImp m = some (some imp) → i < totalDevices m.hwProcessors.platforms →
      ∃ dev plat, (allDevices m.hwProcessors.platforms)[i]? = some dev ∧
        plat ∈ m.hwProcessors.platforms ∧ dev ∈ plat.devices ∧
        m.hwProcessors.GetPlatform dev = some plat ∧
        GetBadConfigReasons m i = some (imp.GetBadConfigReasons plat dev)) := by
  refine ⟨?_, ?_, ?_⟩
  · intro h
    simp only [GetBadConfigReasons, h]
  · intro imp h hle
    have hnone : m.hwProcessors.GetDeviceLinear i = none := by
      simp only [MiningProcessorsProvider.GetDeviceLinear]
      exact List.getElem?_eq_none (by rw [allDevices_length]; exact hle)
    simp only [GetBadConfigReasons, h, hnone]
  · intro imp h hlt
    have hlen : i < (allDevices m.hwProcessors.platforms).length := by
      rw [allDevices_length]; exact hlt
    have hdev : m.hwProcessors.GetDeviceLinear i = some ((allDevices m.hwProcessors.platforms)[i]) := by
      simp only [MiningProcessorsProvider.GetDeviceLinear]
      exact List.getElem?_eq_getElem hlen
    obtain ⟨p0, hp0, hd0⟩ := mem_allDevices _ _ (List.getElem_mem hlen)
    cases hplat : m.hwProcessors.GetPlatform ((allDevices m.hwProcessors.platforms)[i]) with
    | none =>
      have := List.find?_eq_none.mp hplat p0 hp0
      simp [hd0] at this
    | some plat =>
      have hmem : plat ∈ m.hwProcessors.platforms := List.mem_of_find?_eq_some hplat
      have hin : (allDevices m.hwProcessors.platforms)[i] ∈ plat.devices := by
        have := List.find?_some hplat
        simpa using this
      refine ⟨_, plat, List.getElem?_eq_getElem hlen, hmem, hin, hplat, ?_⟩
      simp only [GetBadConfigReasons, h, hdev, hplat]

/-- C16, run on platforms of 2, 0 and 3 devices: unbound, every index gets the one line
about the missing implementation; bound to `sha/cl`, index 9 does not exist and index 3
gets the complaint of the implementation about the device with handle 31. -/
theorem GetBadConfigReasons_cases_witness :
    GetBadConfigReasons (newMiner [] sampleProvider) 9 =
      some ["No algorithm implementation to mine"] ∧
    GetBadConfigReasons complainingMiner 9 = some ["Device [9] does not exist"] ∧
    GetBadConfigReasons complainingMiner 3 = some ["not enough memory"] := by
  refine ⟨(GetBadConfigReasons_cases (newMiner [] sampleProvider) 9).1 rfl, ?_, ?_⟩
  · exact ((GetBadConfigReasons_cases complainingMiner 9).2.1 _ rfl (by decide)).trans rfl
  · obtain ⟨dev, plat, h1, _, _, _, h5⟩ :=
      (GetBadConfigReasons_cases complainingMiner 3).2.2 _ rfl (by decide)
    have hdev : (allDevices complainingMiner.hwProcessors.platforms)[3]? = some ⟨31⟩ := rfl
    rw [hdev] at h1
    have hd := (Option.some.inj h1).symm
    subst hd
    rw [h5]
    rfl

/-! ## Teardown -/

/-- As long as the first clock reading after `startChecking` is not more than 10 seconds
later, the polling loop of the destructor ends before its first pass. -/
theorem teardownLoop_no_poll (clock : Nat → Nat) (terminated : Nat → Bool) (fuel : Nat)
    (h : clock 1 ≤ clock 0 + 10) :
    teardownLoop clock terminated (clock 0) (fuel + 1) 1 0 = some (2, 0, false) := by
  have hc : ¬ (clock 0 + 10 < clock 1) := by omega
  simp only [teardownLoop, hc, if_false]

/-- C11, at the failing input: a started worker that never sets `terminated`, and a clock
that reads 1000, 1001, 1002, ... The destructor sets `terminate`, never reads
`fromMiner.terminated`, and joins the worker although the flag was not observed; the wait
the spec describes polls once per reading until ten seconds have passed (nine reads)
and then abandons the join. -/
theorem destroy_joins_without_polling (fuel : Nat) (m : AbstractMiner) :
    (∃ m1, destroy (fuel + 1) true (fun k => 1000 + k) (fun _ => false) m =
        some (m1, { polls := 0, observed := false, joined := true }) ∧
      m1.toMiner.terminate = true) ∧
    teardownWaitSpec (fun k => 1000 + k) (fun _ => false) 1000 (fuel + 11) 1 0 =
      some { polls := 9, observed := false, joined := false } := by
  refine ⟨⟨{ m with toMiner := { m.toMiner with terminate := true }, algoFamilies := [] },
    ?_, rfl⟩, ?_⟩
  · have hloop := teardownLoop_no_poll (fun k => 1000 + k) (fun _ => false) fuel (by norm_num)
    simp only [destroy, if_true, hloop]
    norm_num
  · simp [teardownWaitSpec]

/-! ## The versioning hash -/

/-- When the steps `index .. n - 1` have a file name, step `n` has none and `n` fits in 32
bits, the enumeration loop started at `index` ends within `n - index + 1` evaluations of
its condition, having appended exactly these steps. -/
theorem enumerateSteps_spec (get : Nat → String × String) (n : Nat)
    (hsteps : ∀ k, k < n → (get k).1 ≠ "") (hend : (get n).1 = "") (hn : n < 2 ^ 32) :
    ∀ (fuel index : Nat) (steps : List (String × String)), index ≤ n → n - index < fuel →
      enumerateSteps get fuel index steps =
        some (steps ++ (List.range' index (n - index)).map get) := by
  intro fuel
  induction fuel with
  | zero => intro index steps _ h; omega
  | succ fuel ih =>
    intro index steps hle hfuel
    by_cases hidx : index = n
    · subst hidx
      have hlen : ¬ ((get index).1.length ≠ 0) := by
        rw [hend]; decide
      simp only [enumerateSteps, hlen, if_false, Nat.sub_self, List.range'_zero, List.map_nil,
        List.append_nil]
    · have hlt : index < n := by omega
      have hlen : (get index).1.length ≠ 0 :=
        fun h0 => hsteps index hlt ((String_length_eq_zero _).mp h0)
      have hmod : (index + 1) % 2 ^ 32 = index + 1 := Nat.mod_eq_of_lt (by omega)
      have hsplit : n - index = (n - (index + 1)) + 1 := by omega
      simp only [enumerateSteps, hlen, if_true, hmod]
      rw [ih (index + 1) _ (by omega) (by omega), hsplit, List.range'_succ, List.map_cons,
        List.append_assoc, List.singleton_append, if_pos hlen]

theorem blobLoop_eq (fs : String → Option String) :
    ∀ (steps : List (String × String)) (blob : String),
      blobLoop fs steps blob =
        (sourceEnumeration fs steps).map (fun e => blob ++ concatEnumeration e) := by
  intro steps
  induction steps with
  | nil => intro blob; simp [blobLoop, sourceEnumeration, concatEnumeration, Except.map]
  | cons el rest ih =>
    intro blob
    cases hsrc : GetSourceFromFile fs ("kernels/" ++ el.1) with
    | error e => simp [blobLoop, sourceEnumeration, hsrc, Except.map]
    | ok src =>
      cases hrest : sourceEnumeration fs rest with
      | error e => simp [blobLoop, sourceEnumeration, hsrc, hrest, ih, Except.map]
      | ok tail =>
        simp [blobLoop, sourceEnumeration, hsrc, hrest, ih, Except.map, concatEnumeration,
          String.append_assoc]

theorem xorWords_eq (le : Bool) (d : Buf 32) :
    xorWords le d = wordAt le d 0 ^^^ wordAt le d 1 ^^^ wordAt le d 2 ^^^ wordAt le d 3 := by
  simp [xorWords, List.finRange, List.pmap, List.range, List.range.loop]
  rfl

/-- The versioning hash is the spec's hash of the `source_for` enumeration, whenever that
enumeration is; it is undefined or an error exactly when the enumeration is. -/
theorem GetVersioningHash_eq (SHA256 : String → Buf 32) (le : Bool) (fs : String → Option String)
    (fuel : Nat) (imp : AbstractAlgoImplementation) :
    GetVersioningHash SHA256 le fs fuel imp =
      (sourceForEnumeration fs fuel imp).map
        (fun r => r.map (fun e => versioningHashSpec SHA256 le imp.version e)) := by
  simp only [GetVersioningHash, CustomVersioningStrings, sourceForEnumeration, Option.map_map]
  congr 1
  funext steps
  simp only [Function.comp, blobLoop_eq, String.empty_append]
  cases sourceEnumeration fs steps with
  | error e => rfl
  | ok e => simp [Except.map, versioningHashSpec, xorWords_eq]

/-- C13. When the steps `0 .. n - 1` of setting index `GetNumSettings()` have a file name, step `n` has
none, and the kernel sources load as `src_1 .. src_n`, then with more than `n` units of fuel
`GetVersioningHash` returns `w0 xor w1 xor w2 xor w3`, the four 8-byte words (host byte order) of
the digest of `version ++ src_1 ++ entry_1 ++ ... ++ src_n ++ entry_n`; with `n = 0` the digest
input is the version string alone. -/
theorem GetVersioningHash_definition (SHA256 : String → Buf 32) (le : Bool)
    (fs : String → Option String) (imp : AbstractAlgoImplementation) (n fuel : Nat)
    (enumeration : List (String × String))
    (hsteps : ∀ k, k < n → (imp.GetSourceFileAndKernel imp.GetNumSettings k).1 ≠ "")
    (hend : (imp.GetSourceFileAndKernel imp.GetNumSettings n).1 = "")
    (hn : n < 2 ^ 32) (hfuel : n < fuel)
    (hsrc : sourceEnumeration fs
      ((List.range n).map (imp.GetSourceFileAndKernel imp.GetNumSettings)) = .ok enumeration) :
    GetVersioningHash SHA256 le fs fuel imp =
      some (.ok
        (wordAt le (SHA256 (imp.version ++ concatEnumeration enumeration)) 0 ^^^
         wordAt le (SHA256 (imp.version ++ concatEnumeration enumeration)) 1 ^^^
         wordAt le (SHA256 (imp.version ++ concatEnumeration enumeration)) 2 ^^^
         wordAt le (SHA256 (imp.version ++ concatEnumeration enumeration)) 3)) ∧
    enumeration.length = n ∧
    (n = 0 → imp.version ++ concatEnumeration enumeration = imp.version) := by
  have henum := enumerateSteps_spec (imp.GetSourceFileAndKernel imp.GetNumSettings) n hsteps hend hn
    fuel 0 [] (Nat.zero_le n) (by omega)
  rw [Nat.sub_zero, List.nil_append, ← List.range_eq_range'] at henum
  have hlen : ∀ (steps e : List (String × String)),
      sourceEnumeration fs steps = .ok e → e.length = steps.length := by
    intro steps
    induction steps with
    | nil => intro e h; simp [sourceEnumeration] at h; subst h; rfl
    | cons el rest ih =>
      intro e h
      cases hs : GetSourceFromFile fs ("kernels/" ++ el.1) with
      | error msg => simp [sourceEnumeration, hs] at h
      | ok src =>
        cases hr : sourceEnumeration fs rest with
        | error msg => simp [sourceEnumeration, hs, hr] at h
        | ok tail =>
          simp [sourceEnumeration, hs, hr] at h
          subst h
          simp [ih tail hr]
  have hcount : enumeration.length = n := by
    rw [hlen _ _ hsrc]; simp
  refine ⟨?_, hcount, ?_⟩
  · rw [GetVersioningHash_eq]
    simp only [sourceForEnumeration, henum, Option.map_some', hsrc, Except.map, versioningHashSpec]
  · intro h0
    rw [h0] at hcount
    rw [List.length_eq_zero.mp hcount]
    simp [concatEnumeration]

/-- C13, run on an implementation with the steps `b.cl/main` and `c.cl/k`, where `b.cl` holds
`kernelx` and `c.cl` holds `void`: the digest input is `"1" ++ "kernelx" ++ "main" ++ "void" ++ "k"`. -/
theorem GetVersioningHash_definition_witness :
    GetVersioningHash sampleSHA256 true sampleFiles 5
        (kernelImpl [("b.cl", "main"), ("c.cl", "k")]) =
      some (.ok
        (wordAt true (sampleSHA256 "1kernelxmainvoidk") 0 ^^^
         wordAt true (sampleSHA256 "1kernelxmainvoidk") 1 ^^^
         wordAt true (sampleSHA256 "1kernelxmainvoidk") 2 ^^^
         wordAt true (sampleSHA256 "1kernelxmainvoidk") 3)) := by
  have h := GetVersioningHash_definition sampleSHA256 true sampleFiles
    (kernelImpl [("b.cl", "main"), ("c.cl", "k")]) 2 5 [("kernelx", "main"), ("void", "k")]
    (by
      intro k hk
      have hk2 : k = 0 ∨ k = 1 := by omega
      rcases hk2 with rfl | rfl <;> decide)
    rfl (by norm_num) (by norm_num) rfl
  exact h.1

/-- C12, as stated, fails: the implementations with the single steps (`kernel`, `xmain`) and
(`kernelx`, `main`) have different enumerations, yet the same digest input `"1kernelxmain"`
and therefore the same versioning hash, whatever the digest function does. -/
theorem GetVersioningHash_blind_to_moved_character :
    sourceForEnumeration sampleFiles 5 (kernelImpl [("a.cl", "xmain")]) =
      some (.ok [("kernel", "xmain")]) ∧
    sourceForEnumeration sampleFiles 5 (kernelImpl [("b.cl", "main")]) =
      some (.ok [("kernelx", "main")]) ∧
    [("kernel", "xmain")] ≠ [("kernelx", "main")] ∧
    (kernelImpl [("a.cl", "xmain")]).version = (kernelImpl [("b.cl", "main")]).version ∧
    "1" ++ concatEnumeration [("kernel", "xmain")] = "1" ++ concatEnumeration [("kernelx", "main")] ∧
    GetVersioningHash sampleSHA256 true sampleFiles 5 (kernelImpl [("a.cl", "xmain")]) =
      GetVersioningHash sampleSHA256 true sampleFiles 5 (kernelImpl [("b.cl", "main")]) ∧
    GetVersioningHash sampleSHA256 true sampleFiles 5 (kernelImpl [("a.cl", "xmain")]) =
      some (.ok (versioningHashSpec sampleSHA256 true "1" [("kernel", "xmain")])) := by
  refine ⟨rfl, rfl, by decide, rfl, by decide, ?_, ?_⟩
  · rw [GetVersioningHash_eq, GetVersioningHash_eq]
    rfl
  · rw [GetVersioningHash_eq]
    rfl

/-- C12, amended. For a fixed version string, two implementations whose `source_for`
enumerations are equal, or just have the same concatenation
`src_1 ++ entry_1 ++ ... ++ src_n ++ entry_n`, have equal `GetVersioningHash` values, and these are
returned values, for every digest function. -/
theorem GetVersioningHash_of_equal_concatenation (SHA256 : String → Buf 32) (le : Bool)
    (fs : String → Option String) (fuelA fuelB : Nat) (impA impB : AbstractAlgoImplementation)
    (enumA enumB : List (String × String))
    (hversion : impA.version = impB.version)
    (hA : sourceForEnumeration fs fuelA impA = some (.ok enumA))
    (hB : sourceForEnumeration fs fuelB impB = some (.ok enumB))
    (hsame : enumA = enumB ∨ concatEnumeration enumA = concatEnumeration enumB) :
    GetVersioningHash SHA256 le fs fuelA impA = GetVersioningHash SHA256 le fs fuelB impB ∧
    GetVersioningHash SHA256 le fs fuelA impA =
      some (.ok (versioningHashSpec SHA256 le impA.version enumA)) := by
  have hcat : concatEnumeration enumA = concatEnumeration enumB := by
    rcases hsame with h | h
    · rw [h]
    · exact h
  rw [GetVersioningHash_eq, GetVersioningHash_eq, hA, hB]
  refine ⟨?_, rfl⟩
  simp only [Option.map_some', Except.map, versioningHashSpec, hversion, hcat]

/-- C12, amended, run on two implementations that load the same kernel `b.cl` under the
same entry name: equal enumerations, equal hashes. -/
theorem GetVersioningHash_of_equal_concatenation_witness :
    GetVersioningHash sampleSHA256 false sampleFiles 3 (kernelImpl [("b.cl", "main")]) =
      GetVersioningHash sampleSHA256 false sampleFiles 7
        ({ kernelImpl [("b.cl", "main")] with name := "single" }) :=
  (GetVersioningHash_of_equal_concatenation sampleSHA256 false sampleFiles 3 7
    (kernelImpl [("b.cl", "main")]) ({ kernelImpl [("b.cl", "main")] with name := "single" })
    [("kernelx", "main")] [("kernelx", "main")] rfl rfl rfl (Or.inl rfl)).1

/-! ## The bound-implementation invariant -/

/-- A `SetCurrentAlgo` call either leaves the miner as it is or, having found the family and
the implementation, stores the two names it was given. -/
theorem SetCurrentAlgo_state (m : AbstractMiner) (algo implementation : String) :
    (SetCurrentAlgo m algo implementation).2 = m ∨
    (∃ fam imp, m.algoFamilies.find? (fun test => test.AreYou algo) = some fam ∧
      fam.implementations.find? (fun test => test.AreYou implementation) = some imp ∧
      (SetCurrentAlgo m algo implementation).2 =
        { m with currAlgo := algo, currImpl := implementation }) := by
  unfold SetCurrentAlgo
  split
  · exact Or.inl rfl
  · split
    · exact Or.inl rfl
    · rename_i fam hfam
      split
      · exact Or.inl rfl
      · rename_i imp himp
        exact Or.inr ⟨fam, imp, hfam, himp, rfl⟩

theorem boundWell_of_reachable (algos : List AlgoFamily) (hw : MiningProcessorsProvider)
    (m : AbstractMiner) (hr : Reachable algos hw m) : boundWell algos m := by
  induction hr with
  | construct => exact ⟨rfl, fun h => absurd rfl h⟩
  | setCurrentAlgo m0 algo implementation _ ih =>
    rcases SetCurrentAlgo_state m0 algo implementation with h | ⟨fam, imp, hfam, himp, h⟩
    · rw [h]; exact ih
    · rw [h]
      exact ⟨ih.1, fun _ => ⟨fam, imp, hfam, himp⟩⟩

/-- C20, as stated, fails in its last part: the state reached by binding `sha/cl` is
reachable and bound, but the only kernel file of `cl` cannot be opened, so
`GetMiningAlgoImpInfo` throws out of `GetVersioningHash` instead of returning true, for every
amount of fuel that lets the step enumeration end. -/
theorem GetMiningAlgoImpInfo_throws_when_bound :
    Reachable missingKernelMiner.algoFamilies missingKernelMiner.hwProcessors
      (SetCurrentAlgo missingKernelMiner "sha" "cl").2 ∧
    (SetCurrentAlgo missingKernelMiner "sha" "cl").1 = .ok true ∧
    (SetCurrentAlgo missingKernelMiner "sha" "cl").2.currAlgo = "sha" ∧
    GetMiningAlgoImpInfo sampleSHA256 true sampleFiles 5
        (SetCurrentAlgo missingKernelMiner "sha" "cl").2 "" 0 =
      some (.error "File \"kernels/missing.cl\" cannot be opened for read.", "cl", 0) := by
  refine ⟨?_, rfl, rfl, rfl⟩
  exact Reachable.setCurrentAlgo _ "sha" "cl" Reachable.construct

/-- C20, amended. In every state reachable from construction through `SetCurrentAlgo` calls, if
`currAlgo` is non-empty then some family name equals `currAlgo` case-insensitively and the
first such family holds an implementation whose name equals `currImpl` case-insensitively;
`GetMiningAlgoImp` is defined and returns the first such implementation, `GetMiningAlgo` returns
the own name of that family, and `GetMiningAlgoImpInfo` never returns false: whenever
`GetVersioningHash` of that implementation returns `v` it returns true with the own name of
the implementation and `v`, and when `GetVersioningHash` throws, so does it. -/
theorem reachable_bound_invariant (algos : List AlgoFamily) (hw : MiningProcessorsProvider)
    (m : AbstractMiner) (hr : Reachable algos hw m) (hbound : m.currAlgo ≠ "") :
    ∃ k, ∃ hk : k < m.algoFamilies.length, ∃ imp,
      stricmpEq m.currAlgo (m.algoFamilies[k]).name = true ∧
      (∀ j, ∀ hj : j < k, stricmpEq m.currAlgo (m.algoFamilies[j]).name = false) ∧
      imp ∈ (m.algoFamilies[k]).implementations ∧
      stricmpEq m.currImpl imp.name = true ∧
      GetMiningAlgoImp m = some (some imp) ∧
      GetMiningAlgo m = some (m.algoFamilies[k]).name ∧
      (∀ SHA256 le fs fuel name ver v,
        GetVersioningHash SHA256 le fs fuel imp = some (.ok v) →
        GetMiningAlgoImpInfo SHA256 le fs fuel m name ver = some (.ok true, imp.name, v)) ∧
      (∀ SHA256 le fs fuel name ver e,
        GetVersioningHash SHA256 le fs fuel imp = some (.error e) →
        GetMiningAlgoImpInfo SHA256 le fs fuel m name ver = some (.error e, imp.name, ver)) ∧
      (∀ SHA256 le fs fuel name ver n2 v2,
        GetMiningAlgoImpInfo SHA256 le fs fuel m name ver ≠ some (.ok false, n2, v2)) := by
  obtain ⟨_, hinv⟩ := boundWell_of_reachable algos hw m hr
  obtain ⟨fam, imp, hfam, himp⟩ := hinv hbound
  obtain ⟨k, hk, hkfam, hkp, hkfirst⟩ := find?_some_index _ _ _ hfam
  have hlen : ¬ (m.currAlgo.length = 0) := fun h0 => hbound ((String_length_eq_zero _).mp h0)
  have himp2 : GetMiningAlgoImp m = some (some imp) := by
    simp only [GetMiningAlgoImp, hlen, if_false, hfam, himp]
  have hname : GetMiningAlgo m = some fam.name := by
    simp only [GetMiningAlgo, hlen, if_false, hfam]
  refine ⟨k, hk, imp, ?_, hkfirst, ?_, ?_, himp2, ?_, ?_, ?_, ?_⟩
  · rw [hkfam]; exact hkp
  · rw [hkfam]; exact List.mem_of_find?_eq_some himp
  · have := List.find?_some himp
    simpa only [AbstractAlgoImplementation.AreYou] using this
  · rw [hkfam]; exact hname
  · intro SHA256 le fs fuel name ver v hv
    simp only [GetMiningAlgoImpInfo, himp2, hv, AbstractAlgoImplementation.GetName]
  · intro SHA256 le fs fuel name ver e he
    simp only [GetMiningAlgoImpInfo, himp2, he, AbstractAlgoImplementation.GetName]
  · intro SHA256 le fs fuel name ver n2 v2
    simp only [GetMiningAlgoImpInfo, himp2]
    cases GetVersioningHash SHA256 le fs fuel imp with
    | none => simp
    | some r => cases r <;> simp

/-- C20, amended, run on the registry `Scrypt/Multi`, `sha/cl` after a refused call and the
call `SetCurrentAlgo("SCRYPT", "multi")`: `GetMiningAlgo` returns the canonical `"Scrypt"`. -/
theorem reachable_bound_invariant_witness :
    GetMiningAlgo
      (SetCurrentAlgo (SetCurrentAlgo twoFamilyMiner "x11" "cl").2 "SCRYPT" "multi").2 =
      some "Scrypt" := by
  obtain ⟨k, hk, imp, h1, h2, _, _, _, h6, _⟩ :=
    reachable_bound_invariant twoFamilyMiner.algoFamilies twoFamilyMiner.hwProcessors
      (SetCurrentAlgo (SetCurrentAlgo twoFamilyMiner "x11" "cl").2 "SCRYPT" "multi").2
      (Reachable.setCurrentAlgo _ "SCRYPT" "multi"
        (Reachable.setCurrentAlgo _ "x11" "cl" Reachable.construct))
      (by decide)
  have hlen : (SetCurrentAlgo (SetCurrentAlgo twoFamilyMiner "x11" "cl").2 "SCRYPT"
      "multi").2.algoFamilies.length = 2 := rfl
  have hk2 : k = 0 ∨ k = 1 := by omega
  rcases hk2 with rfl | rfl
  · rw [h6]; rfl
  · have h1b : stricmpEq "SCRYPT" "sha" = true := h1
    exact absurd h1b (by decide)

/-! ## Lock discipline -/

theorem disciplinedFrom_poll_passes (rest : List MutexEvent) :
    ∀ n, disciplinedFrom false false
        (repeatEvents n [.lockFromMiner, .unlockFromMiner] ++ rest) =
      disciplinedFrom false false rest := by
  intro n
  induction n with
  | zero => rfl
  | succ n ih => simpa [repeatEvents, disciplinedFrom] using ih

theorem disciplinedFrom_calls (method : String) :
    ∀ n, disciplinedFrom false false (repeatEvents n [.callImplementation method]) = true := by
  intro n
  induction n with
  | zero => rfl
  | succ n ih => simpa [repeatEvents, disciplinedFrom] using ih

/-- The checker is not vacuous: it rejects the opposite acquisition order and a call
into an implementation under a lock. -/
theorem disciplinedFrom_rejects :
    disciplinedFrom false false
      [.lockFromMiner, .lockToMiner, .unlockToMiner, .unlockFromMiner] = false ∧
    disciplinedFrom false false
      [.lockToMiner, .callImplementation "Clear", .unlockToMiner] = false ∧
    disciplinedFrom false false
      [.lockFromMiner, .callImplementation "GetDeviceUsedConfig", .unlockFromMiner] = false := by
  decide

/-- C18. Every coordinator operation keeps the lock discipline on every run: it never
acquires the inbox mutex `toMiner` while holding the outbox mutex `fromMiner`, so whenever
both are held the inbox mutex was acquired first, and it makes no call into an
algorithm implementation while holding either mutex. `UnexpectedlyTerminated` is the one
operation that holds both, inbox first. -/
theorem coordinator_lock_discipline (call : CoordinatorCall) :
    disciplinedFrom false false (mutexTrace call) = true ∧
    (holdsBothFrom false false (mutexTrace call) = true ↔ call = .UnexpectedlyTerminated) := by
  have hboth_poll : ∀ n, holdsBothFrom false false
      (repeatEvents n [.lockFromMiner, .unlockFromMiner]) = false := by
    intro n
    induction n with
    | zero => rfl
    | succ n ih => simpa [repeatEvents, holdsBothFrom] using ih
  have hboth_calls : ∀ (method : String) (n : Nat), holdsBothFrom false false
      (repeatEvents n [.callImplementation method]) = false := by
    intro method n
    induction n with
    | zero => rfl
    | succ n ih => simpa [repeatEvents, holdsBothFrom] using ih
  have hboth_poll_then : ∀ (rest : List MutexEvent) (n : Nat), holdsBothFrom false false
      (repeatEvents n [.lockFromMiner, .unlockFromMiner] ++ rest) =
        holdsBothFrom false false rest := by
    intro rest n
    induction n with
    | zero => rfl
    | succ n ih => simpa [repeatEvents, holdsBothFrom] using ih
  cases call with
  | destructor started polls families =>
    cases started
    · simp [mutexTrace, disciplinedFrom_calls, hboth_calls]
    · simp [mutexTrace, disciplinedFrom, holdsBothFrom, disciplinedFrom_poll_passes,
        disciplinedFrom_calls, hboth_poll_then, hboth_calls]
  | GetAlgos => simp [mutexTrace, disciplinedFrom, holdsBothFrom]
  | GetImplementations names => simp [mutexTrace, disciplinedFrom_calls, hboth_calls]
  | SetCurrentAlgo tests => simp [mutexTrace, disciplinedFrom_calls, hboth_calls]
  | GetMiningAlgo => simp [mutexTrace, disciplinedFrom, holdsBothFrom]
  | GetMiningAlgoImpInfo bound => cases bound <;> simp [mutexTrace, disciplinedFrom, holdsBothFrom]
  | AddSettings records => simp [mutexTrace, disciplinedFrom_calls, hboth_calls]
  | Start bound => cases bound <;> simp [mutexTrace, disciplinedFrom, holdsBothFrom]
  | Mangle => simp [mutexTrace, disciplinedFrom, holdsBothFrom]
  | GetCurrentPool => simp [mutexTrace, disciplinedFrom, holdsBothFrom]
  | SharesFound => simp [mutexTrace, disciplinedFrom, holdsBothFrom]
  | CheckNonces => simp [mutexTrace, disciplinedFrom, holdsBothFrom]
  | GetDeviceConfig reached => cases reached <;> simp [mutexTrace, disciplinedFrom, holdsBothFrom]
  | GetBadConfigReasons reached =>
    cases reached <;> simp [mutexTrace, disciplinedFrom, holdsBothFrom]
  | GetAI tests => simp [mutexTrace, disciplinedFrom_calls, hboth_calls]
  | UnexpectedlyTerminated => simp [mutexTrace, disciplinedFrom, holdsBothFrom]
  | Working => simp [mutexTrace, disciplinedFrom, holdsBothFrom]

/-! ## Command-line parameters: the scanning loops -/

theorem charAt_eq_zero_iff (line : List Nat) (hline : ∀ c ∈ line, c ≠ 0) (i : Nat) :
    charAt line i = 0 ↔ line.length ≤ i := by
  constructor
  · intro h
    by_contra hlt
    have hi : i < line.length := by omega
    have hmem := List.getElem_mem hi
    have hget : charAt line i = line.get ⟨i, hi⟩ := by
      simp [charAt, List.getD_eq_getElem?_getD, List.getElem?_eq_getElem hi]
    have hz : line.get ⟨i, hi⟩ = 0 := by rw [← hget]; exact h
    exact hline _ hmem (by simpa using hz)
  · intro h
    simp [charAt, List.getD_eq_getElem?_getD, List.getElem?_eq_none h]

theorem charAt_of_le (line : List Nat) (i : Nat) (h : line.length ≤ i) : charAt line i = 0 := by
  simp [charAt, List.getD_eq_getElem?_getD, List.getElem?_eq_none h]

theorem charAt_append_left (a b : List Nat) (i : Nat) (h : i < a.length) :
    charAt (a ++ b) i = charAt a i := by
  simp [charAt, List.getD_eq_getElem?_getD, List.getElem?_append_left h]

theorem charAt_append_right (a b : List Nat) (i : Nat) :
    charAt (a ++ b) (a.length + i) = charAt b i := by
  simp [charAt, List.getD_eq_getElem?_getD, List.getElem?_append_right]

theorem towlower_gt (a b : Nat) (h : towlower a = towlower b) (hb : 32 < b) : 32 < a := by
  unfold towlower at h
  split at h <;> split at h <;> omega

theorem dashesAt_iff (line : List Nat) (i : Nat) :
    dashesAt line i = true ↔ charAt line i = 45 ∧ charAt line (i + 1) = 45 := by
  simp [dashesAt]

theorem nameAt_iff (line : List Nat) :
    ∀ (name : List Nat) (i : Nat),
      nameAt line i name = true ↔
        ∀ k, k < name.length → towlower (charAt line (i + k)) = towlower (name.getD k 0) := by
  intro name
  induction name with
  | nil => intro i; simp [nameAt]
  | cons c rest ih =>
    intro i
    simp only [nameAt, Bool.and_eq_true, beq_iff_eq, ih, List.length_cons]
    constructor
    · rintro ⟨h0, hrest⟩ k hk
      cases k with
      | zero => simpa using h0
      | succ k =>
        have := hrest k (by omega)
        have hidx : i + (k + 1) = i + 1 + k := by omega
        rw [hidx]
        simpa using this
    · intro h
      refine ⟨by simpa using h 0 (by omega), ?_⟩
      intro k hk
      have := h (k + 1) (by omega)
      have hidx : i + (k + 1) = i + 1 + k := by omega
      rw [hidx] at this
      simpa using this

theorem skipWord_spec (line : List Nat) :
    ∀ (fuel loop : Nat), line.length - loop ≤ fuel →
      loop ≤ skipWord line fuel loop ∧ charAt line (skipWord line fuel loop) ≤ 32 ∧
      ∀ q, loop ≤ q → q < skipWord line fuel loop → 32 < charAt line q := by
  intro fuel
  induction fuel with
  | zero =>
    intro loop h
    have : charAt line loop = 0 := charAt_of_le line loop (by omega)
    simp [skipWord, this]
    intro q h1 h2; omega
  | succ fuel ih =>
    intro loop h
    by_cases hc : charAt line loop ≠ 0 ∧ charAt line loop > 32
    · have hlt : loop < line.length := by
        by_contra hge
        exact hc.1 (charAt_of_le line loop (by omega))
      obtain ⟨h1, h2, h3⟩ := ih (loop + 1) (by omega)
      have hs : skipWord line (fuel + 1) loop = skipWord line fuel (loop + 1) := by
        simp only [skipWord]; exact if_pos hc
      rw [hs]
      refine ⟨by omega, h2, ?_⟩
      intro q hq1 hq2
      by_cases hq : q = loop
      · rw [hq]; exact hc.2
      · exact h3 q (by omega) hq2
    · have hs : skipWord line (fuel + 1) loop = loop := by
        simp only [skipWord]; exact if_neg hc
      rw [hs]
      refine ⟨le_refl _, by omega, ?_⟩
      intro q h1 h2; omega

theorem skipBlanks_spec (line : List Nat) :
    ∀ (fuel loop : Nat), line.length - loop ≤ fuel →
      loop ≤ skipBlanks line fuel loop ∧
      (charAt line (skipBlanks line fuel loop) = 0 ∨ 32 < charAt line (skipBlanks line fuel loop)) ∧
      ∀ q, loop ≤ q → q < skipBlanks line fuel loop → charAt line q ≠ 0 ∧ charAt line q ≤ 32 := by
  intro fuel
  induction fuel with
  | zero =>
    intro loop h
    have : charAt line loop = 0 := charAt_of_le line loop (by omega)
    simp [skipBlanks, this]
    intro q h1 h2; omega
  | succ fuel ih =>
    intro loop h
    by_cases hc : charAt line loop ≠ 0 ∧ charAt line loop ≤ 32
    · have hlt : loop < line.length := by
        by_contra hge
        exact hc.1 (charAt_of_le line loop (by omega))
      obtain ⟨h1, h2, h3⟩ := ih (loop + 1) (by omega)
      have hs : skipBlanks line (fuel + 1) loop = skipBlanks line fuel (loop + 1) := by
        simp only [skipBlanks]; exact if_pos hc
      rw [hs]
      refine ⟨by omega, h2, ?_⟩
      intro q hq1 hq2
      by_cases hq : q = loop
      · rw [hq]; exact hc
      · exact h3 q (by omega) hq2
    · have hs : skipBlanks line (fuel + 1) loop = loop := by
        simp only [skipBlanks]; exact if_neg hc
      rw [hs]
      refine ⟨le_refl _, by omega, ?_⟩
      intro q h1 h2; omega

/-- The shared loop, started with a flag that tells whether the previous character is a
blank, stops at the first position from `index` on that follows a blank and holds
`--`, or else at the terminator. -/
theorem scanToDashes_spec (line : List Nat) (hline : ∀ c ∈ line, c ≠ 0) :
    ∀ (fuel index : Nat) (blank : Bool), line.length - index ≤ fuel → index ≤ line.length →
      (blank = true ↔ (0 < index ∧ charAt line (index - 1) ≤ 32)) →
      index ≤ (scanToDashes line fuel index blank).1 ∧
      (scanToDashes line fuel index blank).1 ≤ line.length ∧
      ((scanToDashes line fuel index blank).2 = true →
        (0 < (scanToDashes line fuel index blank).1 ∧
          charAt line ((scanToDashes line fuel index blank).1 - 1) ≤ 32) ∧
        dashesAt line (scanToDashes line fuel index blank).1 = true) ∧
      ((scanToDashes line fuel index blank).2 = false →
        (scanToDashes line fuel index blank).1 = line.length) ∧
      (∀ q, index ≤ q → q < (scanToDashes line fuel index blank).1 →
        ¬ ((0 < q ∧ charAt line (q - 1) ≤ 32) ∧ dashesAt line q = true)) := by
  intro fuel
  induction fuel with
  | zero =>
    intro index blank hf hle _
    simp only [scanToDashes]
    exact ⟨le_refl _, hle, fun h => by simp at h, fun _ => by omega, fun q h1 h2 => by omega⟩
  | succ fuel ih =>
    intro index blank hf hle hflag
    by_cases h0 : charAt line index = 0
    · have hlen : line.length ≤ index := (charAt_eq_zero_iff line hline index).mp h0
      simp only [scanToDashes, h0, if_true]
      exact ⟨le_refl _, hle, fun h => by simp at h, fun _ => by omega, fun q h1 h2 => by omega⟩
    · have hlt : index < line.length := by
        by_contra hge
        exact h0 (charAt_of_le line index (by omega))
      have hnodash_blank : charAt line index ≤ 32 → dashesAt line index = false := by
        intro hb
        cases hd : dashesAt line index with
        | false => rfl
        | true =>
          have := ((dashesAt_iff line index).mp hd).1
          omega
      by_cases hb : charAt line index ≤ 32
      · obtain ⟨h1, h2, h3, h4, h5⟩ := ih (index + 1) true (by omega) (by omega)
          (by simp; exact hb)
        have hs : scanToDashes line (fuel + 1) index blank =
            scanToDashes line fuel (index + 1) true := by
          rw [scanToDashes, if_neg h0, if_pos hb]
        rw [hs]
        refine ⟨by omega, h2, h3, h4, ?_⟩
        intro q hq1 hq2
        by_cases hq : q = index
        · rw [hq, hnodash_blank hb]; simp
        · exact h5 q (by omega) hq2
      · have hnext : (false = true ↔ (0 < index + 1 ∧ charAt line (index + 1 - 1) ≤ 32)) := by
          simp; omega
        obtain ⟨h1, h2, h3, h4, h5⟩ := ih (index + 1) false (by omega) (by omega) hnext
        by_cases hbl : blank = true
        · by_cases hd : dashesAt line index = true
          · have hs : scanToDashes line (fuel + 1) index blank = (index, true) := by
              rw [scanToDashes, if_neg h0, if_neg hb, if_pos hbl, if_pos hd]
            rw [hs]
            refine ⟨le_refl _, hle, fun _ => ⟨hflag.mp hbl, hd⟩, fun h => by simp at h, ?_⟩
            intro q h1 h2; omega
          · have hs : scanToDashes line (fuel + 1) index blank =
                scanToDashes line fuel (index + 1) false := by
              rw [scanToDashes, if_neg h0, if_neg hb, if_pos hbl, if_neg hd]
            rw [hs]
            refine ⟨by omega, h2, h3, h4, ?_⟩
            intro q hq1 hq2
            by_cases hq : q = index
            · rw [hq]; intro hcon; exact hd hcon.2
            · exact h5 q (by omega) hq2
        · have hbf : blank = false := by
            cases blank with
            | true => exact absurd rfl hbl
            | false => rfl
          have hs : scanToDashes line (fuel + 1) index blank =
              scanToDashes line fuel (index + 1) false := by
            rw [scanToDashes, if_neg h0, if_neg hb, if_neg hbl, hbf]
          rw [hs]
          refine ⟨by omega, h2, h3, h4, ?_⟩
          intro q hq1 hq2
          by_cases hq : q = index
          · rw [hq]; intro hcon
            exact hbl (hflag.mpr hcon.1)
          · exact h5 q (by omega) hq2

theorem lt_length_of_charAt_pos (line : List Nat) (i : Nat) (h : 0 < charAt line i) :
    i < line.length := by
  by_contra hge
  have := charAt_of_le line i (by omega)
  omega

theorem getD_mem_of_lt (name : List Nat) (k : Nat) (h : k < name.length) :
    name.getD k 0 ∈ name := by
  have : name.getD k 0 = name.get ⟨k, h⟩ := by
    simp [List.getD_eq_getElem?_getD, List.getElem?_eq_getElem h]
  rw [this]
  exact List.get_mem name k h

/-- The characters of an occurrence, `--` and the name, are no blanks. -/
theorem occursAt_word (line name : List Nat) (hname : ∀ c ∈ name, 32 < c) (p : Nat)
    (hd : charAt line p = 45 ∧ charAt line (p + 1) = 45)
    (hn : ∀ k, k < name.length → towlower (charAt line (p + 2 + k)) = towlower (name.getD k 0)) :
    ∀ q, p ≤ q → q < p + 2 + name.length → 32 < charAt line q := by
  intro q h1 h2
  by_cases hq0 : q = p
  · rw [hq0, hd.1]; omega
  · by_cases hq1 : q = p + 1
    · rw [hq1, hd.2]; omega
    · have hk : q = p + 2 + (q - (p + 2)) := by omega
      have hlt : q - (p + 2) < name.length := by omega
      rw [hk]
      exact towlower_gt _ _ (hn _ hlt) (hname _ (getD_mem_of_lt name _ hlt))

theorem skipWord_at_stop (line : List Nat) (i : Nat) (h : charAt line i ≤ 32) :
    skipWord line line.length i = i := by
  obtain ⟨h1, _, h3⟩ := skipWord_spec line line.length i (by omega)
  by_contra hne
  have := h3 i (le_refl _) (by omega)
  omega

/-- What `MatchParam` does at the first character of a word: it returns true exactly on
an occurrence of the parameter, with `index` right after the name; otherwise the
main loop of `ConsumeParam` resumes at a later blank or at the terminator, and no
occurrence starts in between. -/
theorem MatchParam_spec (line name : List Nat) (hline : ∀ c ∈ line, c ≠ 0)
    (hname : ∀ c ∈ name, 32 < c) (loop : Nat) (hnb : 32 < charAt line loop)
    (hstart : loop = 0 ∨ (0 < loop ∧ charAt line (loop - 1) ≤ 32)) :
    ((MatchParam line loop name).1 = true →
      occursAt line name loop ∧ (MatchParam line loop name).2 = loop + 2 + name.length) ∧
    ((MatchParam line loop name).1 = false →
      loop < skipWord line line.length (MatchParam line loop name).2 - 1 + 1 ∧
      skipWord line line.length (MatchParam line loop name).2 - 1 + 1 ≤ line.length ∧
      charAt line (skipWord line line.length (MatchParam line loop name).2 - 1 + 1) ≤ 32 ∧
      ∀ p, loop ≤ p → p < skipWord line line.length (MatchParam line loop name).2 - 1 + 1 →
        ¬ occursAt line name p) := by
  have hlen : loop < line.length := lt_length_of_charAt_pos line loop (by omega)
  by_cases hd : dashesAt line loop = true
  · have hd2 := (dashesAt_iff line loop).mp hd
    by_cases hhit : nameAt line (loop + 2) name = true ∧
        (charAt line (loop + 2 + name.length) ≤ 32 ∨ charAt line (loop + 2 + name.length) = 61)
    · have hm : MatchParam line loop name = (true, loop + 2 + name.length) := by
        simp [MatchParam, hd, hhit.1, hhit.2]
      rw [hm]
      refine ⟨fun _ => ⟨⟨hstart, hd2.1, hd2.2, (nameAt_iff line name (loop + 2)).mp hhit.1,
        hhit.2⟩, rfl⟩, fun h => by simp at h⟩
    · -- the name does not match in full: the shared loop looks for the next parameter
      obtain ⟨s, hs, hm⟩ : ∃ s, (s = loop + 2 ∨
            (s = loop + 2 + name.length ∧ nameAt line (loop + 2) name = true)) ∧
          MatchParam line loop name =
            (false, if (scanToDashes line line.length s false).2 = true
              then (scanToDashes line line.length s false).1 - 1
              else (scanToDashes line line.length s false).1) := by
        by_cases hn : nameAt line (loop + 2) name = true
        · refine ⟨loop + 2 + name.length, Or.inr ⟨rfl, hn⟩, ?_⟩
          have hf : ¬ (charAt line (loop + 2 + name.length) ≤ 32 ∨
              charAt line (loop + 2 + name.length) = 61) := fun h => hhit ⟨hn, h⟩
          simp only [MatchParam, hd, hn, if_true, true_and, hf, if_false]
          simp
        · refine ⟨loop + 2, Or.inl rfl, ?_⟩
          simp only [MatchParam, hd, hn, if_false, false_and]
          simp
      have hnotocc : ¬ occursAt line name loop := by
        intro hocc
        exact hhit ⟨(nameAt_iff line name (loop + 2)).mpr hocc.2.2.2.1, hocc.2.2.2.2⟩
      have hword : ∀ q, loop ≤ q → q < s → 32 < charAt line q := by
        intro q h1 h2
        rcases hs with hs | ⟨hs, hn⟩
        · have : q = loop ∨ q = loop + 1 := by omega
          rcases this with rfl | rfl
          · rw [hd2.1]; omega
          · rw [hd2.2]; omega
        · exact occursAt_word line name hname loop hd2
            ((nameAt_iff line name (loop + 2)).mp hn) q h1 (by omega)
      have hs2 : loop + 2 ≤ s := by rcases hs with hs | ⟨hs, _⟩ <;> omega
      have hprev : 32 < charAt line (s - 1) := hword (s - 1) (by omega) (by omega)
      have hsle : s ≤ line.length := by
        have := lt_length_of_charAt_pos line (s - 1) (by omega)
        omega
      obtain ⟨h1, h2, h3, h4, h5⟩ := scanToDashes_spec line hline line.length s false (by omega)
        hsle (by simp; omega)
      -- the index where the main loop resumes
      obtain ⟨idx, hidx, hge, hle, hblank, hnone⟩ : ∃ idx,
          (if (scanToDashes line line.length s false).2 = true
            then (scanToDashes line line.length s false).1 - 1
            else (scanToDashes line line.length s false).1) = idx ∧
          s ≤ idx ∧ idx ≤ line.length ∧ charAt line idx ≤ 32 ∧
          ∀ q, s ≤ q → q < idx → ¬ ((0 < q ∧ charAt line (q - 1) ≤ 32) ∧ dashesAt line q = true) := by
        by_cases hbrk : (scanToDashes line line.length s false).2 = true
        · obtain ⟨hb1, _⟩ := h3 hbrk
          have hne : (scanToDashes line line.length s false).1 ≠ s := by
            intro heq
            rw [heq] at hb1
            omega
          refine ⟨_, rfl, ?_, ?_, ?_, ?_⟩
          · rw [if_pos hbrk]; omega
          · rw [if_pos hbrk]; omega
          · rw [if_pos hbrk]; exact hb1.2
          · rw [if_pos hbrk]
            intro q hq1 hq2
            exact h5 q hq1 (by omega)
        · have hend := h4 (by simpa using hbrk)
          refine ⟨_, rfl, ?_, ?_, ?_, ?_⟩
          · rw [if_neg hbrk]; exact h1
          · rw [if_neg hbrk]; exact h2
          · rw [if_neg hbrk, hend, charAt_of_le line _ (le_refl _)]; omega
          · rw [if_neg hbrk]
            intro q hq1 hq2
            exact h5 q hq1 hq2
      rw [hm]
      simp only [hidx]
      rw [skipWord_at_stop line idx hblank]
      have hidx1 : idx - 1 + 1 = idx := by omega
      rw [hidx1]
      refine ⟨fun h => by simp at h, fun _ => ⟨by omega, hle, hblank, ?_⟩⟩
      intro p hp1 hp2 hocc
      by_cases hp : p = loop
      · rw [hp] at hocc; exact hnotocc hocc
      · by_cases hps : p ≤ s
        · have hprevp : 32 < charAt line (p - 1) := hword (p - 1) (by omega) (by omega)
          rcases hocc.1 with h0 | ⟨_, hb⟩
          · omega
          · omega
        · have hpos : 0 < p ∧ charAt line (p - 1) ≤ 32 := by
            rcases hocc.1 with h0 | hb
            · omega
            · exact hb
          exact hnone p (by omega) hp2
            ⟨hpos, (dashesAt_iff line p).mpr ⟨hocc.2.1, hocc.2.2.1⟩⟩
  · have hdf : dashesAt line loop = false := by
      cases h : dashesAt line loop with
      | true => exact absurd h hd
      | false => rfl
    have hm : MatchParam line loop name = (false, loop) := by
      simp [MatchParam, hdf]
    obtain ⟨h1, h2, h3⟩ := skipWord_spec line line.length loop (by omega)
    have hne : skipWord line line.length loop ≠ loop := by
      intro heq
      rw [heq] at h2
      omega
    have hle : skipWord line line.length loop ≤ line.length := by
      by_contra hgt
      have := h3 line.length (by omega) (by omega)
      rw [charAt_of_le line _ (le_refl _)] at this
      omega
    rw [hm]
    have hidx1 : skipWord line line.length loop - 1 + 1 = skipWord line line.length loop := by
      omega
    simp only [hidx1]
    refine ⟨fun h => by simp at h, fun _ => ⟨by omega, hle, h2, ?_⟩⟩
    intro p hp1 hp2 hocc
    by_cases hp : p = loop
    · rw [hp] at hocc
      exact hd ((dashesAt_iff line loop).mpr ⟨hocc.2.1, hocc.2.2.1⟩)
    · have := h3 (p - 1) (by omega) (by omega)
      rcases hocc.1 with h0 | ⟨_, hb⟩
      · omega
      · omega

/-- The first loop of `ConsumeParam` finds the first occurrence of the parameter, if there
is one, and leaves `loop` right after the name; it runs to the terminator exactly
when there is no occurrence. -/
theorem findParam_spec (line name : List Nat) (hline : ∀ c ∈ line, c ≠ 0)
    (hname : ∀ c ∈ name, 32 < c) :
    ∀ (fuel loop : Nat), line.length - loop < fuel → loop ≤ line.length →
      (loop = 0 ∨ charAt line (loop - 1) ≤ 32 ∨ charAt line loop ≤ 32) →
      (∀ p, p < loop → ¬ occursAt line name p) →
      (findParam line name fuel loop = none ∧ ∀ p, ¬ occursAt line name p) ∨
      (∃ b, findParam line name fuel loop = some (b, b + 2 + name.length) ∧
        occursAt line name b ∧ ∀ p, p < b → ¬ occursAt line name p) := by
  intro fuel
  induction fuel with
  | zero => intro loop h; omega
  | succ fuel ih =>
    intro loop hf hle hbound hbefore
    by_cases h0 : charAt line loop = 0
    · left
      have hlen : line.length ≤ loop := (charAt_eq_zero_iff line hline loop).mp h0
      refine ⟨by rw [findParam, if_pos h0], ?_⟩
      intro p hocc
      by_cases hp : p < loop
      · exact hbefore p hp hocc
      · have := charAt_of_le line p (by omega)
        have := hocc.2.1
        omega
    · have hlt : loop < line.length := lt_length_of_charAt_pos line loop (by omega)
      by_cases hb : charAt line loop ≤ 32
      · have hs : findParam line name (fuel + 1) loop = findParam line name fuel (loop + 1) := by
          rw [findParam, if_neg h0, if_pos hb]
        rw [hs]
        apply ih (loop + 1) (by omega) (by omega) (Or.inr (Or.inl (by simpa using hb)))
        intro p hp hocc
        by_cases hpl : p = loop
        · rw [hpl] at hocc
          have := hocc.2.1
          omega
        · exact hbefore p (by omega) hocc
      · have hstart : loop = 0 ∨ (0 < loop ∧ charAt line (loop - 1) ≤ 32) := by
          rcases hbound with h | h | h
          · exact Or.inl h
          · by_cases hz : loop = 0
            · exact Or.inl hz
            · exact Or.inr ⟨by omega, h⟩
          · exact absurd h hb
        obtain ⟨hyes, hno⟩ := MatchParam_spec line name hline hname loop (by omega) hstart
        by_cases hm : (MatchParam line loop name).1 = true
        · right
          obtain ⟨hocc, hidx⟩ := hyes hm
          refine ⟨loop, ?_, hocc, hbefore⟩
          rw [findParam, if_neg h0, if_neg hb]
          simp only [hm, if_true, hidx]
        · have hmf : (MatchParam line loop name).1 = false := by
            cases h : (MatchParam line loop name).1 with
            | true => exact absurd h hm
            | false => rfl
          obtain ⟨h1, h2, h3, h4⟩ := hno hmf
          have hs : findParam line name (fuel + 1) loop =
              findParam line name fuel
                (skipWord line line.length (MatchParam line loop name).2 - 1 + 1) := by
            rw [findParam, if_neg h0, if_neg hb]
            simp [hmf]
          rw [hs]
          apply ih _ (by omega) h2 (Or.inr (Or.inr h3))
          intro p hp hocc
          by_cases hpl : p < loop
          · exact hbefore p hpl hocc
          · exact h4 p (by omega) hp hocc

/-! ## Command-line parameters: `ConsumeParam` -/

theorem ConsumeParam_of_none (sp : StartParams) (value name : List Nat)
    (h : findParam sp.parameters name (sp.parameters.length + 1) 0 = none) :
    ConsumeParam sp value name = (false, value, sp) := by
  simp only [ConsumeParam, h]

theorem ConsumeParam_fst_of_some (sp : StartParams) (value name : List Nat) (b l : Nat)
    (h : findParam sp.parameters name (sp.parameters.length + 1) 0 = some (b, l)) :
    (ConsumeParam sp value name).1 = true := by
  simp only [ConsumeParam, h]

/-- C21. For a command line and a name without blanks, `ConsumeParam(value, name)` returns true
exactly when the line holds, at index 0 or right after a blank (code at most 32), the
text `--` followed by the name compared case-insensitively and then a blank, `=` or the
end of the line; when it returns false the command line and `value` are unchanged. -/
theorem ConsumeParam_match_iff (sp : StartParams) (value name : List Nat)
    (hline : ∀ c ∈ sp.parameters, c ≠ 0) (hname : ∀ c ∈ name, 32 < c) :
    ((ConsumeParam sp value name).1 = true ↔ ∃ p, occursAt sp.parameters name p) ∧
    ((ConsumeParam sp value name).1 = false →
      (ConsumeParam sp value name).2.1 = value ∧ (ConsumeParam sp value name).2.2 = sp) := by
  rcases findParam_spec sp.parameters name hline hname (sp.parameters.length + 1) 0 (by omega)
    (Nat.zero_le _) (Or.inl rfl) (fun p hp => absurd hp (Nat.not_lt_zero p)) with
    ⟨hnone, hno⟩ | ⟨b, hsome, hocc, _⟩
  · rw [ConsumeParam_of_none sp value name hnone]
    refine ⟨⟨fun h => by simp at h, fun ⟨p, hp⟩ => absurd hp (hno p)⟩, fun _ => ⟨rfl, rfl⟩⟩
  · have htrue := ConsumeParam_fst_of_some sp value name _ _ hsome
    refine ⟨⟨fun _ => ⟨b, hocc⟩, fun _ => htrue⟩, ?_⟩
    intro hfalse
    rw [htrue] at hfalse
    exact absurd hfalse (by decide)

/-- C21, run on three lines with the name `algo`: `--ALGO=x` after another parameter matches,
`--algorithm` does not, and the refused call leaves line and value as they were. -/
theorem ConsumeParam_match_iff_witness :
    (ConsumeParam ⟨wstr "--a 1 --ALGO=x"⟩ [7] (wstr "algo")).1 = true ∧
    (ConsumeParam ⟨wstr "--algorithm"⟩ [7] (wstr "algo")).1 = false ∧
    (ConsumeParam ⟨wstr "--algorithm"⟩ [7] (wstr "algo")).2.1 = [7] ∧
    (ConsumeParam ⟨wstr "--algorithm"⟩ [7] (wstr "algo")).2.2 = ⟨wstr "--algorithm"⟩ := by
  have h1 := ConsumeParam_match_iff ⟨wstr "--a 1 --ALGO=x"⟩ [7] (wstr "algo")
    (by decide) (by decide)
  have h2 := ConsumeParam_match_iff ⟨wstr "--algorithm"⟩ [7] (wstr "algo")
    (by decide) (by decide)
  have hocc : occursAt (wstr "--a 1 --ALGO=x") (wstr "algo") 6 := by
    unfold occursAt
    decide
  have hfalse : (ConsumeParam ⟨wstr "--algorithm"⟩ [7] (wstr "algo")).1 = false := by decide
  exact ⟨h1.1.mpr ⟨6, hocc⟩, hfalse, (h2.2 hfalse).1, (h2.2 hfalse).2⟩

/-- C24, at the failing input: on the line ` --name` (one leading blank) `ConsumeParam(value, "name")`
returns true and leaves the one-character line ` ` behind, because its trailing loop
`while(dst && ...)` never clears index 0; `FullyConsumed()` is false and `GetRemLine()` is not
empty. Several leading blanks, or a value, end the same way. Without a leading blank
the forms `--name`, `--name=V` and `--name V`, also followed by blanks, leave the empty line. -/
theorem ConsumeParam_leading_blank_left_over :
    ConsumeParam ⟨wstr " --name"⟩ [] (wstr "name") = (true, [], ⟨wstr " "⟩) ∧
    FullyConsumed (ConsumeParam ⟨wstr " --name"⟩ [] (wstr "name")).2.2 = false ∧
    GetRemLine (ConsumeParam ⟨wstr " --name"⟩ [] (wstr "name")).2.2 = wstr " " ∧
    (ConsumeParam ⟨wstr "   --name=V  "⟩ [] (wstr "name")).2.2 = ⟨wstr " "⟩ ∧
    (ConsumeParam ⟨wstr "  --name V"⟩ [] (wstr "name")).2.2 = ⟨wstr " "⟩ ∧
    FullyConsumed (ConsumeParam ⟨wstr "--name"⟩ [] (wstr "name")).2.2 = true ∧
    FullyConsumed (ConsumeParam ⟨wstr "--name  "⟩ [] (wstr "name")).2.2 = true ∧
    FullyConsumed (ConsumeParam ⟨wstr "--name=V "⟩ [] (wstr "name")).2.2 = true ∧
    FullyConsumed (ConsumeParam ⟨wstr "--name V  "⟩ [] (wstr "name")).2.2 = true := by
  decide

/-! ## Command-line parameters: a parameter at a known place -/

theorem charAt_cons_succ (a : Nat) (l : List Nat) (i : Nat) :
    charAt (a :: l) (i + 1) = charAt l i := by
  simp [charAt]

theorem charAt_cons_zero (a : Nat) (l : List Nat) : charAt (a :: l) 0 = a := by
  simp [charAt]

theorem charAt_getD (l : List Nat) (i : Nat) : charAt l i = l.getD i 0 := rfl

/-- The characters of a line of the form `P ++ "--" ++ name ++ rest`. -/
theorem charAt_param (P name rest : List Nat) :
    charAt (P ++ 45 :: 45 :: (name ++ rest)) P.length = 45 ∧
    charAt (P ++ 45 :: 45 :: (name ++ rest)) (P.length + 1) = 45 ∧
    (∀ k, k < name.length →
      charAt (P ++ 45 :: 45 :: (name ++ rest)) (P.length + 2 + k) = name.getD k 0) ∧
    (∀ i, charAt (P ++ 45 :: 45 :: (name ++ rest)) (P.length + 2 + name.length + i) =
      charAt rest i) := by
  refine ⟨?_, ?_, ?_, ?_⟩
  · have := charAt_append_right P (45 :: 45 :: (name ++ rest)) 0
    simpa [charAt_cons_zero] using this
  · rw [charAt_append_right, charAt_cons_succ, charAt_cons_zero]
  · intro k hk
    have h1 : P.length + 2 + k = P.length + (k + 1 + 1) := by omega
    rw [h1, charAt_append_right, charAt_cons_succ, charAt_cons_succ,
      charAt_append_left name rest k hk]
    rfl
  · intro i
    have h1 : P.length + 2 + name.length + i = P.length + (name.length + i + 1 + 1) := by omega
    rw [h1, charAt_append_right, charAt_cons_succ, charAt_cons_succ, charAt_append_right]

/-- An occurrence that starts inside a prefix ending with a blank lies inside it. -/
theorem occursAt_of_append (P0 X name : List Nat) (b : Nat) (hb : b ≤ 32)
    (hname : ∀ c ∈ name, 32 < c) (p : Nat) (hp : p < (P0 ++ [b]).length)
    (h : occursAt (P0 ++ [b] ++ X) name p) : occursAt (P0 ++ [b]) name p := by
  have hblank : charAt (P0 ++ [b] ++ X) P0.length = b := by
    have := charAt_append_right P0 ([b] ++ X) 0
    rw [List.append_assoc]
    simpa [charAt_cons_zero] using this
  have hword := occursAt_word (P0 ++ [b] ++ X) name hname p ⟨h.2.1, h.2.2.1⟩ h.2.2.2.1
  have hlen : (P0 ++ [b]).length = P0.length + 1 := by simp
  have hend : p + 2 + name.length ≤ P0.length := by
    by_contra hgt
    have := hword P0.length (by omega) (by omega)
    omega
  have hin : ∀ i, i ≤ P0.length → charAt (P0 ++ [b] ++ X) i = charAt (P0 ++ [b]) i :=
    fun i hi => charAt_append_left (P0 ++ [b]) X i (by omega)
  obtain ⟨h1, h2, h3, h4, h5⟩ := h
  refine ⟨?_, ?_, ?_, ?_, ?_⟩
  · rcases h1 with h1 | ⟨h1, h1b⟩
    · exact Or.inl h1
    · exact Or.inr ⟨h1, by rw [← hin _ (by omega)]; exact h1b⟩
  · rw [← hin _ (by omega)]; exact h2
  · rw [← hin _ (by omega)]; exact h3
  · intro k hk
    rw [← hin _ (by omega)]; exact h4 k hk
  · rw [← hin _ (by omega)]; exact h5

/-- On a line `P ++ "--" ++ name ++ rest`, where `P` is empty or ends with a blank and holds no
occurrence of the parameter and `rest` is empty or starts with a blank or `=`, the first
loop of `ConsumeParam` stops with `begin` at the `--` and `loop` right after the name. -/
theorem findParam_at (P name rest : List Nat)
    (hline : ∀ c ∈ P ++ 45 :: 45 :: (name ++ rest), c ≠ 0) (hname : ∀ c ∈ name, 32 < c)
    (hP : P = [] ∨ ∃ P0 b, P = P0 ++ [b] ∧ b ≤ 32)
    (hnone : ∀ p, ¬ occursAt P name p)
    (hfollow : charAt rest 0 ≤ 32 ∨ charAt rest 0 = 61) :
    findParam (P ++ 45 :: 45 :: (name ++ rest)) name
      ((P ++ 45 :: 45 :: (name ++ rest)).length + 1) 0 =
      some (P.length, P.length + 2 + name.length) := by
  obtain ⟨c0, c1, cn, cr⟩ := charAt_param P name rest
  have hhere : occursAt (P ++ 45 :: 45 :: (name ++ rest)) name P.length := by
    refine ⟨?_, c0, c1, ?_, ?_⟩
    · rcases hP with hP | ⟨P0, b, hP, hb⟩
      · left; rw [hP]; rfl
      · right
        subst hP
        refine ⟨by simp, ?_⟩
        have h1 : (P0 ++ [b]).length - 1 = P0.length := by simp
        rw [h1, List.append_assoc, ← Nat.add_zero P0.length, charAt_append_right]
        simpa [charAt_cons_zero] using hb
    · intro k hk
      rw [cn k hk]
    · have := cr 0
      rw [Nat.add_zero] at this
      rw [this]; exact hfollow
  have hbefore : ∀ p, p < P.length → ¬ occursAt (P ++ 45 :: 45 :: (name ++ rest)) name p := by
    intro p hp hocc
    rcases hP with hP | ⟨P0, b, hP, hb⟩
    · rw [hP] at hp; simp at hp
    · subst hP
      exact hnone p (occursAt_of_append P0 _ name b hb hname p hp hocc)
  rcases findParam_spec _ name hline hname
    ((P ++ 45 :: 45 :: (name ++ rest)).length + 1) 0 (by omega) (Nat.zero_le _) (Or.inl rfl)
    (fun p hp => absurd hp (Nat.not_lt_zero p)) with ⟨_, hno⟩ | ⟨b, hsome, hocc, hfirst⟩
  · exact absurd hhere (hno _)
  · have hb : b = P.length := by
      rcases Nat.lt_trichotomy b P.length with h | h | h
      · exact absurd hocc (hbefore b h)
      · exact h
      · exact absurd hhere (hfirst _ h)
    rw [hsome, hb]

/-! ## Command-line parameters: the value of a parameter -/

/-- The characters of a line of the form `A ++ V ++ W ++ T`. -/
theorem charAt_parts (A V W T : List Nat) :
    (∀ i, i < V.length → charAt (A ++ (V ++ (W ++ T))) (A.length + i) = charAt V i) ∧
    (∀ k, k < W.length →
      charAt (A ++ (V ++ (W ++ T))) (A.length + V.length + k) = charAt W k) ∧
    (∀ m, charAt (A ++ (V ++ (W ++ T))) (A.length + V.length + W.length + m) = charAt T m) := by
  refine ⟨?_, ?_, ?_⟩
  · intro i hi
    rw [charAt_append_right, charAt_append_left V _ i hi]
  · intro k hk
    rw [Nat.add_assoc, charAt_append_right, charAt_append_right, charAt_append_left W _ k hk]
  · intro m
    rw [Nat.add_assoc, Nat.add_assoc, charAt_append_right, charAt_append_right,
      charAt_append_right]

theorem charAt_le_of_mem (W : List Nat) (hW : ∀ c ∈ W, c ≤ 32) (k : Nat) : charAt W k ≤ 32 := by
  by_cases hk : k < W.length
  · exact hW _ (getD_mem_of_lt W k hk)
  · rw [charAt_of_le W k (by omega)]; omega

/-- The value loop of `ConsumeParam` on a line `A ++ V ++ W ++ T`, entered at the start of `V` with
a flag that tells whether `A` ends with a blank: when `V` holds no `--` right after a blank
(nor at its start, if the flag is set), `W` is blanks and `T` is empty or a `--` after a
blank, the loop stops at the start of `T`. -/
theorem valueScan_spec (A V W T : List Nat) (blank : Bool)
    (hline : ∀ c ∈ A ++ (V ++ (W ++ T)), c ≠ 0)
    (hflag : blank = true ↔
      (0 < A.length ∧ charAt (A ++ (V ++ (W ++ T))) (A.length - 1) ≤ 32))
    (hV0 : blank = true → ¬ (charAt V 0 = 45 ∧ charAt V 1 = 45))
    (hinner : ∀ i, i < V.length → charAt V i ≤ 32 →
      ¬ (charAt V (i + 1) = 45 ∧ charAt V (i + 2) = 45))
    (hW : ∀ c ∈ W, c ≤ 32)
    (hT : T = [] ∨ (W ≠ [] ∧ charAt T 0 = 45 ∧ charAt T 1 = 45)) :
    (scanToDashes (A ++ (V ++ (W ++ T))) (A ++ (V ++ (W ++ T))).length A.length blank).1 =
      A.length + V.length + W.length := by
  obtain ⟨cV, cW, cT⟩ := charAt_parts A V W T
  have hlen : (A ++ (V ++ (W ++ T))).length = A.length + V.length + W.length + T.length := by
    simp; omega
  obtain ⟨h1, h2, h3, h4, h5⟩ := scanToDashes_spec _ hline
    (A ++ (V ++ (W ++ T))).length A.length blank (by omega) (by omega) hflag
  generalize hr : scanToDashes (A ++ (V ++ (W ++ T))) (A ++ (V ++ (W ++ T))).length
    A.length blank = r at h1 h2 h3 h4 h5
  -- the next character after position `A.length + j` of `V` is no `-` unless it is in `V`
  have hdash : ∀ j, j < V.length →
      dashesAt (A ++ (V ++ (W ++ T))) (A.length + j) = true →
      j + 1 < V.length ∧ charAt V j = 45 ∧ charAt V (j + 1) = 45 := by
    intro j hj hd
    obtain ⟨d1, d2⟩ := (dashesAt_iff _ _).mp hd
    rw [cV j hj] at d1
    by_cases hj1 : j + 1 < V.length
    · rw [Nat.add_assoc, cV (j + 1) hj1] at d2
      exact ⟨hj1, d1, d2⟩
    · have hjl : j + 1 = V.length := by omega
      rw [Nat.add_assoc, hjl] at d2
      by_cases hWn : 0 < W.length
      · have := cW 0 hWn
        rw [Nat.add_zero] at this
        rw [this] at d2
        have := charAt_le_of_mem W hW 0
        omega
      · have hWnil : W = [] := List.length_eq_zero.mp (by omega)
        have hTnil : T = [] := by
          rcases hT with hT | ⟨hT, _⟩
          · exact hT
          · exact absurd hWnil hT
        have := cT 0
        rw [hWnil, hTnil] at this
        simp only [List.length_nil, Nat.add_zero] at this
        rw [hWnil, hTnil] at d2
        rw [this] at d2
        simp [charAt] at d2
  have hupper : r.1 ≤ A.length + V.length + W.length := by
    rcases hT with hT | ⟨hWne, t0, t1⟩
    · rw [hT] at hlen
      simp only [List.length_nil, Nat.add_zero] at hlen
      rw [hT] at h2
      omega
    · by_contra hgt
      have hWpos : 0 < W.length := List.length_pos.mpr hWne
      apply h5 (A.length + V.length + W.length) (by omega) (by omega)
      refine ⟨⟨by omega, ?_⟩, (dashesAt_iff _ _).mpr ⟨?_, ?_⟩⟩
      · have h := cW (W.length - 1) (by omega)
        have hidx : A.length + V.length + (W.length - 1) =
            A.length + V.length + W.length - 1 := by omega
        rw [hidx] at h
        rw [h]
        exact charAt_le_of_mem W hW _
      · have := cT 0
        rw [Nat.add_zero] at this
        rw [this]; exact t0
      · rw [cT 1]; exact t1
  have hlower : A.length + V.length + W.length ≤ r.1 := by
    by_contra hlt
    have hbrk : r.2 = true := by
      cases hb : r.2 with
      | true => rfl
      | false =>
        have := h4 hb
        omega
    obtain ⟨⟨hpos, hprev⟩, hd⟩ := h3 hbrk
    obtain ⟨j, hj⟩ := Nat.exists_eq_add_of_le h1
    rw [hj] at hd hprev hpos
    by_cases hjV : j < V.length
    · obtain ⟨hj1, d1, d2⟩ := hdash j hjV hd
      cases j with
      | zero =>
        have hb : blank = true := hflag.mpr ⟨by omega, by simpa using hprev⟩
        exact hV0 hb ⟨d1, d2⟩
      | succ j =>
        have hidx : A.length + (j + 1) - 1 = A.length + j := by omega
        rw [hidx, cV j (by omega)] at hprev
        exact hinner j (by omega) hprev ⟨d1, d2⟩
    · have hk : j - V.length < W.length := by omega
      have := cW (j - V.length) hk
      have hidx : A.length + V.length + (j - V.length) = A.length + j := by omega
      rw [hidx] at this
      have hd1 := ((dashesAt_iff _ _).mp hd).1
      rw [this] at hd1
      have := charAt_le_of_mem W hW (j - V.length)
      omega
  omega

theorem set_at_length (X Y : List Nat) (b a : Nat) :
    (X ++ b :: Y).set X.length a = X ++ a :: Y := by
  induction X with
  | nil => rfl
  | cons x X ih => simp [ih]

theorem getD_at_length (X Y : List Nat) (b : Nat) : (X ++ b :: Y).getD X.length 0 = b := by
  have := charAt_append_right X (b :: Y) 0
  simpa [charAt] using this

/-- The trailing loop over `value`: after a character that is no blank, the blanks and the
terminator that follow all become NUL. -/
theorem clearFrom_blanks (V0 : List Nat) (v : Nat) (hv : 32 < v) :
    ∀ (W : List Nat) (k : Nat), (∀ c ∈ W, c ≤ 32) →
      clearFrom (V0 ++ v :: (W ++ List.replicate k 0)) (V0.length + W.length) =
        V0 ++ v :: List.replicate (W.length + k) 0 := by
  intro W
  induction W using List.reverseRecOn with
  | nil =>
    intro k _
    simp only [List.nil_append, List.length_nil, Nat.add_zero, Nat.zero_add]
    cases hV : V0.length with
    | zero => rfl
    | succ m =>
      have hg : (V0 ++ v :: List.replicate k 0).getD (m + 1) 0 = v := by
        rw [← hV]; exact getD_at_length V0 _ v
      rw [clearFrom, hg, if_neg (by omega)]
  | append_singleton W b ih =>
    intro k hW
    have hb : b ≤ 32 := hW b (by simp)
    have hW2 : ∀ c ∈ W, c ≤ 32 := fun c hc => hW c (by simp [hc])
    have hshape : V0 ++ v :: (W ++ [b] ++ List.replicate k 0) =
        (V0 ++ v :: W) ++ b :: List.replicate k 0 := by simp
    have hidx : V0.length + (W ++ [b]).length = (V0 ++ v :: W).length := by
      simp only [List.length_append, List.length_cons, List.length_nil]
    have hidx2 : (V0 ++ v :: W).length = (V0.length + W.length) + 1 := by
      simp only [List.length_append, List.length_cons]
      omega
    rw [hshape, hidx]
    have hg := getD_at_length (V0 ++ v :: W) (List.replicate k 0) b
    have hset := set_at_length (V0 ++ v :: W) (List.replicate k 0) b 0
    rw [hidx2] at hg hset ⊢
    rw [clearFrom, hg, if_pos hb, hset]
    have hshape2 : (V0 ++ v :: W) ++ 0 :: List.replicate k 0 =
        V0 ++ v :: (W ++ List.replicate (k + 1) 0) := by
      simp [List.replicate_succ]
    rw [hshape2, ih (k + 1) hW2]
    simp
    omega

theorem clearFrom_spec (V W : List Nat) (hV : V ≠ []) (hlast : 32 < charAt V (V.length - 1))
    (hW : ∀ c ∈ W, c ≤ 32) :
    clearFrom (V ++ W ++ [0]) (V.length + W.length) = V ++ List.replicate (W.length + 1) 0 := by
  obtain ⟨V0, v, rfl⟩ : ∃ V0 v, V = V0 ++ [v] := by
    rcases List.eq_nil_or_concat V with h | ⟨V0, v, h⟩
    · exact absurd h hV
    · exact ⟨V0, v, by simpa using h⟩
  have hv : 32 < v := by
    have h1 : (V0 ++ [v]).length - 1 = V0.length := by simp
    rw [h1] at hlast
    have := getD_at_length V0 [] v
    rw [charAt_getD, this] at hlast
    exact hlast
  have h := clearFrom_blanks V0 v hv (W ++ [0]) 0
    (by
      intro c hc
      rcases List.mem_append.mp hc with h | h
      · exact hW c h
      · simp at h; omega)
  simp only [List.replicate_zero, List.append_nil, List.length_append, List.length_singleton,
    Nat.add_zero] at h
  have hshape : V0 ++ [v] ++ W ++ [0] = V0 ++ v :: (W ++ [0]) := by simp
  have hidx : (V0 ++ [v]).length + W.length = V0.length + (W.length + 1) := by simp; omega
  rw [hshape, hidx, h]
  simp

/-- The trailing loop over the command line leaves a line that ends with a character
that is no blank as it is. -/
theorem trimFrom_spec (X : List Nat) (hX : X ≠ []) (hlast : 32 < charAt X (X.length - 1)) :
    trimFrom X X.length = X := by
  cases hlen : X.length with
  | zero => exact absurd (List.length_eq_zero.mp hlen) hX
  | succ n =>
    have h0 : charAt X (n + 1) = 0 := charAt_of_le X _ (by omega)
    have htake : X.take (n + 1) = X := by rw [← hlen]; exact List.take_length X
    rw [trimFrom, h0, if_pos (by omega), htake]
    cases n with
    | zero => rfl
    | succ m =>
      rw [hlen] at hlast
      simp only [Nat.add_sub_cancel] at hlast
      rw [trimFrom, if_neg (by omega)]

theorem cstr_append_zeros (V : List Nat) (hV : ∀ c ∈ V, c ≠ 0) (k : Nat) :
    cstr (V ++ List.replicate (k + 1) 0) = V := by
  induction V with
  | nil => simp [cstr, List.replicate_succ]
  | cons a V ih =>
    have ha : a ≠ 0 := hV a (by simp)
    have := ih (fun c hc => hV c (by simp [hc]))
    simp only [cstr] at this ⊢
    simp [List.takeWhile_cons, ha, this]

/-- The blank-skipping loop of `ConsumeParam` runs over a block of blanks that is followed by
a character that is no blank, or by the terminator. -/
theorem skipBlanks_block (A B X : List Nat) (hB : ∀ c ∈ B, c ≠ 0 ∧ c ≤ 32)
    (hX : charAt X 0 = 0 ∨ 32 < charAt X 0) :
    skipBlanks (A ++ (B ++ X)) (A ++ (B ++ X)).length A.length = A.length + B.length := by
  obtain ⟨h1, h2, h3⟩ := skipBlanks_spec (A ++ (B ++ X)) (A ++ (B ++ X)).length A.length
    (by omega)
  have hB2 : ∀ k, k < B.length →
      charAt (A ++ (B ++ X)) (A.length + k) ≠ 0 ∧ charAt (A ++ (B ++ X)) (A.length + k) ≤ 32 := by
    intro k hk
    rw [charAt_append_right, charAt_append_left B X k hk]
    exact hB _ (getD_mem_of_lt B k hk)
  have hX2 : charAt (A ++ (B ++ X)) (A.length + B.length) = charAt X 0 := by
    rw [charAt_append_right]
    have := charAt_append_right B X 0
    simpa using this
  generalize skipBlanks (A ++ (B ++ X)) (A ++ (B ++ X)).length A.length = s at h1 h2 h3
  by_contra hne
  rcases Nat.lt_or_gt_of_ne hne with hlt | hgt
  · obtain ⟨k, hk⟩ := Nat.exists_eq_add_of_le h1
    have := hB2 k (by omega)
    rw [← hk] at this
    omega
  · have := h3 (A.length + B.length) (by omega) hgt
    rw [hX2] at this
    omega

/-- `ConsumeParam` once its first loop has found the parameter: the result in terms of where
the value starts (`start`), the flag there, and where the value loop stops (`q`). -/
theorem ConsumeParam_of_found (sp : StartParams) (value name : List Nat) (b l start q : Nat)
    (blank : Bool)
    (hfind : findParam sp.parameters name (sp.parameters.length + 1) 0 = some (b, l))
    (hblank : (if charAt sp.parameters l = 61 then false
      else if charAt sp.parameters l ≤ 32 ∧ charAt sp.parameters l ≠ 0 then true else false) = blank)
    (hstart : (if charAt sp.parameters l = 61 then l + 1
      else if charAt sp.parameters l ≤ 32 ∧ charAt sp.parameters l ≠ 0 then
        skipBlanks sp.parameters sp.parameters.length l
      else l) = start)
    (hscan : (scanToDashes sp.parameters sp.parameters.length start blank).1 = q) :
    ConsumeParam sp value name =
      (true,
        if q ≠ start then
          clearFrom ((sp.parameters.drop start).take (q - start) ++ [0]) (q - start)
        else value,
        { parameters := trimFrom (sp.parameters.take b ++ sp.parameters.drop q)
            (sp.parameters.take b ++ sp.parameters.drop q).length }) := by
  subst hblank
  subst hstart
  subst hscan
  simp only [ConsumeParam, hfind]

/-- `ConsumeParam` on a line `P ++ "--" ++ name ++ sep ++ V ++ W ++ T`: `P` is empty or ends with a blank and
holds no occurrence of the parameter; `sep` is `=`, or blanks followed by a `V` that
starts with neither a blank nor `--`; `V` ends with a character that is no blank and
holds no `--` right after a blank; `W` is blanks; `T` is empty, or starts with `--` and
follows a blank. The value is `V` with every character of `W` and the terminator
turned to NUL, and the line left is `P ++ T` after the trailing loop. -/
theorem ConsumeParam_at (P name sep V W T value : List Nat)
    (hline : ∀ c ∈ P ++ 45 :: 45 :: (name ++ (sep ++ (V ++ (W ++ T)))), c ≠ 0)
    (hname : ∀ c ∈ name, 32 < c)
    (hP : P = [] ∨ charAt P (P.length - 1) ≤ 32)
    (hnone : ∀ p, p < P.length → ¬ occursAt P name p)
    (hsep : sep = [61] ∨ (sep ≠ [] ∧ (∀ c ∈ sep, c ≤ 32) ∧ 32 < charAt V 0 ∧
      ¬ (charAt V 0 = 45 ∧ charAt V 1 = 45)))
    (hV : V ≠ []) (hlast : 32 < charAt V (V.length - 1))
    (hinner : ∀ i, i < V.length → charAt V i ≤ 32 →
      ¬ (charAt V (i + 1) = 45 ∧ charAt V (i + 2) = 45))
    (hW : ∀ c ∈ W, c ≤ 32)
    (hT : T = [] ∨ (W ≠ [] ∧ charAt T 0 = 45 ∧ charAt T 1 = 45)) :
    ConsumeParam ⟨P ++ 45 :: 45 :: (name ++ (sep ++ (V ++ (W ++ T))))⟩ value name =
      (true, V ++ List.replicate (W.length + 1) 0,
        { parameters := trimFrom (P ++ T) (P ++ T).length }) := by
  -- the first loop
  have hP2 : P = [] ∨ ∃ P0 b, P = P0 ++ [b] ∧ b ≤ 32 := by
    rcases hP with h | h
    · exact Or.inl h
    · rcases List.eq_nil_or_concat P with hnil | ⟨P0, b, hPb⟩
      · exact Or.inl hnil
      · right
        have hPb2 : P = P0 ++ [b] := by simpa using hPb
        refine ⟨P0, b, hPb2, ?_⟩
        rw [hPb2] at h
        have h1 : (P0 ++ [b]).length - 1 = P0.length := by simp
        rw [h1, charAt_getD, getD_at_length] at h
        exact h
  have hnone2 : ∀ p, ¬ occursAt P name p := by
    intro p hocc
    by_cases hp : p < P.length
    · exact hnone p hp hocc
    · have := charAt_of_le P p (by omega)
      have := hocc.2.1
      omega
  have hsep0 : charAt (sep ++ (V ++ (W ++ T))) 0 ≤ 32 ∨ charAt (sep ++ (V ++ (W ++ T))) 0 = 61 := by
    rcases hsep with h | ⟨hne, hb, _, _⟩
    · right; rw [h]; rfl
    · left
      have h0 : 0 < sep.length := List.length_pos.mpr hne
      rw [charAt_append_left sep _ 0 h0]
      exact charAt_le_of_mem sep hb 0
  have hfind := findParam_at P name (sep ++ (V ++ (W ++ T))) hline hname hP2 hnone2 hsep0
  obtain ⟨_, _, _, cr⟩ := charAt_param P name (sep ++ (V ++ (W ++ T)))
  have hat : charAt (P ++ 45 :: 45 :: (name ++ (sep ++ (V ++ (W ++ T)))))
      (P.length + 2 + name.length) = charAt (sep ++ (V ++ (W ++ T))) 0 := by
    have := cr 0
    rw [Nat.add_zero] at this
    exact this
  -- the line seen from the start of the value
  have hshape : P ++ 45 :: 45 :: (name ++ (sep ++ (V ++ (W ++ T)))) =
      (P ++ 45 :: 45 :: (name ++ sep)) ++ (V ++ (W ++ T)) := by simp
  have hAlen : (P ++ 45 :: 45 :: (name ++ sep)).length =
      P.length + 2 + name.length + sep.length := by
    simp only [List.length_append, List.length_cons]
    omega
  have hline2 : ∀ c ∈ (P ++ 45 :: 45 :: (name ++ sep)) ++ (V ++ (W ++ T)), c ≠ 0 := by
    rw [← hshape]; exact hline
  have hprev : 0 < sep.length → charAt ((P ++ 45 :: 45 :: (name ++ sep)) ++ (V ++ (W ++ T)))
      ((P ++ 45 :: 45 :: (name ++ sep)).length - 1) = charAt sep (sep.length - 1) := by
    intro hs
    rw [← hshape, hAlen]
    have hidx : P.length + 2 + name.length + sep.length - 1 =
        P.length + 2 + name.length + (sep.length - 1) := by omega
    rw [hidx, cr, charAt_append_left sep _ _ (by omega)]
  have hVpos : 0 < V.length := List.length_pos.mpr hV
  -- start and flag, by the form of the separator
  obtain ⟨blank, hblank, hstart, hflag, hV0⟩ : ∃ blank : Bool,
      (if charAt (P ++ 45 :: 45 :: (name ++ (sep ++ (V ++ (W ++ T)))))
          (P.length + 2 + name.length) = 61 then false
        else if charAt (P ++ 45 :: 45 :: (name ++ (sep ++ (V ++ (W ++ T)))))
            (P.length + 2 + name.length) ≤ 32 ∧
          charAt (P ++ 45 :: 45 :: (name ++ (sep ++ (V ++ (W ++ T)))))
            (P.length + 2 + name.length) ≠ 0 then true else false) = blank ∧
      (if charAt (P ++ 45 :: 45 :: (name ++ (sep ++ (V ++ (W ++ T)))))
          (P.length + 2 + name.length) = 61 then P.length + 2 + name.length + 1
        else if charAt (P ++ 45 :: 45 :: (name ++ (sep ++ (V ++ (W ++ T)))))
            (P.length + 2 + name.length) ≤ 32 ∧
          charAt (P ++ 45 :: 45 :: (name ++ (sep ++ (V ++ (W ++ T)))))
            (P.length + 2 + name.length) ≠ 0 then
          skipBlanks (P ++ 45 :: 45 :: (name ++ (sep ++ (V ++ (W ++ T)))))
            (P ++ 45 :: 45 :: (name ++ (sep ++ (V ++ (W ++ T))))).length
            (P.length + 2 + name.length)
        else P.length + 2 + name.length) = (P ++ 45 :: 45 :: (name ++ sep)).length ∧
      (blank = true ↔ (0 < (P ++ 45 :: 45 :: (name ++ sep)).length ∧
        charAt ((P ++ 45 :: 45 :: (name ++ sep)) ++ (V ++ (W ++ T)))
          ((P ++ 45 :: 45 :: (name ++ sep)).length - 1) ≤ 32)) ∧
      (blank = true → ¬ (charAt V 0 = 45 ∧ charAt V 1 = 45)) := by
    rcases hsep with h | ⟨hne, hb, hv0, hvd⟩
    · have hc : charAt (P ++ 45 :: 45 :: (name ++ (sep ++ (V ++ (W ++ T)))))
          (P.length + 2 + name.length) = 61 := by
        rw [hat, h]; rfl
      refine ⟨false, by rw [if_pos hc], ?_, ?_, fun hf => absurd hf (by decide)⟩
      · rw [if_pos hc, hAlen, h]; rfl
      · have hp := hprev (by rw [h]; decide)
        rw [hp, h]
        simp [charAt]
    · have h0 : 0 < sep.length := List.length_pos.mpr hne
      have hsepnz : ∀ c ∈ sep, c ≠ 0 ∧ c ≤ 32 := by
        intro c hc
        refine ⟨hline c ?_, hb c hc⟩
        simp [hc]
      have hc0 : charAt (P ++ 45 :: 45 :: (name ++ (sep ++ (V ++ (W ++ T)))))
          (P.length + 2 + name.length) = charAt sep 0 := by
        rw [hat, charAt_append_left sep _ 0 h0]
      have hs0 := hsepnz _ (getD_mem_of_lt sep 0 h0)
      rw [← charAt_getD, ← hc0] at hs0
      have hc1 : ¬ charAt (P ++ 45 :: 45 :: (name ++ (sep ++ (V ++ (W ++ T)))))
          (P.length + 2 + name.length) = 61 := by omega
      have hc2 : charAt (P ++ 45 :: 45 :: (name ++ (sep ++ (V ++ (W ++ T)))))
            (P.length + 2 + name.length) ≤ 32 ∧
          charAt (P ++ 45 :: 45 :: (name ++ (sep ++ (V ++ (W ++ T)))))
            (P.length + 2 + name.length) ≠ 0 := ⟨hs0.2, hs0.1⟩
      refine ⟨true, by rw [if_neg hc1, if_pos hc2], ?_, ?_, fun _ => hvd⟩
      · rw [if_neg hc1, if_pos hc2]
        have hshape3 : P ++ 45 :: 45 :: (name ++ (sep ++ (V ++ (W ++ T)))) =
            (P ++ 45 :: 45 :: name) ++ (sep ++ (V ++ (W ++ T))) := by simp
        have hlen3 : (P ++ 45 :: 45 :: name).length = P.length + 2 + name.length := by
          simp only [List.length_append, List.length_cons]
          omega
        have hX : charAt (V ++ (W ++ T)) 0 = 0 ∨ 32 < charAt (V ++ (W ++ T)) 0 := by
          right
          rw [charAt_append_left V _ 0 hVpos]
          exact hv0
        have := skipBlanks_block (P ++ 45 :: 45 :: name) sep (V ++ (W ++ T)) hsepnz hX
        rw [← hshape3, hlen3] at this
        rw [this, hAlen]
      · have hp := hprev h0
        simp only [true_iff]
        refine ⟨by omega, ?_⟩
        rw [hp]
        exact charAt_le_of_mem sep hb _
  -- the value loop
  have hscan := valueScan_spec (P ++ 45 :: 45 :: (name ++ sep)) V W T blank hline2 hflag hV0
    hinner hW hT
  rw [← hshape] at hscan
  have hres := ConsumeParam_of_found
    ⟨P ++ 45 :: 45 :: (name ++ (sep ++ (V ++ (W ++ T))))⟩ value name P.length
    (P.length + 2 + name.length) (P ++ 45 :: 45 :: (name ++ sep)).length
    ((P ++ 45 :: 45 :: (name ++ sep)).length + V.length + W.length) blank hfind hblank hstart
    hscan
  rw [hres]
  have hne : (P ++ 45 :: 45 :: (name ++ sep)).length + V.length + W.length ≠
      (P ++ 45 :: 45 :: (name ++ sep)).length := by omega
  have hsub : (P ++ 45 :: 45 :: (name ++ sep)).length + V.length + W.length -
      (P ++ 45 :: 45 :: (name ++ sep)).length = V.length + W.length := by omega
  have hraw : ((P ++ 45 :: 45 :: (name ++ (sep ++ (V ++ (W ++ T))))).drop
      (P ++ 45 :: 45 :: (name ++ sep)).length).take (V.length + W.length) = V ++ W := by
    rw [hshape, List.drop_left]
    have : V ++ (W ++ T) = (V ++ W) ++ T := by simp
    rw [this]
    have hl : V.length + W.length = (V ++ W).length := by simp
    rw [hl, List.take_left]
  have htake : (P ++ 45 :: 45 :: (name ++ (sep ++ (V ++ (W ++ T))))).take P.length = P :=
    List.take_left P _
  have hdrop : (P ++ 45 :: 45 :: (name ++ (sep ++ (V ++ (W ++ T))))).drop
      ((P ++ 45 :: 45 :: (name ++ sep)).length + V.length + W.length) = T := by
    have h1 : P ++ 45 :: 45 :: (name ++ (sep ++ (V ++ (W ++ T)))) =
        ((P ++ 45 :: 45 :: (name ++ sep)) ++ (V ++ W)) ++ T := by simp
    have h2 : (P ++ 45 :: 45 :: (name ++ sep)).length + V.length + W.length =
        ((P ++ 45 :: 45 :: (name ++ sep)) ++ (V ++ W)).length := by
      simp only [List.length_append, List.length_cons]
      omega
    rw [h1, h2, List.drop_left]
  simp only [StartParams.mk.injEq, if_pos hne, hsub, hraw, htake, hdrop,
    clearFrom_spec V W hV hlast hW]

/-- C22. On a line `P ++ "--name=V" ++ " " ++ S`, where `P` is empty or ends with a blank and holds no
occurrence of the parameter, `V` is non-empty without blanks, and `S` starts with `--` and
does not end with a blank, `ConsumeParam(value, name)` returns true and the line left is
exactly `P ++ S`. -/
theorem ConsumeParam_removes_only_parameter (P name V S value : List Nat)
    (hline : ∀ c ∈ P ++ 45 :: 45 :: (name ++ 61 :: (V ++ 32 :: S)), c ≠ 0)
    (hname : ∀ c ∈ name, 32 < c)
    (hP : P = [] ∨ charAt P (P.length - 1) ≤ 32)
    (hnone : ∀ p, p < P.length → ¬ occursAt P name p)
    (hV : V ≠ []) (hVnb : ∀ c ∈ V, 32 < c)
    (hS : charAt S 0 = 45 ∧ charAt S 1 = 45) (hSlast : 32 < charAt S (S.length - 1)) :
    (ConsumeParam ⟨P ++ 45 :: 45 :: (name ++ 61 :: (V ++ 32 :: S))⟩ value name).1 = true ∧
    (ConsumeParam ⟨P ++ 45 :: 45 :: (name ++ 61 :: (V ++ 32 :: S))⟩ value name).2.2 =
      ⟨P ++ S⟩ ∧
    GetRemLine (ConsumeParam ⟨P ++ 45 :: 45 :: (name ++ 61 :: (V ++ 32 :: S))⟩ value name).2.2 =
      P ++ S := by
  have hVpos : 0 < V.length := List.length_pos.mpr hV
  have hlast : 32 < charAt V (V.length - 1) :=
    hVnb _ (getD_mem_of_lt V (V.length - 1) (by omega))
  have hinner : ∀ i, i < V.length → charAt V i ≤ 32 →
      ¬ (charAt V (i + 1) = 45 ∧ charAt V (i + 2) = 45) := by
    intro i hi hb
    have := hVnb _ (getD_mem_of_lt V i hi)
    rw [← charAt_getD] at this
    omega
  have hres := ConsumeParam_at P name [61] V [32] S value hline hname hP hnone (Or.inl rfl)
    hV hlast hinner (by intro c hc; simp at hc; omega) (Or.inr ⟨by simp, hS.1, hS.2⟩)
  have hSne : S ≠ [] := by
    intro h
    rw [h] at hS
    simp [charAt] at hS
  have hSpos : 0 < S.length := List.length_pos.mpr hSne
  have htrim : trimFrom (P ++ S) (P ++ S).length = P ++ S := by
    apply trimFrom_spec
    · simp [hSne]
    · have hidx : (P ++ S).length - 1 = P.length + (S.length - 1) := by
        simp only [List.length_append]; omega
      rw [hidx, charAt_append_right]
      exact hSlast
  rw [htrim] at hres
  have hres2 : ConsumeParam ⟨P ++ 45 :: 45 :: (name ++ 61 :: (V ++ 32 :: S))⟩ value name =
      (true, V ++ List.replicate 2 0, ⟨P ++ S⟩) := hres
  rw [hres2]
  exact ⟨rfl, rfl, rfl⟩

/-- C22, at the spec's example: `--a 1 --name=x --b 2` with the name `name` leaves `--a 1 --b 2`. -/
theorem ConsumeParam_removes_only_parameter_witness :
    (ConsumeParam ⟨wstr "--a 1 --name=x --b 2"⟩ [] (wstr "name")).1 = true ∧
    (ConsumeParam ⟨wstr "--a 1 --name=x --b 2"⟩ [] (wstr "name")).2.2 =
      ⟨wstr "--a 1 --b 2"⟩ := by
  have h := ConsumeParam_removes_only_parameter (wstr "--a 1 ") (wstr "name") (wstr "x")
    (wstr "--b 2") [] (by decide) (by decide) (by decide) (by decide) (by decide) (by decide)
    (by decide) (by decide)
  exact ⟨h.1, h.2.1⟩

/-- C23. When the matched `--name` is followed by `=`, or by blanks and a text that starts with
neither a blank nor `--`, and `V ++ W` is the text from there up to the next `--` that
follows a blank (`T`) or up to the end of the line, `W` being its trailing blanks and `V`
ending with a character that is no blank, then `ConsumeParam` returns true and `value`
holds `V` followed by NUL (one for the terminator and one for each blank of `W`), so it
reads as the C string `V`. The value is the same for either separator. -/
theorem ConsumeParam_value (P name sep V W T value : List Nat)
    (hline : ∀ c ∈ P ++ 45 :: 45 :: (name ++ (sep ++ (V ++ (W ++ T)))), c ≠ 0)
    (hname : ∀ c ∈ name, 32 < c)
    (hP : P = [] ∨ charAt P (P.length - 1) ≤ 32)
    (hnone : ∀ p, p < P.length → ¬ occursAt P name p)
    (hsep : sep = [61] ∨ (sep ≠ [] ∧ (∀ c ∈ sep, c ≤ 32) ∧ 32 < charAt V 0 ∧
      ¬ (charAt V 0 = 45 ∧ charAt V 1 = 45)))
    (hV : V ≠ []) (hlast : 32 < charAt V (V.length - 1))
    (hinner : ∀ i, i < V.length → charAt V i ≤ 32 →
      ¬ (charAt V (i + 1) = 45 ∧ charAt V (i + 2) = 45))
    (hW : ∀ c ∈ W, c ≤ 32)
    (hT : T = [] ∨ (W ≠ [] ∧ charAt T 0 = 45 ∧ charAt T 1 = 45)) :
    (ConsumeParam ⟨P ++ 45 :: 45 :: (name ++ (sep ++ (V ++ (W ++ T))))⟩ value name).1 = true ∧
    (ConsumeParam ⟨P ++ 45 :: 45 :: (name ++ (sep ++ (V ++ (W ++ T))))⟩ value name).2.1 =
      V ++ List.replicate (W.length + 1) 0 ∧
    cstr (ConsumeParam ⟨P ++ 45 :: 45 :: (name ++ (sep ++ (V ++ (W ++ T))))⟩ value name).2.1 =
      V := by
  have hres := ConsumeParam_at P name sep V W T value hline hname hP hnone hsep hV hlast hinner
    hW hT
  rw [hres]
  refine ⟨rfl, rfl, ?_⟩
  apply cstr_append_zeros
  intro c hc
  apply hline
  simp [hc]

/-- C23, at the spec's example: `--name a b c --next` gives the value `a b c`, and so does
`--name=a b c --next`. -/
theorem ConsumeParam_value_witness :
    cstr (ConsumeParam ⟨wstr "--name a b c --next"⟩ [] (wstr "name")).2.1 = wstr "a b c" ∧
    (ConsumeParam ⟨wstr "--name a b c --next"⟩ [] (wstr "name")).2.1 = wstr "a b c" ++ [0, 0] ∧
    (ConsumeParam ⟨wstr "--name=a b c --next"⟩ [] (wstr "name")).2.1 =
      (ConsumeParam ⟨wstr "--name a b c --next"⟩ [] (wstr "name")).2.1 := by
  have h1 := ConsumeParam_value [] (wstr "name") (wstr " ") (wstr "a b c") (wstr " ")
    (wstr "--next") [] (by decide) (by decide) (by decide) (by decide) (by decide) (by decide)
    (by decide) (by decide) (by decide) (by decide)
  have h2 := ConsumeParam_value [] (wstr "name") (wstr "=") (wstr "a b c") (wstr " ")
    (wstr "--next") [] (by decide) (by decide) (by decide) (by decide) (by decide) (by decide)
    (by decide) (by decide) (by decide) (by decide)
  exact ⟨h1.2.2, h1.2.1, h2.2.1.trans h1.2.1.symm⟩

end M8M
